import Mathlib

/-!
# XtraPuLP distributed graph store (`dist_graph.cpp`)

A shallow embedding of the graph construction and ghost relabeling code of
`src/xtrapulp/0.3/dist_graph.cpp`, followed by theorems about it.

Conventions of the embedding.

* `uint64_t` values are natural numbers; arithmetic that can wrap on
  representable operands is written with an explicit `% U64` (`add64`, `sub64`).
  Edge counters and offsets, which are bounded by the number of entries of an
  allocated array, are added without reduction, and a loop bound such as
  `m_local*2` is taken not to wrap.
* C arrays are lists.  A read or write outside the bounds of an array is
  undefined behaviour in C; here it makes the enclosing function return `none`,
  and so does a division by zero.
* A C `for` loop with `k` iterations is `forLoop k body s`: the state after the
  iterations `0, 1, ..., k-1` have run in this order on the start state `s`.
  The loops marked `omp parallel for` have independent iterations and are run
  in index order.
* The functions mutate the graph structure through a pointer; here they take
  the old structure and return the new one.  Allocation is taken to succeed.
* `procid`, `nprocs` are globals of the program; `nprocs` is an explicit
  argument where it is read.
* `fast_map.h`, `util.h`, `dist_graph.h`, `comms.h` are not part of the
  sources: the map operations, `highest_less_than`, the `out_degree` macro and
  the exchange of vertex data are modelled from the spec, the structures from
  the fields the code uses.
* `int64_t` and `int32_t` values are integers; a signed sum that leaves the
  `int64_t` range is undefined and gives `none`.
* An MPI collective is a point where all processes meet.  A function with a
  collective call takes the result of the call as an argument, and a
  definition `..._all` runs the function on the list of all processes, process
  `p` on entry `p`, and supplies the combined contributions.
* Where an `assert` guards a step, the function returns `Except fault`, which
  tells a failed assertion from undefined behaviour.
-/

namespace XtraPuLP

/-! ## Machine arithmetic and arrays -/

/-- Modulus of `uint64_t` arithmetic. -/
def U64 : Nat := 2 ^ 64

/-- The `uint64_t` difference `a - b` (wraps around), for `b ≤ 2^64`. -/
def sub64 (a b : Nat) : Nat := (a + U64 - b) % U64

/-- The `uint64_t` sum `a + b` (wraps around). -/
def add64 (a b : Nat) : Nat := (a + b) % U64

/-- The cast `(int32_t)x`: reduction modulo `2^32` into the signed range. -/
def to_int32 (x : Int) : Int :=
  if x % 4294967296 < 2147483648 then x % 4294967296 else x % 4294967296 - 4294967296

/-- Array read `a[i]`; `none` when `i` is out of bounds. -/
def rd {α : Type} (a : List α) (i : Nat) : Option α := a[i]?

/-- Array write `a[i] = v`; `none` when `i` is out of bounds. -/
def wr {α : Type} (a : List α) (i : Nat) (v : α) : Option (List α) :=
  if i < a.length then some (a.set i v) else none

/-- The loop `for (k = 0; k < n; ++k) body(k)` threaded through a state. -/
def forLoop {σ : Type} (n : Nat) (body : Nat → σ → Option σ) (s : σ) : Option σ :=
  match n with
  | 0 => some s
  | k + 1 => (forLoop k body s).bind (body k)

/-! ## The key-to-index map (`fast_map.h`, not part of the sources) -/

/-- Modelled from the spec: the absent-key sentinel `NULL_KEY` of `fast_map.h`
(the header is missing); the spec calls it the sentinel "infinite" id that
loses every min-reduction over `uint64_t`, that is `2^64 - 1`. -/
def NULL_KEY : Nat := 2 ^ 64 - 1

/-- Modelled from the spec: the `fast_map` structure of `fast_map.h` (the header
is missing).  The spec describes a finite key-value map from global ids to
local indices together with "an enumerable set of keys inserted since
initialization" (`unique_keys`) "and a running count of that set"
(`num_unique`).  `entries` holds the key-value pairs, the most recent binding
of a key first.  `hashing` records which of the two modes of the spec the map
was initialised in (hash-table mode, or the pass-through "no-hash" mode of the
single-process case). -/
structure fast_map where
  entries : List (Nat × Nat)
  unique_keys : List Nat
  hashing : Bool
deriving DecidableEq

/-- Modelled from the spec: `map->num_unique`, the running count of the keys
recorded in `unique_keys` (header `fast_map.h` is missing). -/
def fast_map.num_unique (mp : fast_map) : Nat := mp.unique_keys.length

/-- Modelled from the spec: `init_map(map, capacity)` of the missing `fast_map.h`:
`init(capacity)` gives an empty map with no recorded insertions. -/
def init_map (_capacity : Nat) : fast_map := ⟨[], [], true⟩

/-- Modelled from the spec: `init_map_nohash(map, capacity)` of the missing
`fast_map.h`: `init_identity(capacity)` gives an empty map in the pass-through
mode. -/
def init_map_nohash (_capacity : Nat) : fast_map := ⟨[], [], false⟩

/-- Modelled from the spec: `get_value(map, key)` of the missing `fast_map.h`:
`lookup(key) → value_or_sentinel`. -/
def get_value (mp : fast_map) (key : Nat) : Nat :=
  match mp.entries.find? (fun e => e.1 = key) with
  | some e => e.2
  | none => NULL_KEY

/-- Modelled from the spec: `set_value(map, key, value)` of the missing
`fast_map.h`: `insert(key, value)`, binding `key` to `value` whether or not it
was bound before; it does not record the key in `unique_keys`. -/
def set_value (mp : fast_map) (key value : Nat) : fast_map :=
  { mp with entries := (key, value) :: mp.entries }

/-- Modelled from the spec: `set_value_uq(map, key, value)` of the missing
`fast_map.h`: an insertion that binds `key` to `value` and, when the key was not
in the map, appends it to the recorded `unique_keys`. -/
def set_value_uq (mp : fast_map) (key value : Nat) : fast_map :=
  if mp.entries.any (fun e => e.1 = key) then
    { mp with entries := (key, value) :: mp.entries }
  else
    { mp with entries := (key, value) :: mp.entries, unique_keys := mp.unique_keys ++ [key] }

/-! ## Data model -/

/-- The generator output `graph_gen_data_t` (declared in a missing header; the
fields are those `dist_graph.cpp` reads).  `gen_edges` is the flat edge array,
`edge_weights` the separate raw edge-weight array of the serial weighted
input. -/
structure graph_gen_data_t where
  n : Nat
  m : Nat
  n_local : Nat
  n_offset : Nat
  m_local_read : Nat
  m_local_edges : Nat
  gen_edges : List Nat
  vert_weights : Option (List Int)
  edge_weights : List Int
  vert_weights_sums : Option (List Int)
  edge_weights_sum : Int
  max_vert_weights : Option (List Int)
  max_edge_weight : Int
  num_vert_weights : Nat
  num_edge_weights : Nat
deriving DecidableEq

/-- The per-process graph `dist_graph_t` (declared in the missing
`dist_graph.h`; the fields are those `dist_graph.cpp` uses).  Pointers that the
code sets to `NULL` are options. -/
structure dist_graph_t where
  n : Nat
  m : Nat
  m_local : Nat
  n_local : Nat
  n_offset : Nat
  n_ghost : Nat
  n_total : Nat
  max_degree_vert : Nat
  max_degree : Nat
  out_edges : List Nat
  out_degree_list : List Nat
  ghost_degrees : List Nat
  local_unmap : List Nat
  ghost_unmap : Option (List Nat)
  ghost_tasks : Option (List Nat)
  map : fast_map
  vert_weights : Option (List Int)
  edge_weights : Option (List Int)
  vert_weights_sums : Option (List Int)
  edge_weights_sum : Int
  max_vert_weights : Option (List Int)
  max_edge_weight : Int
  num_vert_weights : Nat
  num_edge_weights : Nat
deriving DecidableEq

/-! ## Counting-sort passes of the generator-input constructors

The four constructors repeat the same three loops; they differ in the stride of
the flat edge array (2 or 3), the offset subtracted from a source, and whether
an edge weight is written next to the destination. -/

/-- Body of the first pass, line 107 (188, 274, 352), for the edge `k` at flat
index `i = stride * k`: `++temp_counts[gen_edges[i] - n_offset];` -/
def count_sources_step (gen_edges : List Nat) (stride n_offset : Nat)
    (k : Nat) (temp_counts : List Nat) : Option (List Nat) := do
  let src ← rd gen_edges (stride * k)
  let c ← rd temp_counts (sub64 src n_offset)
  wr temp_counts (sub64 src n_offset) (c + 1)

/-- First pass, lines 106-107 (187-188, 273-274, 351-352):
`for (i = 0; i < m_local*stride; i += stride) ++temp_counts[gen_edges[i] - n_offset];` -/
def count_sources (gen_edges : List Nat) (stride n_offset m_local : Nat)
    (temp_counts : List Nat) : Option (List Nat) :=
  forLoop m_local (count_sources_step gen_edges stride n_offset) temp_counts

/-- Body of the offsets pass, line 109 (190, 276, 354):
`out_degree_list[i+1] = out_degree_list[i] + temp_counts[i];` -/
def fill_degree_list_step (temp_counts : List Nat) (i : Nat)
    (out_degree_list : List Nat) : Option (List Nat) := do
  let a ← rd out_degree_list i
  let c ← rd temp_counts i
  wr out_degree_list (i + 1) (a + c)

/-- Offsets pass, lines 108-109 (189-190, 275-276, 353-354):
`for (i = 0; i < n_local; ++i) out_degree_list[i+1] = out_degree_list[i] + temp_counts[i];` -/
def fill_degree_list (temp_counts : List Nat) (n_local : Nat)
    (out_degree_list : List Nat) : Option (List Nat) :=
  forLoop n_local (fill_degree_list_step temp_counts) out_degree_list

/-- Body of the second pass without weights, line 114 (280), for the edge `k` at
flat index `i = 2 * k`:
`out_edges[temp_counts[gen_edges[i] - n_offset]++] = gen_edges[i+1];`
The state is `(out_edges, temp_counts)`. -/
def scatter_edges_step (gen_edges : List Nat) (n_offset : Nat)
    (k : Nat) (st : List Nat × List Nat) : Option (List Nat × List Nat) := do
  let src ← rd gen_edges (2 * k)
  let pos ← rd st.2 (sub64 src n_offset)
  let dst ← rd gen_edges (2 * k + 1)
  let oe ← wr st.1 pos dst
  let tc ← wr st.2 (sub64 src n_offset) (pos + 1)
  pure (oe, tc)

/-- Second pass without weights, lines 113-114 (279-280):
`for (i = 0; i < m_local*2; i += 2) ...`. -/
def scatter_edges (gen_edges : List Nat) (n_offset m_local : Nat)
    (s : List Nat × List Nat) : Option (List Nat × List Nat) :=
  forLoop m_local (scatter_edges_step gen_edges n_offset) s

/-- Body of the second pass with weights, lines 194-198 (358-362): the
destination goes to `out_edges` and the weight, cast to `int32_t`, to
`edge_weights`, both at the cursor of the source; then the cursor advances.
`weight k` reads the raw weight of edge `k` (`gen_edges[3k+2]`, or
`ggi->edge_weights[i/2]`).  The state is `(out_edges, edge_weights, temp_counts)`. -/
def scatter_edges_weighted_step (gen_edges : List Nat) (stride n_offset : Nat)
    (weight : Nat → Option Int) (k : Nat)
    (st : List Nat × List Int × List Nat) : Option (List Nat × List Int × List Nat) := do
  let src ← rd gen_edges (stride * k)
  let pos ← rd st.2.2 (sub64 src n_offset)
  let dst ← rd gen_edges (stride * k + 1)
  let oe ← wr st.1 pos dst
  let w ← weight k
  let ew ← wr st.2.1 pos (to_int32 w)
  let tc ← wr st.2.2 (sub64 src n_offset) (pos + 1)
  pure (oe, ew, tc)

/-- The raw weight `gen_edges[i+2]` of edge `k` in an array of
`(src, dst, weight)` triples, `i = 3 * k` (line 197). -/
def triple_weight (gen_edges : List Nat) (k : Nat) : Option Int :=
  match rd gen_edges (3 * k + 2) with
  | some w => some (Int.ofNat w)
  | none => none

/-- Second pass with weights, lines 193-199 (357-363). -/
def scatter_edges_weighted (gen_edges : List Nat) (stride n_offset m_local : Nat)
    (weight : Nat → Option Int)
    (s : List Nat × List Int × List Nat) : Option (List Nat × List Int × List Nat) :=
  forLoop m_local (scatter_edges_weighted_step gen_edges stride n_offset weight) s

/-- Lines 125-130 (211-216): `local_unmap[i] = i + n_offset`, replaced by `n-1`
when it is `>= n`. -/
def local_unmap_clamped (n n_local n_offset : Nat) : List Nat :=
  (List.range n_local).map (fun i =>
    if add64 i n_offset ≥ n then sub64 n 1 else add64 i n_offset)

/-- Lines 291-292 (376-377, 530-531): `local_unmap[i] = i + g->n_offset`. -/
def local_unmap_plain (n_local n_offset : Nat) : List Nat :=
  (List.range n_local).map (fun i => add64 i n_offset)

/-! ## Constructors from generator data -/

/-- `create_graph(graph_gen_data_t *ggi, dist_graph_t *g)`, lines 62-139.
Freshly allocated arrays that the code zeroes are zero lists; `out_edges` is
allocated uninitialised and is modelled as a zero list as well. -/
def create_graph (ggi : graph_gen_data_t) (g : dist_graph_t) : Option dist_graph_t := do
  let n_local := ggi.n_local
  let n_offset := ggi.n_offset
  let m_local := ggi.m_local_edges
  let out_edges := List.replicate m_local 0
  let out_degree_list := List.replicate (n_local + 1) 0
  let temp_counts := List.replicate n_local 0
  let temp_counts ← count_sources ggi.gen_edges 2 n_offset m_local temp_counts
  let out_degree_list ← fill_degree_list temp_counts n_local out_degree_list
  let temp_counts := out_degree_list.take n_local
  let (out_edges, _) ← scatter_edges ggi.gen_edges n_offset m_local (out_edges, temp_counts)
  pure { g with
    n := ggi.n
    n_local := n_local
    n_offset := n_offset
    m := ggi.m
    m_local := m_local
    map := g.map
    vert_weights := none
    edge_weights := none
    vert_weights_sums := none
    edge_weights_sum := 0
    max_vert_weights := none
    max_edge_weight := 0
    num_vert_weights := 0
    num_edge_weights := 0
    out_edges := out_edges
    out_degree_list := out_degree_list
    local_unmap := local_unmap_clamped ggi.n n_local n_offset }

/-- `create_graph_weighted(graph_gen_data_t *ggi, dist_graph_t *g)`, lines
142-225: the flat edge array holds `(src, dst, weight)` triples. -/
def create_graph_weighted (ggi : graph_gen_data_t) (g : dist_graph_t) :
    Option dist_graph_t := do
  let n_local := ggi.n_local
  let n_offset := ggi.n_offset
  let m_local := ggi.m_local_edges
  let out_edges := List.replicate m_local 0
  let out_degree_list := List.replicate (n_local + 1) 0
  let temp_counts := List.replicate n_local 0
  let edge_weights := List.replicate m_local (0 : Int)
  let temp_counts ← count_sources ggi.gen_edges 3 n_offset m_local temp_counts
  let out_degree_list ← fill_degree_list temp_counts n_local out_degree_list
  let temp_counts := out_degree_list.take n_local
  let (out_edges, edge_weights, _) ←
    scatter_edges_weighted ggi.gen_edges 3 n_offset m_local
      (triple_weight ggi.gen_edges)
      (out_edges, edge_weights, temp_counts)
  pure { g with
    n := ggi.n
    n_local := n_local
    n_offset := n_offset
    m := ggi.m
    m_local := m_local
    map := g.map
    vert_weights := ggi.vert_weights
    vert_weights_sums := ggi.vert_weights_sums
    edge_weights_sum := ggi.edge_weights_sum
    max_vert_weights := ggi.max_vert_weights
    max_edge_weight := ggi.max_edge_weight
    num_vert_weights := ggi.num_vert_weights
    num_edge_weights := ggi.num_edge_weights
    out_edges := out_edges
    out_degree_list := out_degree_list
    edge_weights := some edge_weights
    local_unmap := local_unmap_clamped ggi.n n_local n_offset }

/-- `create_graph_serial(graph_gen_data_t *ggi, dist_graph_t *g)`, lines
228-303: `g->n_offset` is set to 0 and it is this 0 that the passes subtract. -/
def create_graph_serial (ggi : graph_gen_data_t) (g : dist_graph_t) :
    Option dist_graph_t := do
  let n_local := ggi.n_local
  let n_offset := 0
  let m_local := ggi.m_local_edges
  let out_edges := List.replicate m_local 0
  let out_degree_list := List.replicate (n_local + 1) 0
  let temp_counts := List.replicate n_local 0
  let temp_counts ← count_sources ggi.gen_edges 2 n_offset m_local temp_counts
  let out_degree_list ← fill_degree_list temp_counts n_local out_degree_list
  let temp_counts := out_degree_list.take n_local
  let (out_edges, _) ← scatter_edges ggi.gen_edges n_offset m_local (out_edges, temp_counts)
  pure { g with
    n := ggi.n
    n_local := n_local
    n_offset := n_offset
    m := ggi.m
    m_local := m_local
    n_ghost := 0
    n_total := n_local
    vert_weights := none
    edge_weights := none
    vert_weights_sums := none
    edge_weights_sum := 0
    max_vert_weights := none
    max_edge_weight := 0
    num_vert_weights := 0
    num_edge_weights := 0
    out_edges := out_edges
    out_degree_list := out_degree_list
    local_unmap := local_unmap_plain n_local n_offset
    map := init_map_nohash ggi.n }

/-- `create_graph_serial_weighted(graph_gen_data_t *ggi, dist_graph_t *g)`,
lines 306-388: `m_local` is `ggi->m_local_read`, the edge array holds
`(src, dst)` pairs and the weight of edge `i/2` is `ggi->edge_weights[i/2]`. -/
def create_graph_serial_weighted (ggi : graph_gen_data_t) (g : dist_graph_t) :
    Option dist_graph_t := do
  let n_local := ggi.n_local
  let n_offset := 0
  let m_local := ggi.m_local_read
  let out_edges := List.replicate m_local 0
  let out_degree_list := List.replicate (n_local + 1) 0
  let temp_counts := List.replicate n_local 0
  let edge_weights := List.replicate m_local (0 : Int)
  let temp_counts ← count_sources ggi.gen_edges 2 n_offset m_local temp_counts
  let out_degree_list ← fill_degree_list temp_counts n_local out_degree_list
  let temp_counts := out_degree_list.take n_local
  let (out_edges, edge_weights, _) ←
    scatter_edges_weighted ggi.gen_edges 2 n_offset m_local
      (rd ggi.edge_weights)
      (out_edges, edge_weights, temp_counts)
  pure { g with
    n := ggi.n
    n_local := n_local
    n_offset := n_offset
    m := ggi.m
    m_local := m_local
    n_ghost := 0
    n_total := n_local
    vert_weights := ggi.vert_weights
    vert_weights_sums := ggi.vert_weights_sums
    edge_weights_sum := ggi.edge_weights_sum
    max_vert_weights := ggi.max_vert_weights
    max_edge_weight := ggi.max_edge_weight
    num_vert_weights := ggi.num_vert_weights
    num_edge_weights := ggi.num_edge_weights
    out_edges := out_edges
    out_degree_list := out_degree_list
    edge_weights := some edge_weights
    local_unmap := local_unmap_plain n_local n_offset
    map := init_map_nohash ggi.n }

/-! ## Ghost discovery and relabeling -/

/-- Modelled from the spec: `highest_less_than(vert_dist, global_id)` of the
missing `util.h`: "the rank whose assigned range's lower bound is the greatest
value not exceeding `global_id`", found by a descending lookup over the
boundary array.  `highest_below vert_dist val r` inspects the ranks
`r-1, r-2, ..., 0` in this order. -/
def highest_below (vert_dist : List Nat) (val : Nat) : Nat → Nat
  | 0 => 0
  | r + 1 => if vert_dist.getD r 0 ≤ val then r else highest_below vert_dist val r

/-- Modelled from the spec: `highest_less_than` (see `highest_below`), started
at the last rank `nprocs - 1`. -/
def highest_less_than (nprocs : Nat) (vert_dist : List Nat) (val : Nat) : Nat :=
  highest_below vert_dist val nprocs

/-- Body of lines 585-589: `set_value(g->map, g->local_unmap[i], i)`. -/
def seed_map_step (local_unmap : List Nat) (i : Nat) (mp : fast_map) : Option fast_map := do
  let vert ← rd local_unmap i
  pure (set_value mp vert i)

/-- Lines 585-589: seed the map with the owned vertices. -/
def seed_map (local_unmap : List Nat) (n_local : Nat) (mp : fast_map) : Option fast_map :=
  forLoop n_local (seed_map_step local_unmap) mp

/-- Body of the scan, lines 594-602.  The state is `(out_edges, map, cur_label)`;
`cur_label++` is a `uint64_t` increment. -/
def scan_edges_step (i : Nat) (st : List Nat × fast_map × Nat) :
    Option (List Nat × fast_map × Nat) := do
  let out ← rd st.1 i
  let val := get_value st.2.1 out
  if val = NULL_KEY then do
    let mp := set_value_uq st.2.1 out st.2.2
    let oe ← wr st.1 i st.2.2
    pure (oe, mp, add64 st.2.2 1)
  else do
    let oe ← wr st.1 i val
    pure (oe, st.2.1, st.2.2)

/-- Lines 591-603: the sequential scan of `out_edges`. -/
def scan_edges (m_local : Nat) (s : List Nat × fast_map × Nat) :
    Option (List Nat × fast_map × Nat) :=
  forLoop m_local scan_edges_step s

/-- Body of lines 618-624:
`ghost_unmap[get_value(map, unique_keys[i]) - n_local] = unique_keys[i]`. -/
def fill_ghost_unmap_step (mp : fast_map) (n_local : Nat) (i : Nat)
    (ghost_unmap : List Nat) : Option (List Nat) := do
  let key ← rd mp.unique_keys i
  let cur_index := sub64 (get_value mp key) n_local
  wr ghost_unmap cur_index key

/-- Lines 617-624: recover the global id of every ghost index. -/
def fill_ghost_unmap (mp : fast_map) (n_local n_ghost : Nat) (ghost_unmap : List Nat) :
    Option (List Nat) :=
  forLoop n_ghost (fill_ghost_unmap_step mp n_local) ghost_unmap

/-- Body of lines 631-632: `ghost_tasks[i] = ghost_unmap[i] / n_per_rank`. -/
def ghost_tasks_default_step (n_per_rank : Nat) (ghost_unmap : List Nat) (i : Nat)
    (ghost_tasks : List Nat) : Option (List Nat) := do
  let global_id ← rd ghost_unmap i
  wr ghost_tasks i (global_id / n_per_rank)

/-- Body of lines 637-642:
`ghost_tasks[i] = highest_less_than(vert_dist, ghost_unmap[i])`. -/
def ghost_tasks_dist_step (nprocs : Nat) (vert_dist ghost_unmap : List Nat) (i : Nat)
    (ghost_tasks : List Nat) : Option (List Nat) := do
  let global_id ← rd ghost_unmap i
  let rank := highest_less_than nprocs vert_dist global_id
  wr ghost_tasks i rank

/-- Lines 626-643: the owner of every ghost.  Without `vert_dist` the owner is
`ghost_unmap[i] / n_per_rank` with `n_per_rank = n / (uint64_t)nprocs + 1`; a
division by zero is undefined and gives `none`.  With `vert_dist` it is
`highest_less_than(vert_dist, ghost_unmap[i])`. -/
def fill_ghost_tasks (nprocs n n_ghost : Nat) (vert_dist : Option (List Nat))
    (ghost_unmap ghost_tasks : List Nat) : Option (List Nat) :=
  match vert_dist with
  | none =>
    if nprocs = 0 then none
    else if add64 (n / nprocs) 1 = 0 then none
    else
      forLoop n_ghost (ghost_tasks_default_step (add64 (n / nprocs) 1) ghost_unmap) ghost_tasks
  | some vd =>
    forLoop n_ghost (ghost_tasks_dist_step nprocs vd ghost_unmap) ghost_tasks

/-- `relabel_edges(dist_graph_t *g, uint64_t* vert_dist)`, lines 574-656;
`vert_dist = none` is the `NULL` pointer.  The ghost arrays are allocated
uninitialised and are modelled as zero lists before they are filled. -/
def relabel_edges (nprocs : Nat) (g : dist_graph_t) (vert_dist : Option (List Nat)) :
    Option dist_graph_t := do
  let total_edges := add64 g.m_local g.n_local
  let map ← seed_map g.local_unmap g.n_local (init_map ((total_edges * 2) % U64))
  let (out_edges, map, _) ← scan_edges g.m_local (g.out_edges, map, g.n_local)
  let n_ghost := map.num_unique
  let n_total := add64 n_ghost g.n_local
  if n_ghost > 0 then do
    let ghost_unmap ← fill_ghost_unmap map g.n_local n_ghost (List.replicate n_ghost 0)
    let ghost_tasks ← fill_ghost_tasks nprocs g.n n_ghost vert_dist ghost_unmap
      (List.replicate n_ghost 0)
    pure { g with
      out_edges := out_edges
      map := map
      n_ghost := n_ghost
      n_total := n_total
      ghost_unmap := some ghost_unmap
      ghost_tasks := some ghost_tasks }
  else
    pure { g with
      out_edges := out_edges
      map := map
      n_ghost := n_ghost
      n_total := n_total
      ghost_unmap := none
      ghost_tasks := none }

/-- `relabel_edges(dist_graph_t *g)`, lines 567-571: `relabel_edges(g, NULL)`. -/
def relabel_edges_default (nprocs : Nat) (g : dist_graph_t) : Option dist_graph_t :=
  relabel_edges nprocs g none

/-! ## Collective operations (MPI)

The processes of the program run the same function; a collective call is a
point where every process contributes a buffer and receives the combined
result.  A function that contains a collective call takes the result of that
call as an argument (`allreduce_...`), and a second definition, `..._all`, runs
the function on all processes and supplies the combined contributions. -/

/-- All results of a list of processes, `none` if one of them is undefined. -/
def all_some {α : Type} : List (Option α) → Option (List α)
  | [] => some []
  | none :: _ => none
  | some a :: l => (all_some l).map (fun r => a :: r)

/-- The bit pattern of an `int64_t` read as `uint64_t`. -/
def to_u64 (x : Int) : Nat := (x % 18446744073709551616).toNat

/-- The bit pattern of a `uint64_t` read as `int64_t`. -/
def to_int64 (x : Nat) : Int :=
  if x % U64 < 9223372036854775808 then Int.ofNat (x % U64)
  else Int.ofNat (x % U64) - 18446744073709551616

/-- The `int64_t` sum `a + b`; signed overflow is undefined and gives `none`. -/
def add_i64 (a b : Int) : Option Int :=
  if -9223372036854775808 ≤ a + b ∧ a + b < 9223372036854775808 then some (a + b) else none

/-- What `MPI_Allreduce(MPI_IN_PLACE, buf, count, MPI_UINT64_T, MPI_SUM, ...)`
leaves in `buf` on every process when the processes contribute the buffers
`bufs`: entry `w` is the sum modulo `2^64` of the contributed entries `w` read
as `uint64_t` (the buffers of lines 445 and 520 hold `int64_t` values; the
result is read back as `int64_t`). -/
def mpi_allreduce_sum_u64 (bufs : List (List Int)) (count : Nat) : List Int :=
  (List.range count).map (fun w =>
    to_int64 ((bufs.map (fun b => to_u64 (b.getD w 0))).sum % U64))

/-- What `MPI_Allreduce(..., MPI_UINT64_T, MPI_MAX, ...)` of one value per
process gives: the largest contribution. -/
def mpi_allreduce_max (xs : List Nat) : Nat := xs.foldl max 0

/-- What `MPI_Allreduce(..., MPI_UINT64_T, MPI_MIN, ...)` of one value per
process gives: the smallest contribution (contributions are `uint64_t`, hence at
most `2^64 - 1`). -/
def mpi_allreduce_min (xs : List Nat) : Nat := xs.foldl min (U64 - 1)

/-! ## Constructors from pre-built arrays -/

/-- The arguments of one call of the array constructors (lines 391-396 and
467-472); `create_graph_serial` takes no `global_ids`. -/
structure csr_args where
  n_global : Nat
  m_global : Nat
  n_local : Nat
  m_local : Nat
  local_offsets : List Nat
  local_adjs : List Nat
  global_ids : List Nat
  num_vert_weights : Nat
  vert_weights : List Int
  edge_weights : List Int
deriving DecidableEq

/-- Body of the inner loop, lines 439-442 (514-517): for vertex `i` and
dimension `w`, add the weight to `vert_weights_sums[w]` and raise
`max_vert_weights[w]` to it.  The state is `(vert_weights_sums, max_vert_weights)`. -/
def vert_weight_step (num_vert_weights : Nat) (vert_weights : List Int) (w i : Nat)
    (st : List Int × List Int) : Option (List Int × List Int) := do
  let weight ← rd vert_weights (i * num_vert_weights + w)
  let s ← rd st.1 w
  let s ← add_i64 s weight
  let sums ← wr st.1 w s
  let mx ← rd st.2 w
  if weight > mx then do
    let maxs ← wr st.2 w weight
    pure (sums, maxs)
  else pure (sums, st.2)

/-- Body of the outer loop, lines 435-443 (510-518): both entries of dimension
`w` start at 0, then the vertices are scanned. -/
def vert_weight_dim (num_vert_weights n_local : Nat) (vert_weights : List Int) (w : Nat)
    (st : List Int × List Int) : Option (List Int × List Int) := do
  let sums ← wr st.1 w 0
  let maxs ← wr st.2 w 0
  forLoop n_local (vert_weight_step num_vert_weights vert_weights w) (sums, maxs)

/-- Lines 428-444 (503-519): the local sum and maximum of every weight
dimension, in freshly allocated arrays of `num_vert_weights` entries. -/
def vert_weight_stats (num_vert_weights n_local : Nat) (vert_weights : List Int) :
    Option (List Int × List Int) :=
  forLoop num_vert_weights (vert_weight_dim num_vert_weights n_local vert_weights)
    (List.replicate num_vert_weights 0, List.replicate num_vert_weights 0)

/-- The overload `create_graph(dist_graph_t* g, n_global, m_global, n_local,
m_local, local_offsets, local_adjs, global_ids, num_vert_weights, vert_weights,
edge_weights)`, lines 391-464, on one process.  `allreduce_sum buf` is what the
`MPI_Allreduce` of line 445 leaves in `vert_weights_sums`.  The code assigns no
value to `n_offset`, `n_ghost`, `n_total` or the ghost arrays; it allocates the
map (line 418) without initialising it, and the `map` field is left as it was. -/
def create_graph_arrays (allreduce_sum : List Int → List Int) (g : dist_graph_t)
    (a : csr_args) : Option dist_graph_t := do
  let g1 : dist_graph_t := { g with
    n := a.n_global
    n_local := a.n_local
    m := a.m_global
    m_local := a.m_local
    vert_weights := none
    edge_weights := none
    vert_weights_sums := none
    edge_weights_sum := 0
    max_vert_weights := none
    max_edge_weight := 0
    num_vert_weights := a.num_vert_weights
    num_edge_weights := 0
    out_edges := a.local_adjs
    out_degree_list := a.local_offsets }
  let g2 ← (if a.num_vert_weights > 0 then do
      let st ← vert_weight_stats a.num_vert_weights a.n_local a.vert_weights
      pure { g1 with
        vert_weights := some a.vert_weights
        edge_weights := some a.edge_weights
        num_edge_weights := 1
        vert_weights_sums := some (allreduce_sum st.1)
        max_vert_weights := some st.2 }
    else pure g1)
  if a.n_local ≤ a.global_ids.length then
    pure { g2 with local_unmap := a.global_ids.take a.n_local }
  else none

/-- The overload `create_graph_serial(dist_graph_t* g, n_global, m_global,
n_local, m_local, local_offsets, local_adjs, num_vert_weights, vert_weights,
edge_weights)`, lines 467-541, on one process.  `allreduce_sum buf` is what the
`MPI_Allreduce` of line 520 leaves in `vert_weights_sums`. -/
def create_graph_serial_arrays (allreduce_sum : List Int → List Int) (g : dist_graph_t)
    (a : csr_args) : Option dist_graph_t := do
  let g1 : dist_graph_t := { g with
    n := a.n_global
    n_local := a.n_local
    n_offset := 0
    n_ghost := 0
    m := a.m_global
    m_local := a.m_local
    n_total := a.n_local
    vert_weights := none
    edge_weights := none
    vert_weights_sums := none
    edge_weights_sum := 0
    max_vert_weights := none
    max_edge_weight := 0
    num_vert_weights := a.num_vert_weights
    num_edge_weights := 0 }
  let g2 ← (if a.num_vert_weights > 0 then do
      let st ← vert_weight_stats a.num_vert_weights a.n_local a.vert_weights
      pure { g1 with
        vert_weights := some a.vert_weights
        edge_weights := some a.edge_weights
        num_edge_weights := 1
        vert_weights_sums := some (allreduce_sum st.1)
        max_vert_weights := some st.2 }
    else pure g1)
  pure { g2 with
    out_edges := a.local_adjs
    out_degree_list := a.local_offsets
    local_unmap := local_unmap_plain a.n_local 0
    map := init_map_nohash a.n_global }

/-- The local sums every process contributes to the `MPI_Allreduce` of the
array constructors. -/
def weight_contributions (calls : List (dist_graph_t × csr_args)) : Option (List (List Int)) :=
  all_some (calls.map (fun c =>
    (vert_weight_stats c.2.num_vert_weights c.2.n_local c.2.vert_weights).map (fun st => st.1)))

/-- The array overload of `create_graph` run on all processes, process `p` with
the graph and arguments `calls[p]`. -/
def create_graph_arrays_all (calls : List (dist_graph_t × csr_args)) :
    Option (List dist_graph_t) := do
  let bufs ← weight_contributions calls
  all_some (calls.map (fun c =>
    create_graph_arrays (fun _ => mpi_allreduce_sum_u64 bufs c.2.num_vert_weights) c.1 c.2))

/-- The array overload of `create_graph_serial` run on all processes. -/
def create_graph_serial_arrays_all (calls : List (dist_graph_t × csr_args)) :
    Option (List dist_graph_t) := do
  let bufs ← weight_contributions calls
  all_some (calls.map (fun c =>
    create_graph_serial_arrays (fun _ => mpi_allreduce_sum_u64 bufs c.2.num_vert_weights)
      c.1 c.2))

/-! ## Teardown -/

/-- The memory blocks a graph owns; `map_storage` is what `clear_map` releases. -/
inductive owned_block where
  | out_edges | out_degree_list | ghost_degrees | local_unmap | ghost_unmap | ghost_tasks
  | map_storage | map | vert_weights | edge_weights
deriving DecidableEq

/-- `clear_graph(dist_graph_t *g)`, lines 544-564: the blocks it releases, in
order.  `clear_map` is not part of the sources; the spec says it "clears and
releases the map". -/
def clear_graph (g : dist_graph_t) : List owned_block :=
  [owned_block.out_edges, owned_block.out_degree_list, owned_block.ghost_degrees,
    owned_block.local_unmap]
  ++ (if g.n_ghost > 0 then [owned_block.ghost_unmap, owned_block.ghost_tasks] else [])
  ++ [owned_block.map_storage, owned_block.map]
  ++ (if g.vert_weights ≠ none then [owned_block.vert_weights] else [])
  ++ (if g.edge_weights ≠ none then [owned_block.edge_weights] else [])

/-! ## Maximum degree -/

/-- Modelled from the spec: the macro `out_degree(g, i)` of the missing
`dist_graph.h`; the spec gives the out-degree of local vertex `i` as
`out_degree_list[i+1] - out_degree_list[i]`. -/
def out_degree (g : dist_graph_t) (i : Nat) : Option Nat := do
  let hi ← rd g.out_degree_list (i + 1)
  let lo ← rd g.out_degree_list i
  pure (sub64 hi lo)

/-- Body of the scan, lines 738-743.  The state is `(my_max_degree, my_max_vert)`. -/
def max_degree_step (g : dist_graph_t) (i : Nat) (st : Nat × Nat) : Option (Nat × Nat) := do
  let this_degree ← out_degree g i
  if this_degree > st.1 then do
    let vert ← rd g.local_unmap i
    pure (this_degree, vert)
  else pure st

/-- Lines 734-744: the local scan, started at `my_max_degree = 0` and
`my_max_vert = -1`, that is `2^64 - 1`. -/
def local_max_degree (g : dist_graph_t) : Option (Nat × Nat) :=
  forLoop g.n_local (max_degree_step g) (0, U64 - 1)

/-- `get_max_degree_vert(dist_graph_t *g)`, lines 725-769, on one process.
`allreduce_max x` is the result of the reduction of line 749 and
`allreduce_min x` that of line 755. -/
def get_max_degree_vert (allreduce_max allreduce_min : Nat → Nat) (g : dist_graph_t) :
    Option dist_graph_t := do
  let my ← local_max_degree g
  let max_degree := allreduce_max my.1
  let max_vert := if my.1 = max_degree then my.2 else NULL_KEY
  let max_vert := allreduce_min max_vert
  pure { g with max_degree_vert := max_vert, max_degree := max_degree }

/-- The function `get_max_degree_vert` run on all processes: the first reduction combines
the local maxima, the second the ids of the processes that report the global
maximum (the others contribute `NULL_KEY`). -/
def get_max_degree_vert_all (gs : List dist_graph_t) : Option (List dist_graph_t) := do
  let locals ← all_some (gs.map local_max_degree)
  let max_degree := mpi_allreduce_max (locals.map (fun my => my.1))
  let max_vert := mpi_allreduce_min
    (locals.map (fun my => if my.1 = max_degree then my.2 else NULL_KEY))
  all_some (gs.map (get_max_degree_vert (fun _ => max_degree) (fun _ => max_vert)))

/-! ## Ghost degrees -/

/-- How a run can fail: undefined behaviour (an access out of bounds) or a
failed `assert`, which aborts the process. -/
inductive fault where
  | undefined
  | assertion
deriving DecidableEq

deriving instance DecidableEq for Except

/-- The loop `for (k = 0; k < n; ++k) body(k)` when the body can fail with a fault. -/
def forLoopE {σ : Type} (n : Nat) (body : Nat → σ → Except fault σ) (s : σ) :
    Except fault σ :=
  match n with
  | 0 => Except.ok s
  | k + 1 =>
    match forLoopE k body s with
    | Except.ok st => body k st
    | Except.error e => Except.error e

/-- The fields of `mpi_data_t` (missing `comms.h`) that `get_ghost_degrees`
reads after the exchange: the receive buffer of `total_recv` pairs, ids in
`recvbuf_vert` and values in `recvbuf_data`. -/
structure mpi_data_t where
  total_recv : Nat
  recvbuf_vert : List Nat
  recvbuf_data : List Nat
deriving DecidableEq

/-- Body of the scatter loop, lines 841-846: look the received id up, assert
that the index is a ghost index, and store the received value.  The loop is an
`omp for`; the model runs it in index order. -/
def scatter_degrees_step (g : dist_graph_t) (comm : mpi_data_t) (i : Nat)
    (ghost_degrees : List Nat) : Except fault (List Nat) :=
  match rd comm.recvbuf_vert i with
  | none => Except.error fault.undefined
  | some vert =>
    let index := get_value g.map vert
    if ¬ (index ≥ g.n_local) then Except.error fault.assertion
    else if ¬ (index < g.n_total) then Except.error fault.assertion
    else
      match rd comm.recvbuf_data i with
      | none => Except.error fault.undefined
      | some data =>
        match wr ghost_degrees (sub64 index g.n_local) data with
        | none => Except.error fault.undefined
        | some gd => Except.ok gd

/-- The scatter loop of lines 838-846 on the array `ghost_degrees`. -/
def scatter_degrees (g : dist_graph_t) (comm : mpi_data_t) (ghost_degrees : List Nat) :
    Except fault (List Nat) :=
  forLoopE comm.total_recv (scatter_degrees_step g comm) ghost_degrees

/-- The bucket of edge `k` in a flat edge array of the given stride: its source
minus the offset, in `uint64_t` arithmetic. -/
def edge_bucket (gen_edges : List Nat) (stride n_offset : Nat) (k : Nat) : Nat :=
  sub64 (gen_edges.getD (stride * k) 0) n_offset

/-- The destination of edge `k` in a flat edge array of the given stride. -/
def edge_dst (gen_edges : List Nat) (stride : Nat) (k : Nat) : Nat :=
  gen_edges.getD (stride * k + 1) 0

/-- Number of the first `k` edges whose bucket is `b`. -/
def cnt_eq (B : Nat → Nat) (k b : Nat) : Nat :=
  (List.range k).countP (fun j => B j = b)

/-- Number of the first `k` edges whose bucket is below `b`. -/
def cnt_lt (B : Nat → Nat) (k b : Nat) : Nat :=
  (List.range k).countP (fun j => B j < b)

/-- The position the counting sort gives to edge `j` among `m` edges: the start
of its bucket plus the number of earlier edges of the same bucket. -/
def slot (B : Nat → Nat) (m j : Nat) : Nat :=
  cnt_lt B m (B j) + cnt_eq B j (B j)

/-- The input edges of the unweighted generator data as `(src, dst)` pairs, in
input order (`m_local_edges` pairs of the flat array). -/
def gen_edge_list (ggi : graph_gen_data_t) : List (Nat × Nat) :=
  (List.range ggi.m_local_edges).map
    (fun k => (ggi.gen_edges.getD (2 * k) 0, ggi.gen_edges.getD (2 * k + 1) 0))

/-- The slice `a[lo .. hi)` of an array. -/
def slice (a : List Nat) (lo hi : Nat) : List Nat := (a.drop lo).take (hi - lo)

/-- The offsets array is a valid CSR index of the graph: it has `n_local + 1`
entries, starts at 0, is non-decreasing and ends at `m_local`. -/
def degree_list_ok (g : dist_graph_t) : Prop :=
  g.out_degree_list.length = g.n_local + 1 ∧
  g.out_degree_list[0]? = some 0 ∧
  (∀ i j, i ≤ j → j ≤ g.n_local → g.out_degree_list.getD i 0 ≤ g.out_degree_list.getD j 0) ∧
  g.out_degree_list[g.n_local]? = some g.m_local

/-! ### Sample inputs -/

/-- A graph structure before any constructor ran: all fields zero or empty. -/
def blank_graph : dist_graph_t :=
  { n := 0, m := 0, m_local := 0, n_local := 0, n_offset := 0, n_ghost := 0, n_total := 0,
    max_degree_vert := 0, max_degree := 0, out_edges := [], out_degree_list := [],
    ghost_degrees := [], local_unmap := [], ghost_unmap := none, ghost_tasks := none,
    map := init_map 0, vert_weights := none, edge_weights := none,
    vert_weights_sums := none, edge_weights_sum := 0, max_vert_weights := none,
    max_edge_weight := 0, num_vert_weights := 0, num_edge_weights := 0 }

/-- Generator data with the given sizes and flat edge array, and no weights. -/
def gen_data (n n_local n_offset m_local : Nat) (gen_edges : List Nat)
    (edge_weights : List Int) : graph_gen_data_t :=
  { n := n, m := m_local, n_local := n_local, n_offset := n_offset,
    m_local_read := m_local, m_local_edges := m_local, gen_edges := gen_edges,
    vert_weights := none, edge_weights := edge_weights, vert_weights_sums := none,
    edge_weights_sum := 0, max_vert_weights := none, max_edge_weight := 0,
    num_vert_weights := 0, num_edge_weights := 0 }

/-- The 16-vertex directed ring `i → (i+1) mod 16`, split 4x4 over 4 processes:
the input of process `rank`, which owns the ids `4*rank .. 4*rank+3`. -/
def ring_input (rank : Nat) : graph_gen_data_t :=
  gen_data 16 4 (4 * rank) 4
    [4 * rank, 4 * rank + 1, 4 * rank + 1, 4 * rank + 2,
     4 * rank + 2, 4 * rank + 3, 4 * rank + 3, (4 * rank + 4) % 16] []

/-! ### Vocabulary for relabeling -/

/-- The binding of `key` in the map, `none` when the key is absent. -/
def look (mp : fast_map) (key : Nat) : Option Nat :=
  (mp.entries.find? (fun e => e.1 = key)).map (fun e => e.2)

/-- The local index that seeding the map with the first `k` entries of
`local_unmap` leaves for the global id `v`: the largest `i < k` with
`local_unmap[i] = v`, `none` when `v` is not among them. -/
def owned_index (local_unmap : List Nat) : Nat → Nat → Option Nat
  | 0, _ => none
  | k + 1, v => if local_unmap[k]? = some v then some k else owned_index local_unmap k v

/-- The global ids among the first `k` entries of `out_edges` that are not
owned, without repetition, in order of first occurrence. -/
def ghosts_seen (local_unmap : List Nat) (n_local : Nat) (out_edges : List Nat) :
    Nat → List Nat
  | 0 => []
  | k + 1 =>
    if (owned_index local_unmap n_local (out_edges.getD k 0)).isSome
        ∨ out_edges.getD k 0 ∈ ghosts_seen local_unmap n_local out_edges k then
      ghosts_seen local_unmap n_local out_edges k
    else ghosts_seen local_unmap n_local out_edges k ++ [out_edges.getD k 0]

/-- The binding a global id has in the map once the ghosts `G` are inserted:
its owned index, else `n_local` plus its position in `G`, else none. -/
def full_index (local_unmap : List Nat) (n_local : Nat) (G : List Nat) (v : Nat) : Option Nat :=
  match owned_index local_unmap n_local v with
  | some i => some i
  | none => if v ∈ G then some (n_local + G.indexOf v) else none

/-- The local index that replaces the global id `v` in `out_edges`. -/
def local_label (local_unmap : List Nat) (n_local : Nat) (G : List Nat) (v : Nat) : Nat :=
  match owned_index local_unmap n_local v with
  | some i => i
  | none => n_local + G.indexOf v

/-- Reverse mapping of a local index `x` to a global id: `local_unmap[x]` if
`x < n_local`, otherwise `ghost_unmap[x - n_local]`; `none` when that read is
out of bounds or `ghost_unmap` is `NULL`. -/
def global_of (g : dist_graph_t) (x : Nat) : Option Nat :=
  if x < g.n_local then g.local_unmap[x]?
  else
    match g.ghost_unmap with
    | some gu => gu[x - g.n_local]?
    | none => none

/-- The graph is a well-formed argument of `relabel_edges` with `nprocs`
processes: the arrays have their declared lengths, `m_local + n_local` does not
overflow, and the default owner computation `n / nprocs + 1` is a nonzero
`uint64_t` (`nprocs ≥ 1`, no wrap to 0). -/
@[reducible] def relabel_ready (nprocs : Nat) (g : dist_graph_t) : Prop :=
  g.local_unmap.length = g.n_local ∧ g.out_edges.length = g.m_local ∧
  g.n_local + g.m_local < U64 ∧ 0 < nprocs ∧ g.n / nprocs + 1 < U64

/-- The owner `relabel_edges` records for the ghost global id `v`: the default
quotient `v / (n / nprocs + 1)` without a distribution array, the result of
`highest_less_than` with one. -/
def ghost_owner (nprocs n : Nat) (vert_dist : Option (List Nat)) (v : Nat) : Nat :=
  match vert_dist with
  | none => v / (n / nprocs + 1)
  | some vd => highest_less_than nprocs vd v

/-- The ghosts of a graph before relabeling: the global ids of `out_edges` that
are not owned, without repetition, in order of first occurrence. -/
def ghosts_of (g : dist_graph_t) : List Nat :=
  ghosts_seen g.local_unmap g.n_local g.out_edges g.m_local

/-- The graph of process `rank` of the ring after `create_graph`, before
relabeling (`out_edges` still holds global ids). -/
def ring_graph (rank : Nat) : dist_graph_t :=
  { blank_graph with
    n := 16, m := 4, n_local := 4, n_offset := 4 * rank, m_local := 4
    out_edges := [4 * rank + 1, 4 * rank + 2, 4 * rank + 3, (4 * rank + 4) % 16]
    out_degree_list := [0, 1, 2, 3, 4]
    local_unmap := [4 * rank, 4 * rank + 1, 4 * rank + 2, 4 * rank + 3] }

/-- The graph `create_graph` returns when its sorted edge array is `oe`. -/
def created_graph (ggi : graph_gen_data_t) (g : dist_graph_t) (oe : List Nat) : dist_graph_t :=
  { g with
    n := ggi.n
    n_local := ggi.n_local
    n_offset := ggi.n_offset
    m := ggi.m
    m_local := ggi.m_local_edges
    vert_weights := none
    edge_weights := none
    vert_weights_sums := none
    edge_weights_sum := 0
    max_vert_weights := none
    max_edge_weight := 0
    num_vert_weights := 0
    num_edge_weights := 0
    out_edges := oe
    out_degree_list := (List.range (ggi.n_local + 1)).map
      (cnt_lt (edge_bucket ggi.gen_edges 2 ggi.n_offset) ggi.m_local_edges)
    local_unmap := local_unmap_clamped ggi.n ggi.n_local ggi.n_offset }

/-- The generator data is a well-formed input of `create_graph` followed by
`relabel_edges` with `nprocs` processes: the flat array holds `m_local` pairs,
`m_local + n_local` does not overflow, and the default owner computation
`n / nprocs + 1` is a nonzero `uint64_t`. -/
def gen_ready (nprocs : Nat) (ggi : graph_gen_data_t) : Prop :=
  2 * ggi.m_local_edges ≤ ggi.gen_edges.length ∧
  ggi.n_local + ggi.m_local_edges < U64 ∧ 0 < nprocs ∧ ggi.n / nprocs + 1 < U64

/-- The quotient `ceil(n / p)` of the spec's default owner formula. -/
def ceil_div (n p : Nat) : Nat := (n + p - 1) / p

/-- Generator input on which `local_unmap` is clamped: `n = 2` vertices but
`n_local = 3` local slots at offset 0 (the over-allocation `n / nprocs + 1` for
one process), and the single edge `1 → 0`; all ids are below `n`. -/
def clamp_input : graph_gen_data_t := gen_data 2 3 0 1 [1, 0] []

/-- A graph of rank 0 under the vertex distribution `[0, 5, 9, 16]`: it owns the
ids `0 .. 4` and has the edges `0 → 1` and `0 → 7`. -/
def dist_graph_sample : dist_graph_t :=
  { blank_graph with
    n := 16, m := 2, n_local := 5, n_offset := 0, m_local := 2
    out_edges := [1, 7]
    out_degree_list := [0, 2, 2, 2, 2, 2]
    local_unmap := [0, 1, 2, 3, 4] }

/-- The graph `relabel_edges` returns on a well-formed graph when the map it
built is `mp`. -/
def relabeled_graph (nprocs : Nat) (g : dist_graph_t) (vert_dist : Option (List Nat))
    (mp : fast_map) : dist_graph_t :=
  { g with
    out_edges := g.out_edges.map (local_label g.local_unmap g.n_local (ghosts_of g))
    map := mp
    n_ghost := (ghosts_of g).length
    n_total := (ghosts_of g).length + g.n_local
    ghost_unmap := if 0 < (ghosts_of g).length then some (ghosts_of g) else none
    ghost_tasks := if 0 < (ghosts_of g).length
      then some ((ghosts_of g).map (ghost_owner nprocs g.n vert_dist)) else none }

/-! ### Vocabulary for the array constructors -/

/-- The weight of local vertex `i` in dimension `w`: `vert_weights[i*num_vert_weights + w]`. -/
def weight_at (a : csr_args) (i w : Nat) : Int :=
  a.vert_weights.getD (i * a.num_vert_weights + w) 0

/-- The sum of the weights of the first `k` local vertices in dimension `w`. -/
def local_weight_sum (a : csr_args) (w k : Nat) : Int :=
  ((List.range k).map (fun i => weight_at a i w)).sum

/-- The largest of 0 and the weights of the first `k` local vertices in dimension `w`. -/
def local_weight_max (a : csr_args) (w : Nat) : Nat → Int
  | 0 => 0
  | k + 1 =>
    if weight_at a k w > local_weight_max a w k then weight_at a k w
    else local_weight_max a w k

/-- The sum, over all processes and all their local vertices, of the weights of
dimension `w`. -/
def global_weight_sum (calls : List (dist_graph_t × csr_args)) (w : Nat) : Int :=
  (calls.map (fun c => local_weight_sum c.2 w c.2.n_local)).sum

/-- The value fits an `int64_t`. -/
@[reducible] def in_int64 (x : Int) : Prop :=
  -9223372036854775808 ≤ x ∧ x < 9223372036854775808

/-- The weight array holds `num_vert_weights` entries per local vertex and no
running sum of a dimension leaves the `int64_t` range. -/
@[reducible] def weights_ready (a : csr_args) : Prop :=
  a.n_local * a.num_vert_weights ≤ a.vert_weights.length ∧
  ∀ w, w < a.num_vert_weights → ∀ k, k ≤ a.n_local → in_int64 (local_weight_sum a w k)

/-- Arguments of a process with one local vertex, of global id `id` and of
weight `weight` in the single weight dimension, and no edges. -/
def single_vertex_args (id : Nat) (weight : Int) : csr_args :=
  { n_global := 2, m_global := 0, n_local := 1, m_local := 0, local_offsets := [0, 0],
    local_adjs := [], global_ids := [id], num_vert_weights := 1, vert_weights := [weight],
    edge_weights := [] }

/-- The local sums of all weight dimensions, as the statistics pass leaves them. -/
def local_weight_sums (a : csr_args) : List Int :=
  (List.range a.num_vert_weights).map (fun w => local_weight_sum a w a.n_local)

/-- The graph the array overload of `create_graph` returns when the reduction
leaves `sums` in `vert_weights_sums`. -/
def arrays_graph (sums : List Int) (g : dist_graph_t) (a : csr_args) : dist_graph_t :=
  { g with
    n := a.n_global
    n_local := a.n_local
    m := a.m_global
    m_local := a.m_local
    vert_weights := if a.num_vert_weights > 0 then some a.vert_weights else none
    edge_weights := if a.num_vert_weights > 0 then some a.edge_weights else none
    vert_weights_sums := if a.num_vert_weights > 0 then some sums else none
    edge_weights_sum := 0
    max_vert_weights :=
      if a.num_vert_weights > 0 then
        some ((List.range a.num_vert_weights).map (fun w => local_weight_max a w a.n_local))
      else none
    max_edge_weight := 0
    num_vert_weights := a.num_vert_weights
    num_edge_weights := if a.num_vert_weights > 0 then 1 else 0
    out_edges := a.local_adjs
    out_degree_list := a.local_offsets
    local_unmap := a.global_ids.take a.n_local }

/-- The graph the array overload of `create_graph_serial` returns when the
reduction leaves `sums` in `vert_weights_sums`. -/
def serial_arrays_graph (sums : List Int) (g : dist_graph_t) (a : csr_args) : dist_graph_t :=
  { arrays_graph sums g a with
    n_offset := 0
    n_ghost := 0
    n_total := a.n_local
    local_unmap := local_unmap_plain a.n_local 0
    map := init_map_nohash a.n_global }

/-- Arguments with two weight dimensions: process 0 has the two vertices 0 and 1
of weights `(1, 2)` and `(3, 4)`, any other process the single vertex 2 of
weights `(10, 20)`; no edges. -/
def two_weight_args (rank : Nat) : csr_args :=
  if rank = 0 then
    { n_global := 3, m_global := 0, n_local := 2, m_local := 0, local_offsets := [0, 0, 0],
      local_adjs := [], global_ids := [0, 1], num_vert_weights := 2,
      vert_weights := [1, 2, 3, 4], edge_weights := [] }
  else
    { n_global := 3, m_global := 0, n_local := 1, m_local := 0, local_offsets := [0, 0],
      local_adjs := [], global_ids := [2], num_vert_weights := 2,
      vert_weights := [10, 20], edge_weights := [] }

/-- The shape a serial constructor gives the graph `g'` it builds from `g` for
`nl` local vertices: no offset, no ghosts, `local_unmap` the identity, the ghost
arrays left as they were, and a teardown that does not release them. -/
def serial_shape (g g' : dist_graph_t) (nl : Nat) : Prop :=
  g'.n_offset = 0 ∧ g'.n_ghost = 0 ∧ g'.n_total = g'.n_local ∧ g'.n_local = nl ∧
  g'.local_unmap.length = nl ∧ (∀ i, i < nl → g'.local_unmap[i]? = some i) ∧
  g'.ghost_unmap = g.ghost_unmap ∧ g'.ghost_tasks = g.ghost_tasks ∧
  owned_block.ghost_unmap ∉ clear_graph g' ∧ owned_block.ghost_tasks ∉ clear_graph g'

/-! ### Vocabulary for the maximum degree -/

/-- The out-degree of local vertex `i`: `out_degree_list[i+1] - out_degree_list[i]`. -/
def degree_at (g : dist_graph_t) (i : Nat) : Nat :=
  sub64 (g.out_degree_list.getD (i + 1) 0) (g.out_degree_list.getD i 0)

/-- The arrays the degree scan reads have their sizes, and the global ids are
`uint64_t` values. -/
@[reducible] def degree_ready (g : dist_graph_t) : Prop :=
  g.out_degree_list.length = g.n_local + 1 ∧ g.local_unmap.length = g.n_local ∧
  ∀ x, x ∈ g.local_unmap → x < U64

/-- The pair `(my_max_degree, my_max_vert)` after the scan has visited the
first `k` local vertices. -/
def max_scan (g : dist_graph_t) : Nat → Nat × Nat
  | 0 => (0, U64 - 1)
  | k + 1 =>
    if degree_at g k > (max_scan g k).1 then (degree_at g k, g.local_unmap.getD k 0)
    else max_scan g k

/-- The local scan results of all processes. -/
def scan_results (gs : List dist_graph_t) : List (Nat × Nat) :=
  gs.map (fun g => max_scan g g.n_local)

/-- The result of the first reduction of `get_max_degree_vert`. -/
def reduced_max_degree (gs : List dist_graph_t) : Nat :=
  mpi_allreduce_max ((scan_results gs).map (fun my => my.1))

/-- The result of the second reduction of `get_max_degree_vert`. -/
def reduced_max_vert (gs : List dist_graph_t) : Nat :=
  mpi_allreduce_min ((scan_results gs).map
    (fun my => if my.1 = reduced_max_degree gs then my.2 else NULL_KEY))

/-- Two processes with two vertices each: process 0 owns the ids 4 and 5 of
degrees 1 and 3, any other process the ids 2 and 3, both of degree 3. -/
def degree_sample (rank : Nat) : dist_graph_t :=
  if rank = 0 then
    { blank_graph with n := 6, n_local := 2, out_degree_list := [0, 1, 4], local_unmap := [4, 5] }
  else
    { blank_graph with n := 6, n_local := 2, out_degree_list := [0, 3, 6], local_unmap := [2, 3] }

/-- A process whose only vertex, of global id 0, has no edge. -/
def isolated_graph : dist_graph_t :=
  { blank_graph with n := 1, n_local := 1, out_degree_list := [0, 0], local_unmap := [0] }

/-! ### Vocabulary for the ghost degrees -/

/-- The graph `relabel_edges` returns (the graph itself where it is undefined). -/
def relabeled (nprocs : Nat) (vert_dist : Option (List Nat)) (g : dist_graph_t) : dist_graph_t :=
  (relabel_edges nprocs g vert_dist).getD g

/-- The pairs `(global id, out-degree)` of the local vertices of a process. -/
def vid_table (g : dist_graph_t) : List (Nat × Nat) :=
  (List.range g.n_local).map (fun i => (g.local_unmap.getD i 0, degree_at g i))

/-- Generator input whose local range starts at the end of the id space:
`n = 2` vertices, one local slot at offset 2, no edges. -/
def late_input : graph_gen_data_t := gen_data 2 1 2 0 [] []

/-! ### Sample inputs with edge weights -/

/-- Generator data with the three weighted edges `1 → 0` (weight `2^32 + 5`),
`0 → 2` (weight 8) and `1 → 3` (weight 9) as `(src, dst, weight)` triples, on 4
local vertices at offset 0. -/
def weighted_triples_input : graph_gen_data_t :=
  gen_data 4 4 0 3 [1, 0, 4294967301, 0, 2, 8, 1, 3, 9] []

/-- The same three edges as `(src, dst)` pairs with a separate weight array. -/
def weighted_pairs_input : graph_gen_data_t :=
  gen_data 4 4 0 3 [1, 0, 0, 2, 1, 3] [4294967301, 8, 9]

/-! ### Vocabulary for the scatter step -/

/-- The global id of the `i`-th received pair. -/
def received_id (comm : mpi_data_t) (i : Nat) : Nat := comm.recvbuf_vert.getD i 0

/-- The value of the `i`-th received pair. -/
def received_value (comm : mpi_data_t) (i : Nat) : Nat := comm.recvbuf_data.getD i 0

/-- The global id `v` looks up in the map to an index in `[n_local, n_total)`. -/
@[reducible] def ghost_index_ok (g : dist_graph_t) (v : Nat) : Prop :=
  g.n_local ≤ get_value g.map v ∧ get_value g.map v < g.n_total

/-- The entry of `ghost_degrees` that belongs to the global id `v`:
`lookup(v) - n_local`. -/
def ghost_slot (g : dist_graph_t) (v : Nat) : Nat := get_value g.map v - g.n_local

/-- A process that owns the ids 0 and 1 and whose `out_edges` are
`[7, 5, 7, 3, 5]`, before relabeling. -/
def scan_sample : dist_graph_t :=
  { blank_graph with
    n := 8, m := 5, n_local := 2, m_local := 5, out_edges := [7, 5, 7, 3, 5],
    out_degree_list := [0, 3, 5], local_unmap := [0, 1] }

/-- The process `scan_sample` after `relabel_edges` with 4 processes: its ghosts
7, 5 and 3 have the local indices 2, 3 and 4. -/
def ghost_sample : dist_graph_t := relabeled 4 none scan_sample

/-! ## Loops and arrays -/

/-- Invariant rule for `forLoop`: an invariant that holds at the start and is
carried by every iteration (which must succeed) holds at the end, and the loop
succeeds. -/
theorem forLoop_inv {σ : Type} (Inv : Nat → σ → Prop) (n : Nat)
    (body : Nat → σ → Option σ) (s : σ) (h0 : Inv 0 s)
    (hstep : ∀ k st, k < n → Inv k st → ∃ st', body k st = some st' ∧ Inv (k + 1) st') :
    ∃ st', forLoop n body s = some st' ∧ Inv n st' := by
  induction n with
  | zero => exact ⟨s, rfl, h0⟩
  | succ k ih =>
    obtain ⟨st, hst, hinv⟩ := ih (fun j st hj h => hstep j st (Nat.lt_succ_of_lt hj) h)
    obtain ⟨st', hst', hinv'⟩ := hstep k st (Nat.lt_succ_self k) hinv
    exact ⟨st', by simp [forLoop, hst, hst'], hinv'⟩

theorem rd_getD {α : Type} (a : List α) (i : Nat) (d : α) (h : i < a.length) :
    rd a i = some (a.getD i d) := by
  simp [rd, List.getElem?_eq_getElem h]

theorem rd_of_getElem? {α : Type} {a : List α} {i : Nat} {v : α} (h : a[i]? = some v) :
    rd a i = some v := h

theorem wr_of_lt {α : Type} (a : List α) (i : Nat) (v : α) (h : i < a.length) :
    wr a i v = some (a.set i v) := by
  simp [wr, h]

theorem list_eq_of_getElem? {α : Type} (a b : List α)
    (h : ∀ i : Nat, a[i]? = b[i]?) : a = b := List.ext_getElem? h

/-! ## Counting -/

theorem cnt_eq_succ (B : Nat → Nat) (k b : Nat) :
    cnt_eq B (k + 1) b = cnt_eq B k b + if B k = b then 1 else 0 := by
  simp [cnt_eq, List.range_succ, List.countP_append, List.countP_singleton]

theorem cnt_lt_succ (B : Nat → Nat) (k b : Nat) :
    cnt_lt B (k + 1) b = cnt_lt B k b + if B k < b then 1 else 0 := by
  simp [cnt_lt, List.range_succ, List.countP_append, List.countP_singleton]

theorem cnt_eq_zero (B : Nat → Nat) (b : Nat) : cnt_eq B 0 b = 0 := by simp [cnt_eq]

theorem cnt_lt_zero (B : Nat → Nat) (b : Nat) : cnt_lt B 0 b = 0 := by simp [cnt_lt]

theorem cnt_lt_bucket_zero (B : Nat → Nat) (k : Nat) : cnt_lt B k 0 = 0 := by
  simp [cnt_lt]

theorem cnt_lt_bucket_succ (B : Nat → Nat) (k b : Nat) :
    cnt_lt B k (b + 1) = cnt_lt B k b + cnt_eq B k b := by
  induction k with
  | zero => simp [cnt_lt_zero, cnt_eq_zero]
  | succ k ih =>
    rw [cnt_lt_succ, cnt_lt_succ, cnt_eq_succ, ih]
    by_cases h1 : B k < b
    · have h2 : B k < b + 1 := by omega
      have h3 : B k ≠ b := by omega
      simp [h1, h2, h3]; omega
    · by_cases h3 : B k = b
      · have h2 : B k < b + 1 := by omega
        simp [h1, h2, h3]; omega
      · have h2 : ¬ B k < b + 1 := by omega
        simp [h1, h2, h3]

theorem cnt_eq_mono (B : Nat → Nat) (b : Nat) {k m : Nat} (h : k ≤ m) :
    cnt_eq B k b ≤ cnt_eq B m b := by
  induction m with
  | zero =>
    have : k = 0 := by omega
    subst this; exact Nat.le_refl _
  | succ m ih =>
    by_cases hk : k = m + 1
    · subst hk; exact Nat.le_refl _
    · have := ih (by omega)
      rw [cnt_eq_succ]; omega

theorem cnt_lt_bucket_mono (B : Nat → Nat) (k : Nat) {b c : Nat} (h : b ≤ c) :
    cnt_lt B k b ≤ cnt_lt B k c := by
  induction c with
  | zero =>
    have : b = 0 := by omega
    subst this; exact Nat.le_refl _
  | succ c ih =>
    by_cases hb : b = c + 1
    · subst hb; exact Nat.le_refl _
    · have := ih (by omega)
      rw [cnt_lt_bucket_succ]; omega

theorem cnt_lt_le (B : Nat → Nat) (k b : Nat) : cnt_lt B k b ≤ k := by
  have h := @List.countP_le_length _ (fun j => decide (B j < b)) (List.range k)
  simpa [cnt_lt] using h

theorem cnt_lt_all (B : Nat → Nat) (k nl : Nat) (h : ∀ j, j < k → B j < nl) :
    cnt_lt B k nl = k := by
  induction k with
  | zero => exact cnt_lt_zero B nl
  | succ k ih =>
    rw [cnt_lt_succ, ih (fun j hj => h j (by omega))]
    simp [h k (by omega)]

theorem cnt_eq_lt_of_lt (B : Nat → Nat) {j m : Nat} (h : j < m) :
    cnt_eq B j (B j) < cnt_eq B m (B j) := by
  have h1 := cnt_eq_succ B j (B j)
  have h2 := cnt_eq_mono B (B j) (show j + 1 ≤ m by omega)
  simp at h1
  omega

theorem slot_lt (B : Nat → Nat) {j m : Nat} (h : j < m) : slot B m j < m := by
  have h1 := cnt_eq_lt_of_lt B h
  have h2 := cnt_lt_bucket_succ B m (B j)
  have h3 := cnt_lt_le B m (B j + 1)
  unfold slot; omega

theorem slot_lt_next (B : Nat → Nat) {j m : Nat} (h : j < m) :
    slot B m j < cnt_lt B m (B j + 1) := by
  have h1 := cnt_eq_lt_of_lt B h
  have h2 := cnt_lt_bucket_succ B m (B j)
  unfold slot; omega

theorem slot_ne (B : Nat → Nat) {i j m : Nat} (hij : i < j) (hj : j < m) :
    slot B m i ≠ slot B m j := by
  have hi : i < m := by omega
  rcases Nat.lt_trichotomy (B i) (B j) with h | h | h
  · have h1 := slot_lt_next B hi
    have h2 := cnt_lt_bucket_mono B m (show B i + 1 ≤ B j by omega)
    unfold slot at *; omega
  · have h1 := cnt_eq_succ B i (B i)
    have h2 := cnt_eq_mono B (B i) (show i + 1 ≤ j by omega)
    simp at h1
    unfold slot; rw [← h]; omega
  · have h1 := slot_lt_next B hj
    have h2 := cnt_lt_bucket_mono B m (show B j + 1 ≤ B i by omega)
    unfold slot at *; omega

/-! ## The counting-sort passes -/

theorem count_sources_spec (gen : List Nat) (stride off m nl : Nat)
    (hrd : ∀ k, k < m → stride * k < gen.length)
    (hB : ∀ k, k < m → edge_bucket gen stride off k < nl) :
    count_sources gen stride off m (List.replicate nl 0)
      = some ((List.range nl).map (cnt_eq (edge_bucket gen stride off) m)) := by
  obtain ⟨tc, htc, hlen, hval⟩ := forLoop_inv
    (fun k tc => tc.length = nl ∧
      ∀ b, b < nl → tc[b]? = some (cnt_eq (edge_bucket gen stride off) k b))
    m (count_sources_step gen stride off) (List.replicate nl 0)
    ⟨by simp, fun b hb => by simp [cnt_eq_zero, hb]⟩
    (by
      intro k tc hk ⟨hlen, hval⟩
      have hb := hB k hk
      have hsrc := rd_getD gen (stride * k) 0 (hrd k hk)
      refine ⟨tc.set (edge_bucket gen stride off k)
        (cnt_eq (edge_bucket gen stride off) k (edge_bucket gen stride off k) + 1), ?_, ?_, ?_⟩
      · unfold count_sources_step
        rw [hsrc]
        show (rd tc (edge_bucket gen stride off k)).bind _ = _
        rw [rd_of_getElem? (hval _ hb)]
        exact wr_of_lt _ _ _ (by rw [hlen]; exact hb)
      · simp [hlen]
      · intro b hb'
        rw [List.getElem?_set, cnt_eq_succ]
        by_cases hbb : edge_bucket gen stride off k = b
        · subst hbb; simp [hlen, hb]
        · simp [hbb, hval b hb'])
  unfold count_sources
  rw [htc]; congr 1
  apply list_eq_of_getElem?
  intro i
  by_cases hi : i < nl
  · rw [hval i hi]; simp [List.getElem?_range hi]
  · rw [List.getElem?_eq_none (by omega), List.getElem?_eq_none (by simp; omega)]

theorem fill_degree_list_spec (B : Nat → Nat) (m nl : Nat) :
    fill_degree_list ((List.range nl).map (cnt_eq B m)) nl (List.replicate (nl + 1) 0)
      = some ((List.range (nl + 1)).map (cnt_lt B m)) := by
  obtain ⟨odl, hodl, hlen, hval, hrest⟩ := forLoop_inv
    (fun i odl => odl.length = nl + 1 ∧ (∀ j, j ≤ i → odl[j]? = some (cnt_lt B m j)) ∧
      ∀ j, i < j → j ≤ nl → odl[j]? = some 0)
    nl (fill_degree_list_step ((List.range nl).map (cnt_eq B m))) (List.replicate (nl + 1) 0)
    ⟨by simp, fun j hj => by
        have : j = 0 := by omega
        subst this; simp [cnt_lt_bucket_zero],
      fun j _ hj => by simp [List.getElem?_replicate]; omega⟩
    (by
      intro i odl hi ⟨hlen, hval, hrest⟩
      refine ⟨odl.set (i + 1) (cnt_lt B m i + cnt_eq B m i), ?_, ?_, ?_, ?_⟩
      · unfold fill_degree_list_step
        rw [rd_of_getElem? (hval i (Nat.le_refl i))]
        have : rd ((List.range nl).map (cnt_eq B m)) i = some (cnt_eq B m i) := by
          simp [rd, List.getElem?_range hi]
        show (rd _ i).bind _ = _
        rw [this]
        exact wr_of_lt _ _ _ (by omega)
      · simp [hlen]
      · intro j hj
        rw [List.getElem?_set]
        by_cases hji : i + 1 = j
        · subst hji; simp [hlen, hi, cnt_lt_bucket_succ]
        · simp [hji]; exact hval j (by omega)
      · intro j hj hj'
        rw [List.getElem?_set_ne (by omega)]
        exact hrest j (by omega) hj')
  unfold fill_degree_list
  rw [hodl]; congr 1
  apply list_eq_of_getElem?
  intro i
  by_cases hi : i < nl + 1
  · rw [hval i (by omega)]; simp [List.getElem?_range hi]
  · rw [List.getElem?_eq_none (by omega), List.getElem?_eq_none (by simp; omega)]

theorem take_degree_list (B : Nat → Nat) (m nl : Nat) :
    ((List.range (nl + 1)).map (cnt_lt B m)).take nl = (List.range nl).map (cnt_lt B m) := by
  rw [List.range_succ, List.map_append, List.take_append_of_le_length (by simp)]
  rw [List.take_of_length_le (by simp)]

theorem placed_set {α : Type} (B : Nat → Nat) (m k : Nat) (hk : k < m) (arr : List α)
    (V : Nat → α) (hlen : arr.length = m)
    (h : ∀ j, j < k → arr[slot B m j]? = some (V j)) :
    ∀ j, j < k + 1 → (arr.set (slot B m k) (V k))[slot B m j]? = some (V j) := by
  intro j hj
  by_cases hjk : j = k
  · subst hjk
    simp [List.getElem?_set, hlen, slot_lt B hk]
  · have hlt : j < k := by omega
    rw [List.getElem?_set_ne (slot_ne B hlt hk).symm]
    exact h j hlt

theorem cursor_set (B : Nat → Nat) (m k nl : Nat) (tc : List Nat) (hlen : tc.length = nl)
    (hb : B k < nl)
    (h : ∀ b, b < nl → tc[b]? = some (cnt_lt B m b + cnt_eq B k b)) :
    ∀ b, b < nl →
      (tc.set (B k) (slot B m k + 1))[b]? = some (cnt_lt B m b + cnt_eq B (k + 1) b) := by
  intro b hb'
  rw [List.getElem?_set, cnt_eq_succ]
  by_cases hbb : B k = b
  · subst hbb; simp [hlen, hb, slot]; omega
  · simp [hbb, h b hb']

theorem scatter_edges_spec (gen : List Nat) (off m nl : Nat)
    (hrd : ∀ k, k < m → 2 * k + 1 < gen.length)
    (hB : ∀ k, k < m → edge_bucket gen 2 off k < nl) :
    ∃ oe tc, scatter_edges gen off m
        (List.replicate m 0, (List.range nl).map (cnt_lt (edge_bucket gen 2 off) m))
        = some (oe, tc) ∧ oe.length = m ∧
      ∀ j, j < m → oe[slot (edge_bucket gen 2 off) m j]? = some (edge_dst gen 2 j) := by
  obtain ⟨⟨oe, tc⟩, hst, hlen, _, _, hval⟩ := forLoop_inv
    (fun k (st : List Nat × List Nat) => st.1.length = m ∧ st.2.length = nl ∧
      (∀ b, b < nl → st.2[b]? =
        some (cnt_lt (edge_bucket gen 2 off) m b + cnt_eq (edge_bucket gen 2 off) k b)) ∧
      ∀ j, j < k → st.1[slot (edge_bucket gen 2 off) m j]? = some (edge_dst gen 2 j))
    m (scatter_edges_step gen off) (List.replicate m 0, (List.range nl).map (cnt_lt (edge_bucket gen 2 off) m))
    ⟨by simp, by simp, fun b hb => by simp [cnt_eq_zero, List.getElem?_range hb],
      fun j hj => by omega⟩
    (by
      intro k ⟨oe, tc⟩ hk ⟨hlen, hlen2, hcur, hval⟩
      have hb := hB k hk
      have hsrc := rd_getD gen (2 * k) 0 (by have := hrd k hk; omega)
      have hdst := rd_getD gen (2 * k + 1) 0 (hrd k hk)
      have hpos : rd tc (sub64 (gen.getD (2 * k) 0) off)
          = some (slot (edge_bucket gen 2 off) m k) := rd_of_getElem? (hcur _ hb)
      refine ⟨(oe.set (slot (edge_bucket gen 2 off) m k) (edge_dst gen 2 k),
        tc.set (edge_bucket gen 2 off k) (slot (edge_bucket gen 2 off) m k + 1)),
        ?_, ?_, ?_, ?_, ?_⟩
      · unfold scatter_edges_step
        rw [hsrc]
        show (rd tc (sub64 (gen.getD (2 * k) 0) off)).bind _ = _
        rw [hpos]
        show (rd gen (2 * k + 1)).bind _ = _
        rw [hdst]
        show (wr oe _ _).bind _ = _
        rw [wr_of_lt _ _ _ (by rw [hlen]; exact slot_lt _ hk)]
        show (wr tc _ _).bind _ = _
        rw [wr_of_lt _ _ _ (by rw [hlen2]; exact hb)]
        rfl
      · simp [hlen]
      · simp [hlen2]
      · exact cursor_set _ m k nl tc hlen2 hb hcur
      · exact placed_set _ m k hk oe (edge_dst gen 2) hlen hval)
  exact ⟨oe, tc, hst, hlen, hval⟩

theorem scatter_edges_weighted_spec (gen : List Nat) (stride off m nl : Nat)
    (weight : Nat → Option Int) (W : Nat → Int)
    (hrd : ∀ k, k < m → stride * k + 1 < gen.length)
    (hB : ∀ k, k < m → edge_bucket gen stride off k < nl)
    (hW : ∀ k, k < m → weight k = some (W k)) :
    ∃ oe ew tc, scatter_edges_weighted gen stride off m weight
        (List.replicate m 0, List.replicate m 0,
          (List.range nl).map (cnt_lt (edge_bucket gen stride off) m))
        = some (oe, ew, tc) ∧ oe.length = m ∧ ew.length = m ∧
      (∀ j, j < m → oe[slot (edge_bucket gen stride off) m j]? = some (edge_dst gen stride j)) ∧
      ∀ j, j < m → ew[slot (edge_bucket gen stride off) m j]? = some (to_int32 (W j)) := by
  obtain ⟨⟨oe, ew, tc⟩, hst, hlen, hlenw, _, _, hval, hvalw⟩ := forLoop_inv
    (fun k (st : List Nat × List Int × List Nat) =>
      st.1.length = m ∧ st.2.1.length = m ∧ st.2.2.length = nl ∧
      (∀ b, b < nl → st.2.2[b]? =
        some (cnt_lt (edge_bucket gen stride off) m b
          + cnt_eq (edge_bucket gen stride off) k b)) ∧
      (∀ j, j < k → st.1[slot (edge_bucket gen stride off) m j]? = some (edge_dst gen stride j)) ∧
      ∀ j, j < k → st.2.1[slot (edge_bucket gen stride off) m j]? = some (to_int32 (W j)))
    m (scatter_edges_weighted_step gen stride off weight)
    (List.replicate m 0, List.replicate m 0,
      (List.range nl).map (cnt_lt (edge_bucket gen stride off) m))
    ⟨by simp, by simp, by simp, fun b hb => by simp [cnt_eq_zero, List.getElem?_range hb],
      fun j hj => by omega, fun j hj => by omega⟩
    (by
      intro k ⟨oe, ew, tc⟩ hk ⟨hlen, hlenw, hlen2, hcur, hval, hvalw⟩
      have hb := hB k hk
      have hsrc := rd_getD gen (stride * k) 0 (by have := hrd k hk; omega)
      have hdst := rd_getD gen (stride * k + 1) 0 (hrd k hk)
      have hpos : rd tc (sub64 (gen.getD (stride * k) 0) off)
          = some (slot (edge_bucket gen stride off) m k) := rd_of_getElem? (hcur _ hb)
      refine ⟨(oe.set (slot (edge_bucket gen stride off) m k) (edge_dst gen stride k),
        ew.set (slot (edge_bucket gen stride off) m k) (to_int32 (W k)),
        tc.set (edge_bucket gen stride off k) (slot (edge_bucket gen stride off) m k + 1)),
        ?_, ?_, ?_, ?_, ?_, ?_, ?_⟩
      · unfold scatter_edges_weighted_step
        rw [hsrc]
        show (rd tc (sub64 (gen.getD (stride * k) 0) off)).bind _ = _
        rw [hpos]
        show (rd gen (stride * k + 1)).bind _ = _
        rw [hdst]
        show (wr oe _ _).bind _ = _
        rw [wr_of_lt _ _ _ (by rw [hlen]; exact slot_lt _ hk)]
        show (weight k).bind _ = _
        rw [hW k hk]
        show (wr ew _ _).bind _ = _
        rw [wr_of_lt _ _ _ (by rw [hlenw]; exact slot_lt _ hk)]
        show (wr tc _ _).bind _ = _
        rw [wr_of_lt _ _ _ (by rw [hlen2]; exact hb)]
        rfl
      · simp [hlen]
      · simp [hlenw]
      · simp [hlen2]
      · exact cursor_set _ m k nl tc hlen2 hb hcur
      · exact placed_set _ m k hk oe (edge_dst gen stride) hlen hval
      · exact placed_set _ m k hk ew (fun j => to_int32 (W j)) hlenw hvalw)
  exact ⟨oe, ew, tc, hst, hlen, hlenw, hval, hvalw⟩

/-! ## The constructors -/

theorem sub64_lt_of_mem_range {s off nl : Nat} (h1 : off ≤ s) (h2 : s < off + nl) :
    sub64 s off < nl := by
  unfold sub64
  have h : s + U64 - off = (s - off) + U64 := by omega
  rw [h, Nat.add_mod_right]
  exact Nat.lt_of_le_of_lt (Nat.mod_le _ _) (by omega)

theorem sub64_eq_of_mem_range {s off nl : Nat} (h1 : off ≤ s) (h2 : s < off + nl)
    (h3 : nl ≤ U64) : sub64 s off = s - off := by
  unfold sub64
  have h : s + U64 - off = (s - off) + U64 := by omega
  rw [h, Nat.add_mod_right]
  exact Nat.mod_eq_of_lt (by omega)

theorem degree_list_ok_of (g : dist_graph_t) (B : Nat → Nat)
    (hB : ∀ k, k < g.m_local → B k < g.n_local)
    (h : g.out_degree_list = (List.range (g.n_local + 1)).map (cnt_lt B g.m_local)) :
    degree_list_ok g := by
  have hget : ∀ i, i ≤ g.n_local → g.out_degree_list.getD i 0 = cnt_lt B g.m_local i := by
    intro i hi
    rw [h]
    simp [List.getElem?_range (show i < g.n_local + 1 by omega)]
  refine ⟨by rw [h]; simp, ?_, ?_, ?_⟩
  · rw [h]; simp [cnt_lt_bucket_zero]
  · intro i j hij hj
    rw [hget i (by omega), hget j hj]
    exact cnt_lt_bucket_mono B _ hij
  · rw [h]
    simp [cnt_lt_all B _ _ hB]

theorem create_graph_spec (ggi : graph_gen_data_t) (g : dist_graph_t)
    (hrd : ∀ k, k < ggi.m_local_edges → 2 * k + 1 < ggi.gen_edges.length)
    (hB : ∀ k, k < ggi.m_local_edges →
      edge_bucket ggi.gen_edges 2 ggi.n_offset k < ggi.n_local) :
    ∃ oe, create_graph ggi g = some { g with
      n := ggi.n
      n_local := ggi.n_local
      n_offset := ggi.n_offset
      m := ggi.m
      m_local := ggi.m_local_edges
      vert_weights := none
      edge_weights := none
      vert_weights_sums := none
      edge_weights_sum := 0
      max_vert_weights := none
      max_edge_weight := 0
      num_vert_weights := 0
      num_edge_weights := 0
      out_edges := oe
      out_degree_list := (List.range (ggi.n_local + 1)).map
        (cnt_lt (edge_bucket ggi.gen_edges 2 ggi.n_offset) ggi.m_local_edges)
      local_unmap := local_unmap_clamped ggi.n ggi.n_local ggi.n_offset } ∧
      oe.length = ggi.m_local_edges ∧
      ∀ j, j < ggi.m_local_edges →
        oe[slot (edge_bucket ggi.gen_edges 2 ggi.n_offset) ggi.m_local_edges j]?
          = some (edge_dst ggi.gen_edges 2 j) := by
  obtain ⟨oe, tc, hsc, hlen, hval⟩ :=
    scatter_edges_spec ggi.gen_edges ggi.n_offset ggi.m_local_edges ggi.n_local hrd hB
  refine ⟨oe, ?_, hlen, hval⟩
  unfold create_graph
  simp only [Option.bind_eq_bind, Option.pure_def]
  rw [count_sources_spec _ _ _ _ _ (fun k hk => by have := hrd k hk; omega) hB]
  simp only [Option.some_bind]
  rw [fill_degree_list_spec, Option.some_bind, take_degree_list, hsc, Option.some_bind]

theorem create_graph_weighted_spec (ggi : graph_gen_data_t) (g : dist_graph_t)
    (hrd : ∀ k, k < ggi.m_local_edges → 3 * k + 2 < ggi.gen_edges.length)
    (hB : ∀ k, k < ggi.m_local_edges →
      edge_bucket ggi.gen_edges 3 ggi.n_offset k < ggi.n_local) :
    ∃ oe ew, create_graph_weighted ggi g = some { g with
      n := ggi.n
      n_local := ggi.n_local
      n_offset := ggi.n_offset
      m := ggi.m
      m_local := ggi.m_local_edges
      vert_weights := ggi.vert_weights
      vert_weights_sums := ggi.vert_weights_sums
      edge_weights_sum := ggi.edge_weights_sum
      max_vert_weights := ggi.max_vert_weights
      max_edge_weight := ggi.max_edge_weight
      num_vert_weights := ggi.num_vert_weights
      num_edge_weights := ggi.num_edge_weights
      out_edges := oe
      out_degree_list := (List.range (ggi.n_local + 1)).map
        (cnt_lt (edge_bucket ggi.gen_edges 3 ggi.n_offset) ggi.m_local_edges)
      edge_weights := some ew
      local_unmap := local_unmap_clamped ggi.n ggi.n_local ggi.n_offset } ∧
      oe.length = ggi.m_local_edges ∧ ew.length = ggi.m_local_edges ∧
      (∀ j, j < ggi.m_local_edges →
        oe[slot (edge_bucket ggi.gen_edges 3 ggi.n_offset) ggi.m_local_edges j]?
          = some (edge_dst ggi.gen_edges 3 j)) ∧
      ∀ j, j < ggi.m_local_edges →
        ew[slot (edge_bucket ggi.gen_edges 3 ggi.n_offset) ggi.m_local_edges j]?
          = some (to_int32 (Int.ofNat (ggi.gen_edges.getD (3 * j + 2) 0))) := by
  obtain ⟨oe, ew, tc, hsc, hlen, hlenw, hval, hvalw⟩ :=
    scatter_edges_weighted_spec ggi.gen_edges 3 ggi.n_offset ggi.m_local_edges ggi.n_local
      (triple_weight ggi.gen_edges)
      (fun k => Int.ofNat (ggi.gen_edges.getD (3 * k + 2) 0))
      (fun k hk => by have := hrd k hk; omega) hB
      (fun k hk => by unfold triple_weight; rw [rd_getD _ _ 0 (hrd k hk)])
  refine ⟨oe, ew, ?_, hlen, hlenw, hval, hvalw⟩
  unfold create_graph_weighted
  simp only [Option.bind_eq_bind, Option.pure_def]
  rw [count_sources_spec _ _ _ _ _ (fun k hk => by have := hrd k hk; omega) hB]
  simp only [Option.some_bind]
  rw [fill_degree_list_spec, Option.some_bind, take_degree_list, hsc, Option.some_bind]

theorem create_graph_serial_spec (ggi : graph_gen_data_t) (g : dist_graph_t)
    (hrd : ∀ k, k < ggi.m_local_edges → 2 * k + 1 < ggi.gen_edges.length)
    (hB : ∀ k, k < ggi.m_local_edges → edge_bucket ggi.gen_edges 2 0 k < ggi.n_local) :
    ∃ oe, create_graph_serial ggi g = some { g with
      n := ggi.n
      n_local := ggi.n_local
      n_offset := 0
      m := ggi.m
      m_local := ggi.m_local_edges
      n_ghost := 0
      n_total := ggi.n_local
      vert_weights := none
      edge_weights := none
      vert_weights_sums := none
      edge_weights_sum := 0
      max_vert_weights := none
      max_edge_weight := 0
      num_vert_weights := 0
      num_edge_weights := 0
      out_edges := oe
      out_degree_list := (List.range (ggi.n_local + 1)).map
        (cnt_lt (edge_bucket ggi.gen_edges 2 0) ggi.m_local_edges)
      local_unmap := local_unmap_plain ggi.n_local 0
      map := init_map_nohash ggi.n } ∧
      oe.length = ggi.m_local_edges ∧
      ∀ j, j < ggi.m_local_edges →
        oe[slot (edge_bucket ggi.gen_edges 2 0) ggi.m_local_edges j]?
          = some (edge_dst ggi.gen_edges 2 j) := by
  obtain ⟨oe, tc, hsc, hlen, hval⟩ :=
    scatter_edges_spec ggi.gen_edges 0 ggi.m_local_edges ggi.n_local hrd hB
  refine ⟨oe, ?_, hlen, hval⟩
  unfold create_graph_serial
  simp only [Option.bind_eq_bind, Option.pure_def]
  rw [count_sources_spec _ _ _ _ _ (fun k hk => by have := hrd k hk; omega) hB]
  simp only [Option.some_bind]
  rw [fill_degree_list_spec, Option.some_bind, take_degree_list, hsc, Option.some_bind]

theorem create_graph_serial_weighted_spec (ggi : graph_gen_data_t) (g : dist_graph_t)
    (hrd : ∀ k, k < ggi.m_local_read → 2 * k + 1 < ggi.gen_edges.length)
    (hw : ggi.m_local_read ≤ ggi.edge_weights.length)
    (hB : ∀ k, k < ggi.m_local_read → edge_bucket ggi.gen_edges 2 0 k < ggi.n_local) :
    ∃ oe ew, create_graph_serial_weighted ggi g = some { g with
      n := ggi.n
      n_local := ggi.n_local
      n_offset := 0
      m := ggi.m
      m_local := ggi.m_local_read
      n_ghost := 0
      n_total := ggi.n_local
      vert_weights := ggi.vert_weights
      vert_weights_sums := ggi.vert_weights_sums
      edge_weights_sum := ggi.edge_weights_sum
      max_vert_weights := ggi.max_vert_weights
      max_edge_weight := ggi.max_edge_weight
      num_vert_weights := ggi.num_vert_weights
      num_edge_weights := ggi.num_edge_weights
      out_edges := oe
      out_degree_list := (List.range (ggi.n_local + 1)).map
        (cnt_lt (edge_bucket ggi.gen_edges 2 0) ggi.m_local_read)
      edge_weights := some ew
      local_unmap := local_unmap_plain ggi.n_local 0
      map := init_map_nohash ggi.n } ∧
      oe.length = ggi.m_local_read ∧ ew.length = ggi.m_local_read ∧
      (∀ j, j < ggi.m_local_read →
        oe[slot (edge_bucket ggi.gen_edges 2 0) ggi.m_local_read j]?
          = some (edge_dst ggi.gen_edges 2 j)) ∧
      ∀ j, j < ggi.m_local_read →
        ew[slot (edge_bucket ggi.gen_edges 2 0) ggi.m_local_read j]?
          = some (to_int32 (ggi.edge_weights.getD j 0)) := by
  obtain ⟨oe, ew, tc, hsc, hlen, hlenw, hval, hvalw⟩ :=
    scatter_edges_weighted_spec ggi.gen_edges 2 0 ggi.m_local_read ggi.n_local
      (rd ggi.edge_weights) (fun k => ggi.edge_weights.getD k 0)
      hrd hB (fun k hk => rd_getD _ _ 0 (by omega))
  refine ⟨oe, ew, ?_, hlen, hlenw, hval, hvalw⟩
  unfold create_graph_serial_weighted
  simp only [Option.bind_eq_bind, Option.pure_def]
  rw [count_sources_spec _ _ _ _ _ (fun k hk => by have := hrd k hk; omega) hB]
  simp only [Option.some_bind]
  rw [fill_degree_list_spec, Option.some_bind, take_degree_list, hsc, Option.some_bind]

theorem degree_list_getD (B : Nat → Nat) (m nl i : Nat) (hi : i ≤ nl) :
    ((List.range (nl + 1)).map (cnt_lt B m)).getD i 0 = cnt_lt B m i := by
  simp [List.getElem?_range (show i < nl + 1 by omega)]

theorem filter_range_getElem? (p : Nat → Bool) (m t j : Nat)
    (h : ((List.range m).filter p)[t]? = some j) :
    j < m ∧ p j = true ∧ (List.range j).countP p = t := by
  induction m with
  | zero => simp at h
  | succ m ih =>
    rw [List.range_succ, List.filter_append, List.getElem?_append] at h
    by_cases ht : t < ((List.range m).filter p).length
    · rw [if_pos ht] at h
      obtain ⟨h1, h2, h3⟩ := ih h
      exact ⟨by omega, h2, h3⟩
    · rw [if_neg ht] at h
      by_cases hp : p m = true
      · have hf : List.filter p [m] = [m] := by simp [hp]
        rw [hf] at h
        have ht0 : t - ((List.range m).filter p).length = 0 := by
          by_contra hne
          rw [List.getElem?_eq_none (by simp; omega)] at h
          exact Option.noConfusion h
        rw [ht0] at h
        simp at h
        subst h
        refine ⟨by omega, hp, ?_⟩
        rw [List.countP_eq_length_filter]; omega
      · have hf : List.filter p [m] = [] := by simp [hp]
        rw [hf] at h
        simp at h

theorem gen_edge_list_mem (ggi : graph_gen_data_t) (k : Nat) (hk : k < ggi.m_local_edges) :
    (ggi.gen_edges.getD (2 * k) 0, ggi.gen_edges.getD (2 * k + 1) 0) ∈ gen_edge_list ggi := by
  unfold gen_edge_list
  exact List.mem_map.mpr ⟨k, List.mem_range.mpr hk, rfl⟩

/-- Core of the stability statement: the slice of bucket `i` holds the
destinations of the edges of bucket `i`, in input order. -/
theorem slice_of_placed (B D : Nat → Nat) (m i : Nat) (oe : List Nat)
    (hval : ∀ j, j < m → oe[slot B m j]? = some (D j)) :
    slice oe (cnt_lt B m i) (cnt_lt B m (i + 1))
      = ((List.range m).filter (fun k => B k = i)).map D := by
  apply list_eq_of_getElem?
  intro t
  have hlenF : ((List.range m).filter (fun k => decide (B k = i))).length = cnt_eq B m i := by
    rw [← List.countP_eq_length_filter]; rfl
  unfold slice
  rw [cnt_lt_bucket_succ, Nat.add_sub_cancel_left, List.getElem?_take, List.getElem?_drop]
  by_cases ht : t < cnt_eq B m i
  · rw [if_pos ht]
    have htF : t < ((List.range m).filter (fun k => decide (B k = i))).length := by omega
    have hget := List.getElem?_eq_getElem htF
    obtain ⟨hj, hpj, hcnt⟩ := filter_range_getElem? _ m t _ hget
    simp only [decide_eq_true_eq] at hpj
    rw [List.getElem?_map, hget, Option.map_some']
    have hslot : slot B m (((List.range m).filter (fun k => decide (B k = i)))[t])
        = cnt_lt B m i + t := by
      unfold slot cnt_eq
      rw [hpj, hcnt]
    rw [← hslot]
    exact hval _ hj
  · rw [if_neg ht, List.getElem?_eq_none (by simp; omega)]

/-! ## The map model -/

theorem U64_eq : U64 = 18446744073709551616 := by decide

theorem NULL_KEY_eq : NULL_KEY = 18446744073709551615 := by decide

theorem get_value_eq_look (mp : fast_map) (key : Nat) :
    get_value mp key = (look mp key).getD NULL_KEY := by
  unfold get_value look
  cases mp.entries.find? (fun e => e.1 = key) <;> rfl

theorem look_set_value (mp : fast_map) (k v key : Nat) :
    look (set_value mp k v) key = if key = k then some v else look mp key := by
  unfold look set_value
  by_cases h : k = key
  · subst h; simp [List.find?_cons]
  · have h' : ¬ key = k := fun e => h e.symm
    simp [List.find?_cons, h, h']

theorem any_key_eq_isSome (mp : fast_map) (key : Nat) :
    mp.entries.any (fun e => decide (e.1 = key)) = (look mp key).isSome := by
  unfold look
  rw [Option.isSome_map']
  induction mp.entries with
  | nil => rfl
  | cons e es ih => by_cases h : e.1 = key <;> simp [List.find?_cons, h, ih]

theorem look_set_value_uq (mp : fast_map) (k v key : Nat) :
    look (set_value_uq mp k v) key = if key = k then some v else look mp key := by
  have h := look_set_value mp k v key
  unfold set_value_uq
  split
  · exact h
  · unfold look set_value at *
    exact h

theorem unique_keys_set_value_uq (mp : fast_map) (k v : Nat) :
    (set_value_uq mp k v).unique_keys =
      if (look mp k).isSome then mp.unique_keys else mp.unique_keys ++ [k] := by
  unfold set_value_uq
  rw [any_key_eq_isSome]
  split <;> rfl

theorem unique_keys_set_value (mp : fast_map) (k v : Nat) :
    (set_value mp k v).unique_keys = mp.unique_keys := rfl

/-! ## Owned indices -/

theorem owned_index_some {L : List Nat} {k v i : Nat} (h : owned_index L k v = some i) :
    i < k ∧ L[i]? = some v := by
  induction k with
  | zero => simp [owned_index] at h
  | succ k ih =>
    unfold owned_index at h
    split at h
    · cases h; exact ⟨Nat.lt_succ_self _, by assumption⟩
    · have := ih h; exact ⟨by omega, this.2⟩

theorem owned_index_none {L : List Nat} {k v : Nat} :
    owned_index L k v = none ↔ ∀ i, i < k → L[i]? ≠ some v := by
  induction k with
  | zero => simp [owned_index]
  | succ k ih =>
    unfold owned_index
    split
    · rename_i hk
      constructor
      · intro h; exact Option.noConfusion h
      · intro h; exact absurd hk (h k (Nat.lt_succ_self _))
    · rename_i hk
      rw [ih]
      constructor
      · intro h i hi
        by_cases hik : i = k
        · subst hik; exact hk
        · exact h i (by omega)
      · intro h i hi
        exact h i (by omega)

theorem owned_index_none_iff_not_mem {L : List Nat} {v : Nat} :
    owned_index L L.length v = none ↔ v ∉ L := by
  rw [owned_index_none, List.mem_iff_getElem?]
  constructor
  · rintro h ⟨i, hi⟩
    have hlt : i < L.length := by
      by_contra hge
      rw [List.getElem?_eq_none (by omega)] at hi
      exact Option.noConfusion hi
    exact h i hlt hi
  · intro h i _ hi
    exact h ⟨i, hi⟩

theorem owned_index_isSome_iff_mem {L : List Nat} {v : Nat} :
    (owned_index L L.length v).isSome ↔ v ∈ L := by
  rw [← not_iff_not, ← owned_index_none_iff_not_mem]
  cases owned_index L L.length v <;> simp

theorem owned_index_of_unique {L : List Nat} {k i v : Nat} (hi : i < k)
    (hv : L[i]? = some v) (huniq : ∀ j, j < k → L[j]? = some v → j = i) :
    owned_index L k v = some i := by
  cases h : owned_index L k v with
  | none => exact absurd hv (owned_index_none.mp h i hi)
  | some j =>
    have hj := owned_index_some h
    rw [huniq j hj.1 hj.2]

theorem owned_index_nodup {L : List Nat} (hnd : L.Nodup) {i : Nat} (hi : i < L.length) :
    owned_index L L.length (L.getD i 0) = some i := by
  have hv : L[i]? = some (L.getD i 0) := by simp [List.getElem?_eq_getElem hi]
  apply owned_index_of_unique hi hv
  intro j hj hjv
  rw [List.getElem?_eq_getElem hj] at hjv
  rw [List.getElem?_eq_getElem hi] at hv
  have h1 : L[j] = L[i] := by
    have := hjv.trans hv.symm
    exact Option.some.inj this
  exact (List.Nodup.getElem_inj_iff hnd).mp h1

theorem seed_map_spec (L : List Nat) (nl : Nat) (hL : nl ≤ L.length) (mp0 : fast_map)
    (h0 : mp0.entries = []) :
    ∃ mp, seed_map L nl mp0 = some mp ∧ mp.unique_keys = mp0.unique_keys ∧
      ∀ v, look mp v = owned_index L nl v := by
  obtain ⟨mp, hmp, hkeys, hlook⟩ := forLoop_inv
    (fun k (mp : fast_map) => mp.unique_keys = mp0.unique_keys ∧
      ∀ v, look mp v = owned_index L k v)
    nl (seed_map_step L) mp0
    ⟨rfl, fun v => by simp [look, h0, owned_index]⟩
    (by
      intro k mp hk ⟨hkeys, hlook⟩
      obtain ⟨x, hx⟩ : ∃ x, L[k]? = some x :=
        ⟨L[k], List.getElem?_eq_getElem (by omega)⟩
      refine ⟨set_value mp x k, ?_, ?_, ?_⟩
      · unfold seed_map_step; rw [rd_of_getElem? hx]; rfl
      · rw [unique_keys_set_value, hkeys]
      · intro v
        rw [look_set_value, hlook]
        conv_rhs => unfold owned_index
        rw [hx]
        by_cases hv : v = x
        · subst hv; simp
        · have : ¬ some x = some v := fun h => hv (Option.some.inj h).symm
          rw [if_neg hv, if_neg this])
  exact ⟨mp, hmp, hkeys, hlook⟩

/-! ## Discovered ghosts -/

theorem ghosts_seen_succ (L : List Nat) (nl : Nat) (OE : List Nat) (k : Nat) :
    ghosts_seen L nl OE (k + 1) =
      if (owned_index L nl (OE.getD k 0)).isSome ∨ OE.getD k 0 ∈ ghosts_seen L nl OE k then
        ghosts_seen L nl OE k
      else ghosts_seen L nl OE k ++ [OE.getD k 0] := rfl

theorem ghosts_length_le (L : List Nat) (nl : Nat) (OE : List Nat) (k : Nat) :
    (ghosts_seen L nl OE k).length ≤ k := by
  induction k with
  | zero => simp [ghosts_seen]
  | succ k ih =>
    rw [ghosts_seen_succ]
    split
    · omega
    · rw [List.length_append, List.length_singleton]; omega

theorem ghosts_nodup (L : List Nat) (nl : Nat) (OE : List Nat) (k : Nat) :
    (ghosts_seen L nl OE k).Nodup := by
  induction k with
  | zero => simp [ghosts_seen]
  | succ k ih =>
    rw [ghosts_seen_succ]
    split
    · exact ih
    · rename_i h
      rw [List.nodup_append]
      refine ⟨ih, List.nodup_singleton _, ?_⟩
      intro a ha hb
      rw [List.mem_singleton] at hb
      subst hb
      exact h (Or.inr ha)

theorem ghosts_mem_iff (L : List Nat) (nl : Nat) (OE : List Nat) (k v : Nat) :
    v ∈ ghosts_seen L nl OE k ↔
      owned_index L nl v = none ∧ ∃ i, i < k ∧ OE.getD i 0 = v := by
  induction k with
  | zero => simp [ghosts_seen]
  | succ k ih =>
    rw [ghosts_seen_succ]
    split
    · rename_i h
      rw [ih]
      constructor
      · rintro ⟨h1, i, hi, hiv⟩
        exact ⟨h1, i, by omega, hiv⟩
      · rintro ⟨h1, i, hi, hiv⟩
        by_cases hik : i = k
        · subst hik
          rw [hiv] at h
          rcases h with h | h
          · rw [h1] at h; exact absurd h (by simp)
          · exact ih.mp h
        · exact ⟨h1, i, by omega, hiv⟩
    · rename_i h
      rw [List.mem_append, List.mem_singleton, ih]
      constructor
      · rintro (⟨h1, i, hi, hiv⟩ | hv)
        · exact ⟨h1, i, by omega, hiv⟩
        · subst hv
          refine ⟨?_, k, Nat.lt_succ_self _, rfl⟩
          cases hc : owned_index L nl (OE.getD k 0) with
          | none => rfl
          | some j => rw [hc] at h; exact absurd (Or.inl rfl) h
      · rintro ⟨h1, i, hi, hiv⟩
        by_cases hik : i = k
        · subst hik; exact Or.inr hiv.symm
        · exact Or.inl ⟨h1, i, by omega, hiv⟩

theorem ghosts_indexOf_succ (L : List Nat) (nl : Nat) (OE : List Nat) (k v : Nat)
    (hv : v ∈ ghosts_seen L nl OE k) :
    (ghosts_seen L nl OE (k + 1)).indexOf v = (ghosts_seen L nl OE k).indexOf v := by
  rw [ghosts_seen_succ]
  split
  · rfl
  · exact List.indexOf_append_of_mem hv

theorem local_label_succ (L : List Nat) (nl : Nat) (OE : List Nat) (k i : Nat) (hi : i < k) :
    local_label L nl (ghosts_seen L nl OE (k + 1)) (OE.getD i 0)
      = local_label L nl (ghosts_seen L nl OE k) (OE.getD i 0) := by
  unfold local_label
  cases hc : owned_index L nl (OE.getD i 0) with
  | some j => rfl
  | none =>
    have hmem : OE.getD i 0 ∈ ghosts_seen L nl OE k :=
      (ghosts_mem_iff L nl OE k _).mpr ⟨hc, i, hi, rfl⟩
    show nl + _ = nl + _
    rw [ghosts_indexOf_succ L nl OE k _ hmem]

theorem full_index_succ_of_ne (L : List Nat) (nl : Nat) (G : List Nat) (x v : Nat)
    (hv : v ≠ x) :
    full_index L nl (G ++ [x]) v = full_index L nl G v := by
  unfold full_index
  cases owned_index L nl v with
  | some j => rfl
  | none =>
    show (if v ∈ G ++ [x] then _ else _) = (if v ∈ G then _ else _)
    by_cases hm : v ∈ G
    · rw [if_pos hm, if_pos (List.mem_append_left _ hm), List.indexOf_append_of_mem hm]
    · have : v ∉ G ++ [x] := by
        rw [List.mem_append, List.mem_singleton]; tauto
      rw [if_neg hm, if_neg this]

/-! ## The scan of `out_edges` -/

theorem scan_edges_spec (L OE : List Nat) (nl m : Nat) (mp1 : fast_map)
    (hOE : OE.length = m) (hsz : nl + m < U64)
    (hkeys1 : mp1.unique_keys = [])
    (hlook1 : ∀ v, look mp1 v = owned_index L nl v) :
    ∃ mp cl, scan_edges m (OE, mp1, nl)
        = some (OE.map (local_label L nl (ghosts_seen L nl OE m)), mp, cl) ∧
      mp.unique_keys = ghosts_seen L nl OE m ∧
      ∀ v, look mp v = full_index L nl (ghosts_seen L nl OE m) v := by
  have hU := U64_eq
  have hN := NULL_KEY_eq
  obtain ⟨⟨oe, mp, cl⟩, hst, hlen, _, hkeys, hlook, hdone, _⟩ := forLoop_inv
    (fun k (st : List Nat × fast_map × Nat) =>
      st.1.length = m ∧ st.2.2 = nl + (ghosts_seen L nl OE k).length ∧
      st.2.1.unique_keys = ghosts_seen L nl OE k ∧
      (∀ v, look st.2.1 v = full_index L nl (ghosts_seen L nl OE k) v) ∧
      (∀ i, i < k → st.1[i]? = some (local_label L nl (ghosts_seen L nl OE k) (OE.getD i 0))) ∧
      ∀ i, k ≤ i → st.1[i]? = OE[i]?)
    m scan_edges_step (OE, mp1, nl)
    ⟨hOE, rfl, hkeys1, fun v => by
        rw [hlook1]; unfold full_index ghosts_seen
        cases owned_index L nl v <;> simp,
      fun i hi => by omega, fun i _ => rfl⟩
    (by
      intro k ⟨oe, mp, cl⟩ hk ⟨hlen, hcl, hkeys, hlook, hdone, htodo⟩
      simp only at hlen hcl hkeys hlook hdone htodo
      obtain ⟨v, hv⟩ : ∃ v, OE[k]? = some v :=
        ⟨OE[k], List.getElem?_eq_getElem (by omega)⟩
      have hvD : OE.getD k 0 = v := by rw [List.getD_eq_getElem?_getD, hv]; rfl
      have hrd : rd oe k = some v := by unfold rd; rw [htodo k (Nat.le_refl k)]; exact hv
      have hGlen := ghosts_length_le L nl OE k
      have hsucc := ghosts_seen_succ L nl OE k
      rw [hvD] at hsucc
      have hval : get_value mp v = (full_index L nl (ghosts_seen L nl OE k) v).getD NULL_KEY := by
        rw [get_value_eq_look, hlook]
      have hkeep : ∀ x, x ≠ NULL_KEY → get_value mp v = x →
          ghosts_seen L nl OE (k + 1) = ghosts_seen L nl OE k →
          local_label L nl (ghosts_seen L nl OE k) v = x →
          ∃ st', scan_edges_step k (oe, mp, cl) = some st' ∧
            st'.1.length = m ∧ st'.2.2 = nl + (ghosts_seen L nl OE (k + 1)).length ∧
            st'.2.1.unique_keys = ghosts_seen L nl OE (k + 1) ∧
            (∀ v, look st'.2.1 v = full_index L nl (ghosts_seen L nl OE (k + 1)) v) ∧
            (∀ i, i < k + 1 → st'.1[i]? =
              some (local_label L nl (ghosts_seen L nl OE (k + 1)) (OE.getD i 0))) ∧
            ∀ i, k + 1 ≤ i → st'.1[i]? = OE[i]? := by
        intro x hx hgx hG hlab
        refine ⟨(oe.set k x, mp, cl), ?_, ?_, ?_, ?_, ?_, ?_, ?_⟩
        · unfold scan_edges_step
          simp only [hrd, Option.bind_eq_bind, Option.some_bind, hgx, if_neg hx]
          rw [wr_of_lt _ _ _ (by omega)]; rfl
        · simp [hlen]
        · rw [hG]; exact hcl
        · rw [hG]; exact hkeys
        · rw [hG]; exact hlook
        · intro i hi
          rw [hG, List.getElem?_set]
          by_cases hik : k = i
          · subst hik; rw [if_pos rfl, if_pos (by omega), hvD, hlab]
          · rw [if_neg hik]; exact hdone i (by omega)
        · intro i hi
          rw [List.getElem?_set_ne (by omega)]
          exact htodo i (by omega)
      cases hown : owned_index L nl v with
      | some i =>
        have hi := (owned_index_some hown).1
        apply hkeep i (by omega)
        · rw [hval]; unfold full_index; rw [hown]; rfl
        · rw [hsucc, hown]; simp
        · unfold local_label; rw [hown]
      | none =>
        by_cases hmem : v ∈ ghosts_seen L nl OE k
        · have hidx := List.indexOf_lt_length.mpr hmem
          apply hkeep (nl + (ghosts_seen L nl OE k).indexOf v) (by omega)
          · rw [hval]; unfold full_index; rw [hown]; simp [hmem]
          · rw [hsucc, if_pos (Or.inr hmem)]
          · unfold local_label; rw [hown]
        · have hG : ghosts_seen L nl OE (k + 1) = ghosts_seen L nl OE k ++ [v] := by
            rw [hsucc, hown]; simp [hmem]
          have hgx : get_value mp v = NULL_KEY := by
            rw [hval]; unfold full_index; rw [hown]; simp [hmem]
          have hlk : look mp v = none := by
            rw [hlook]; unfold full_index; rw [hown]; simp [hmem]
          refine ⟨(oe.set k cl, set_value_uq mp v cl, add64 cl 1), ?_, ?_, ?_, ?_, ?_, ?_, ?_⟩
          · unfold scan_edges_step
            simp only [hrd, Option.bind_eq_bind, Option.some_bind, hgx, if_pos]
            rw [wr_of_lt _ _ _ (by omega)]; rfl
          · simp [hlen]
          · show add64 cl 1 = _
            rw [hG, List.length_append, List.length_singleton]
            unfold add64
            rw [Nat.mod_eq_of_lt (by omega)]; omega
          · show (set_value_uq mp v cl).unique_keys = _
            rw [unique_keys_set_value_uq, hlk, hG, hkeys]; rfl
          · intro w
            show look (set_value_uq mp v cl) w = _
            rw [look_set_value_uq, hG]
            by_cases hw : w = v
            · subst hw
              rw [if_pos rfl]
              unfold full_index
              rw [hown]
              simp only [List.mem_append, List.mem_singleton, or_true, if_true]
              rw [List.indexOf_append_of_not_mem hmem, hcl]
              simp
            · rw [if_neg hw, full_index_succ_of_ne L nl _ v w hw]
              exact hlook w
          · intro i hi
            rw [List.getElem?_set]
            by_cases hik : k = i
            · subst hik
              rw [if_pos rfl, if_pos (by omega), hvD]
              unfold local_label
              rw [hown, hG, hcl]
              show some (nl + _) = some (nl + _)
              rw [List.indexOf_append_of_not_mem hmem]
              simp
            · rw [if_neg hik, local_label_succ L nl OE k i (by omega)]
              exact hdone i (by omega)
          · intro i hi
            rw [List.getElem?_set_ne (by omega)]
            exact htodo i (by omega))
  refine ⟨mp, cl, ?_, hkeys, hlook⟩
  unfold scan_edges
  rw [hst]
  congr 2
  apply list_eq_of_getElem?
  intro i
  by_cases hi : i < m
  · rw [hdone i hi, List.getElem?_map, List.getElem?_eq_getElem (by omega)]
    simp [List.getElem?_eq_getElem (show i < OE.length by omega)]
  · rw [List.getElem?_eq_none (by simp at hlen; omega), List.getElem?_eq_none (by simp; omega)]

/-! ## The ghost arrays -/

theorem fill_ghost_unmap_spec (nl : Nat) (G : List Nat) (mp : fast_map)
    (hsz : nl + G.length < U64) (hnd : G.Nodup)
    (hkeys : mp.unique_keys = G)
    (hlook : ∀ v, v ∈ G → look mp v = some (nl + G.indexOf v)) :
    fill_ghost_unmap mp nl G.length (List.replicate G.length 0) = some G := by
  have hU := U64_eq
  obtain ⟨gu, hgu, hlen, hval⟩ := forLoop_inv
    (fun i (gu : List Nat) => gu.length = G.length ∧ ∀ j, j < i → gu[j]? = G[j]?)
    G.length (fill_ghost_unmap_step mp nl) (List.replicate G.length 0)
    ⟨by simp, fun j hj => by omega⟩
    (by
      intro i gu hi ⟨hlen, hval⟩
      have hmem : G[i] ∈ G := List.getElem_mem hi
      have hget : G[i]? = some G[i] := List.getElem?_eq_getElem hi
      have hidx : G.indexOf G[i] = i := List.indexOf_getElem hnd i hi
      have hcur : sub64 (get_value mp G[i]) nl = i := by
        rw [get_value_eq_look, hlook _ hmem, hidx]
        show sub64 (nl + i) nl = i
        unfold sub64
        rw [show nl + i + U64 - nl = i + U64 by omega, Nat.add_mod_right]
        exact Nat.mod_eq_of_lt (by omega)
      refine ⟨gu.set i G[i], ?_, by simp [hlen], ?_⟩
      · unfold fill_ghost_unmap_step
        rw [hkeys, rd_of_getElem? hget]
        show wr gu (sub64 (get_value mp G[i]) nl) G[i] = _
        rw [hcur]
        exact wr_of_lt _ _ _ (by omega)
      · intro j hj
        rw [List.getElem?_set]
        by_cases hij : i = j
        · subst hij; rw [if_pos rfl, if_pos (by omega), hget]
        · rw [if_neg hij]; exact hval j (by omega))
  unfold fill_ghost_unmap
  rw [hgu]; congr 1
  apply list_eq_of_getElem?
  intro i
  by_cases hi : i < G.length
  · exact hval i hi
  · rw [List.getElem?_eq_none (by omega), List.getElem?_eq_none (by omega)]

theorem map_loop_spec (f : Nat → Nat) (gu : List Nat)
    (step : Nat → List Nat → Option (List Nat))
    (hstep : ∀ i gt x, gu[i]? = some x → step i gt = wr gt i (f x)) :
    forLoop gu.length step (List.replicate gu.length 0) = some (gu.map f) := by
  obtain ⟨gt, hgt, hlen, hval⟩ := forLoop_inv
    (fun i (gt : List Nat) => gt.length = gu.length ∧ ∀ j, j < i → gt[j]? = (gu.map f)[j]?)
    gu.length step (List.replicate gu.length 0)
    ⟨by simp, fun j hj => by omega⟩
    (by
      intro i gt hi ⟨hlen, hval⟩
      have hget : gu[i]? = some gu[i] := List.getElem?_eq_getElem hi
      refine ⟨gt.set i (f gu[i]), ?_, by simp [hlen], ?_⟩
      · rw [hstep i gt _ hget]; exact wr_of_lt _ _ _ (by omega)
      · intro j hj
        rw [List.getElem?_set]
        by_cases hij : i = j
        · subst hij; rw [if_pos rfl, if_pos (by omega), List.getElem?_map, hget]; rfl
        · rw [if_neg hij]; exact hval j (by omega))
  rw [hgt]; congr 1
  apply list_eq_of_getElem?
  intro i
  by_cases hi : i < gu.length
  · exact hval i hi
  · rw [List.getElem?_eq_none (by omega), List.getElem?_eq_none (by simp; omega)]

theorem fill_ghost_tasks_spec (nprocs n : Nat) (vd : Option (List Nat)) (gu : List Nat)
    (hp : 0 < nprocs) (hn : n / nprocs + 1 < U64) :
    fill_ghost_tasks nprocs n gu.length vd gu (List.replicate gu.length 0)
      = some (gu.map (ghost_owner nprocs n vd)) := by
  cases vd with
  | none =>
    have h1 : add64 (n / nprocs) 1 = n / nprocs + 1 := Nat.mod_eq_of_lt hn
    unfold fill_ghost_tasks
    simp only
    rw [if_neg (Nat.pos_iff_ne_zero.mp hp), h1, if_neg (Nat.succ_ne_zero _)]
    apply map_loop_spec (ghost_owner nprocs n none) gu
    intro i gt x hx
    unfold ghost_tasks_default_step
    rw [rd_of_getElem? hx]; rfl
  | some d =>
    unfold fill_ghost_tasks
    simp only
    apply map_loop_spec (ghost_owner nprocs n (some d)) gu
    intro i gt x hx
    unfold ghost_tasks_dist_step
    rw [rd_of_getElem? hx]; rfl

theorem full_index_of_ghost (L : List Nat) (nl : Nat) (OE : List Nat) (k v : Nat)
    (hv : v ∈ ghosts_seen L nl OE k) :
    full_index L nl (ghosts_seen L nl OE k) v
      = some (nl + (ghosts_seen L nl OE k).indexOf v) := by
  unfold full_index
  rw [((ghosts_mem_iff L nl OE k v).mp hv).1]
  simp [hv]

/-- What `relabel_edges` returns on a well-formed graph, in closed form. -/
theorem relabel_edges_core (nprocs : Nat) (g : dist_graph_t) (vd : Option (List Nat))
    (hL : g.local_unmap.length = g.n_local) (hOE : g.out_edges.length = g.m_local)
    (hsz : g.n_local + g.m_local < U64)
    (htasks : 0 < (ghosts_of g).length → 0 < nprocs ∧ g.n / nprocs + 1 < U64) :
    ∃ mp, relabel_edges nprocs g vd = some (relabeled_graph nprocs g vd mp) ∧
      mp.unique_keys = ghosts_of g ∧
      ∀ v, look mp v = full_index g.local_unmap g.n_local (ghosts_of g) v := by
  have hU := U64_eq
  obtain ⟨mp1, hseed, hk1, hl1⟩ := seed_map_spec g.local_unmap g.n_local (by omega)
    (init_map ((add64 g.m_local g.n_local * 2) % U64)) rfl
  obtain ⟨mp, cl, hscan, hkeys, hlook⟩ := scan_edges_spec g.local_unmap g.out_edges
    g.n_local g.m_local mp1 hOE hsz hk1 hl1
  have hGlen := ghosts_length_le g.local_unmap g.n_local g.out_edges g.m_local
  refine ⟨mp, ?_, hkeys, hlook⟩
  have hnum : mp.num_unique = (ghosts_of g).length := by
    unfold fast_map.num_unique; rw [hkeys]; rfl
  have htot : add64 (ghosts_of g).length g.n_local = (ghosts_of g).length + g.n_local := by
    unfold ghosts_of; exact Nat.mod_eq_of_lt (by omega)
  unfold relabel_edges
  simp only [Option.bind_eq_bind, Option.pure_def]
  rw [hseed, Option.some_bind, hscan, Option.some_bind]
  simp only [hnum, htot]
  unfold relabeled_graph
  by_cases hpos : 0 < (ghosts_of g).length
  · rw [if_pos hpos, if_pos hpos, if_pos hpos]
    have hfu := fill_ghost_unmap_spec g.n_local (ghosts_of g) mp
      (by unfold ghosts_of; omega) (ghosts_nodup _ _ _ _) hkeys
      (fun v hv => by rw [hlook]; exact full_index_of_ghost _ _ _ _ _ hv)
    rw [hfu, Option.some_bind,
      fill_ghost_tasks_spec nprocs g.n vd _ (htasks hpos).1 (htasks hpos).2, Option.some_bind]
    rfl
  · rw [if_neg hpos, if_neg hpos, if_neg hpos]
    rfl

theorem relabel_edges_spec (nprocs : Nat) (g : dist_graph_t) (vd : Option (List Nat))
    (h : relabel_ready nprocs g) :
    ∃ mp, relabel_edges nprocs g vd = some (relabeled_graph nprocs g vd mp) ∧
      mp.unique_keys = ghosts_of g ∧
      ∀ v, look mp v = full_index g.local_unmap g.n_local (ghosts_of g) v :=
  relabel_edges_core nprocs g vd h.1 h.2.1 h.2.2.1 (fun _ => h.2.2.2)

/-! ## Properties of the relabeled graph -/

theorem ghosts_of_mem_iff (g : dist_graph_t) (hL : g.local_unmap.length = g.n_local)
    (hOE : g.out_edges.length = g.m_local) (v : Nat) :
    v ∈ ghosts_of g ↔ v ∈ g.out_edges ∧ v ∉ g.local_unmap := by
  unfold ghosts_of
  rw [ghosts_mem_iff, ← hL, owned_index_none_iff_not_mem]
  constructor
  · rintro ⟨h1, i, hi, hiv⟩
    refine ⟨@List.getElem?_mem _ _ i _ ?_, h1⟩
    rw [List.getElem?_eq_getElem (by omega)]
    rw [List.getD_eq_getElem?_getD, List.getElem?_eq_getElem (by omega)] at hiv
    exact congrArg some hiv
  · rintro ⟨hmem, h1⟩
    obtain ⟨i, hi⟩ := List.getElem?_of_mem hmem
    have hlt : i < g.out_edges.length := by
      by_contra hge
      rw [List.getElem?_eq_none (by omega)] at hi
      exact Option.noConfusion hi
    refine ⟨h1, i, by omega, ?_⟩
    rw [List.getD_eq_getElem?_getD, hi]; rfl

theorem local_label_cases (g : dist_graph_t) (hL : g.local_unmap.length = g.n_local)
    (hOE : g.out_edges.length = g.m_local) (v : Nat) (hv : v ∈ g.out_edges) :
    (v ∈ g.local_unmap ∧ local_label g.local_unmap g.n_local (ghosts_of g) v < g.n_local ∧
      g.local_unmap[local_label g.local_unmap g.n_local (ghosts_of g) v]? = some v) ∨
    (v ∉ g.local_unmap ∧ v ∈ ghosts_of g ∧
      local_label g.local_unmap g.n_local (ghosts_of g) v
        = g.n_local + (ghosts_of g).indexOf v ∧
      (ghosts_of g).indexOf v < (ghosts_of g).length ∧
      (ghosts_of g)[(ghosts_of g).indexOf v]? = some v) := by
  unfold local_label
  cases hown : owned_index g.local_unmap g.n_local v with
  | some i =>
    left
    have hi := owned_index_some hown
    refine ⟨?_, hi.1, hi.2⟩
    rw [← owned_index_isSome_iff_mem, hL, hown]; rfl
  | none =>
    right
    have hnot : v ∉ g.local_unmap := by
      rw [← owned_index_none_iff_not_mem, hL]; exact hown
    have hmem : v ∈ ghosts_of g := (ghosts_of_mem_iff g hL hOE v).mpr ⟨hv, hnot⟩
    exact ⟨hnot, hmem, rfl, List.indexOf_lt_length.mpr hmem, List.getElem?_indexOf hmem⟩

theorem ghost_list_getD (G : List Nat) :
    (if 0 < G.length then some G else none).getD [] = G := by
  by_cases h : 0 < G.length
  · rw [if_pos h]; rfl
  · rw [if_neg h]
    have : G.length = 0 := by omega
    exact (List.length_eq_zero.mp this).symm

/-! ## Construction followed by relabeling -/

theorem slot_surj (B : Nat → Nat) (m p : Nat) (hp : p < m) :
    ∃ j, j < m ∧ slot B m j = p := by
  have h := Finset.surj_on_of_inj_on_of_card_le
    (s := Finset.range m) (t := Finset.range m) (fun j _ => slot B m j)
    (fun j hj => Finset.mem_range.mpr (slot_lt B (Finset.mem_range.mp hj)))
    (fun i j hi hj hij => by
      by_contra hne
      rcases Nat.lt_or_gt_of_ne hne with hlt | hlt
      · exact slot_ne B hlt (Finset.mem_range.mp hj) hij
      · exact slot_ne B hlt (Finset.mem_range.mp hi) hij.symm)
    (Nat.le_refl _) p (Finset.mem_range.mpr hp)
  obtain ⟨j, hj, hjp⟩ := h
  exact ⟨j, Finset.mem_range.mp hj, hjp.symm⟩

theorem mem_of_placed (B D : Nat → Nat) (m : Nat) (oe : List Nat) (hlen : oe.length = m)
    (hval : ∀ j, j < m → oe[slot B m j]? = some (D j)) (v : Nat) :
    v ∈ oe ↔ ∃ j, j < m ∧ D j = v := by
  constructor
  · intro hv
    obtain ⟨p, hp⟩ := List.getElem?_of_mem hv
    have hlt : p < m := by
      by_contra hge
      rw [List.getElem?_eq_none (by omega)] at hp
      exact Option.noConfusion hp
    obtain ⟨j, hj, hjp⟩ := slot_surj B m p hlt
    refine ⟨j, hj, ?_⟩
    have := hval j hj
    rw [hjp, hp] at this
    exact (Option.some.inj this).symm
  · rintro ⟨j, hj, hjv⟩
    rw [← hjv]
    exact List.getElem?_mem (hval j hj)

theorem gen_edge_list_dst_mem (ggi : graph_gen_data_t) (v : Nat) :
    v ∈ (gen_edge_list ggi).map (fun e => e.2) ↔
      ∃ j, j < ggi.m_local_edges ∧ edge_dst ggi.gen_edges 2 j = v := by
  unfold gen_edge_list edge_dst
  rw [List.map_map, List.mem_map]
  constructor
  · rintro ⟨j, hj, hjv⟩
    exact ⟨j, List.mem_range.mp hj, hjv⟩
  · rintro ⟨j, hj, hjv⟩
    exact ⟨j, List.mem_range.mpr hj, hjv⟩

/-- What `create_graph` returns on an input with in-range sources: the sorted
array has the declared length, each slice lists the destinations of its source
in input order, and the array holds exactly the destinations of the input. -/
theorem create_graph_sorted (ggi : graph_gen_data_t) (g : dist_graph_t)
    (hlen : 2 * ggi.m_local_edges ≤ ggi.gen_edges.length)
    (hnl : ggi.n_local ≤ U64)
    (hsrc : ∀ e, e ∈ gen_edge_list ggi →
      ggi.n_offset ≤ e.1 ∧ e.1 < ggi.n_offset + ggi.n_local) :
    ∃ oe, create_graph ggi g = some (created_graph ggi g oe) ∧
      oe.length = ggi.m_local_edges ∧
      (∀ i, i < ggi.n_local →
        slice oe ((created_graph ggi g oe).out_degree_list.getD i 0)
            ((created_graph ggi g oe).out_degree_list.getD (i + 1) 0)
          = ((gen_edge_list ggi).filter (fun e => e.1 = ggi.n_offset + i)).map (fun e => e.2)) ∧
      ∀ v, v ∈ oe ↔ v ∈ (gen_edge_list ggi).map (fun e => e.2) := by
  have hs : ∀ k, k < ggi.m_local_edges → ggi.n_offset ≤ ggi.gen_edges.getD (2 * k) 0 ∧
      ggi.gen_edges.getD (2 * k) 0 < ggi.n_offset + ggi.n_local :=
    fun k hk => hsrc _ (gen_edge_list_mem ggi k hk)
  have hB : ∀ k, k < ggi.m_local_edges →
      edge_bucket ggi.gen_edges 2 ggi.n_offset k < ggi.n_local :=
    fun k hk => sub64_lt_of_mem_range (hs k hk).1 (hs k hk).2
  obtain ⟨oe, hcg, hlen', hval⟩ := create_graph_spec ggi g (fun k hk => by omega) hB
  refine ⟨oe, hcg, hlen', ?_, ?_⟩
  · intro i hi
    show slice oe (List.getD (List.map _ _) i 0) (List.getD (List.map _ _) (i + 1) 0) = _
    rw [degree_list_getD _ _ _ _ (by omega), degree_list_getD _ _ _ _ (by omega),
      slice_of_placed _ (edge_dst ggi.gen_edges 2) _ _ _ hval]
    unfold gen_edge_list
    rw [List.filter_map, List.map_map]
    have hfil : (List.range ggi.m_local_edges).filter
          ((fun e : Nat × Nat => decide (e.1 = ggi.n_offset + i)) ∘
            fun k => (ggi.gen_edges.getD (2 * k) 0, ggi.gen_edges.getD (2 * k + 1) 0))
        = (List.range ggi.m_local_edges).filter
          (fun k => decide (edge_bucket ggi.gen_edges 2 ggi.n_offset k = i)) := by
      apply List.filter_congr
      intro k hk
      have hk' := List.mem_range.mp hk
      have h1 := sub64_eq_of_mem_range (hs k hk').1 (hs k hk').2 hnl
      have h2 := (hs k hk').1
      simp only [Function.comp, edge_bucket, h1, decide_eq_decide]
      omega
    rw [hfil]
    rfl
  · intro v
    rw [mem_of_placed _ (edge_dst ggi.gen_edges 2) _ oe hlen' hval, gen_edge_list_dst_mem]

theorem created_graph_ready (nprocs : Nat) (ggi : graph_gen_data_t) (g : dist_graph_t)
    (oe : List Nat) (h : gen_ready nprocs ggi) (hlen : oe.length = ggi.m_local_edges) :
    relabel_ready nprocs (created_graph ggi g oe) := by
  obtain ⟨_, h2, h3, h4⟩ := h
  refine ⟨?_, hlen, h2, h3, h4⟩
  show (local_unmap_clamped ggi.n ggi.n_local ggi.n_offset).length = ggi.n_local
  simp [local_unmap_clamped]

theorem global_of_local_label (g g' : dist_graph_t) (hL : g.local_unmap.length = g.n_local)
    (hOE : g.out_edges.length = g.m_local) (hn : g'.n_local = g.n_local)
    (hlu : g'.local_unmap = g.local_unmap)
    (hgu : g'.ghost_unmap = if 0 < (ghosts_of g).length then some (ghosts_of g) else none)
    (v : Nat) (hv : v ∈ g.out_edges) :
    global_of g' (local_label g.local_unmap g.n_local (ghosts_of g) v) = some v := by
  unfold global_of
  rw [hn, hlu, hgu]
  rcases local_label_cases g hL hOE v hv with ⟨_, hlt, hval⟩ | ⟨_, hmem, hlab, hidx, hval⟩
  · rw [if_pos hlt]; exact hval
  · rw [hlab, if_neg (by omega), if_pos (by omega)]
    show (ghosts_of g)[g.n_local + _ - g.n_local]? = _
    rw [Nat.add_sub_cancel_left]; exact hval

theorem slice_map (f : Nat → Nat) (a : List Nat) (lo hi : Nat) :
    slice (a.map f) lo hi = (slice a lo hi).map f := by
  unfold slice
  rw [List.map_take, List.map_drop]

theorem slice_subset (a : List Nat) (lo hi : Nat) (v : Nat) (hv : v ∈ slice a lo hi) :
    v ∈ a := by
  unfold slice at hv
  exact List.mem_of_mem_drop (List.mem_of_mem_take hv)

/-! ## Owners -/

theorem highest_below_spec (vd : List Nat) (val : Nat) (h0 : vd.getD 0 0 ≤ val) :
    ∀ k, 0 < k → highest_below vd val k < k ∧ vd.getD (highest_below vd val k) 0 ≤ val ∧
      ∀ r, highest_below vd val k < r → r < k → val < vd.getD r 0 := by
  intro k
  induction k with
  | zero => intro h; exact absurd h (Nat.lt_irrefl 0)
  | succ k ih =>
    intro _
    unfold highest_below
    split
    · rename_i hle
      exact ⟨Nat.lt_succ_self k, hle, fun r h1 h2 => by omega⟩
    · rename_i hnle
      by_cases hk : k = 0
      · subst hk; exact absurd h0 hnle
      · obtain ⟨h1, h2, h3⟩ := ih (by omega)
        refine ⟨by omega, h2, ?_⟩
        intro r hr1 hr2
        by_cases hrk : r = k
        · subst hrk; omega
        · exact h3 r hr1 (by omega)

theorem pairwise_getD_le (vd : List Nat) (hinc : vd.Pairwise (fun a b => a < b))
    (i j : Nat) (hij : i ≤ j) (hj : j < vd.length) : vd.getD i 0 ≤ vd.getD j 0 := by
  have hi : i < vd.length := by omega
  rw [List.getD_eq_getElem?_getD, List.getD_eq_getElem?_getD,
    List.getElem?_eq_getElem hi, List.getElem?_eq_getElem hj]
  show vd[i] ≤ vd[j]
  by_cases h : i = j
  · subst h; exact Nat.le_refl _
  · exact Nat.le_of_lt (List.pairwise_iff_getElem.mp hinc i j hi hj (by omega))

theorem zip_map_mem (f : Nat → Nat) (l : List Nat) (p : Nat × Nat) :
    p ∈ l.zip (l.map f) ↔ p.1 ∈ l ∧ p.2 = f p.1 := by
  induction l with
  | nil => simp
  | cons a l ih =>
    rw [List.map_cons, List.zip_cons_cons, List.mem_cons, ih, List.mem_cons]
    constructor
    · rintro (h | ⟨h1, h2⟩)
      · subst h; exact ⟨Or.inl rfl, rfl⟩
      · exact ⟨Or.inr h1, h2⟩
    · rintro ⟨h1 | h1, h2⟩
      · left; exact Prod.ext h1 (by rw [h2, h1])
      · exact Or.inr ⟨h1, h2⟩

theorem ghost_tasks_getD (G : List Nat) (f : Nat → Nat) :
    (if 0 < G.length then some (G.map f) else none).getD [] = G.map f := by
  by_cases h : 0 < G.length
  · rw [if_pos h]; rfl
  · rw [if_neg h]
    have : G.length = 0 := by omega
    rw [List.length_eq_zero.mp this]; rfl

/-! ## The local unmap -/

theorem local_unmap_clamped_length (n nl off : Nat) :
    (local_unmap_clamped n nl off).length = nl := by
  simp [local_unmap_clamped]

theorem local_unmap_clamped_getElem? (n nl off i : Nat) (hi : i < nl) :
    (local_unmap_clamped n nl off)[i]?
      = some (if add64 i off ≥ n then sub64 n 1 else add64 i off) := by
  unfold local_unmap_clamped
  rw [List.getElem?_map, List.getElem?_range hi]
  rfl

theorem add64_of_lt {a b : Nat} (h : a + b < U64) : add64 a b = a + b :=
  Nat.mod_eq_of_lt h

theorem sub64_one {n : Nat} (h1 : 1 ≤ n) (h2 : n ≤ U64) : sub64 n 1 = n - 1 := by
  have hU := U64_eq
  unfold sub64
  rw [show n + U64 - 1 = (n - 1) + U64 by omega, Nat.add_mod_right]
  exact Nat.mod_eq_of_lt (by omega)

/-- Without wrap-around, entry `i` of the clamped unmap is `i + n_offset` below
`n` and `n - 1` from `n` on. -/
theorem local_unmap_clamped_value (n nl off i : Nat) (hi : i < nl)
    (hfit : off + nl ≤ U64) (h1 : 1 ≤ n) (h2 : n ≤ U64) :
    (local_unmap_clamped n nl off)[i]?
      = some (if i + off < n then i + off else n - 1) := by
  rw [local_unmap_clamped_getElem? n nl off i hi, add64_of_lt (by omega), sub64_one h1 h2]
  by_cases h : i + off < n
  · rw [if_neg (by omega), if_pos h]
  · rw [if_pos (by omega), if_neg h]

theorem local_unmap_clamped_exact (n nl off : Nat) (hfit : off + nl ≤ n) (h2 : n ≤ U64) :
    local_unmap_clamped n nl off = (List.range nl).map (fun i => off + i) := by
  unfold local_unmap_clamped
  apply List.map_congr_left
  intro i hi
  have hi' := List.mem_range.mp hi
  rw [add64_of_lt (by omega), if_neg (by omega)]
  omega

theorem local_unmap_clamped_nodup (n nl off : Nat) (hfit : off + nl ≤ n) (h2 : n ≤ U64) :
    (local_unmap_clamped n nl off).Nodup := by
  rw [local_unmap_clamped_exact n nl off hfit h2]
  exact (List.nodup_range nl).map (fun a b h => by omega)

/-- Without wrap of `i + n_offset`, the clamped `local_unmap` has pairwise
distinct entries exactly when the range fits below `n` or there is at most one
entry. -/
theorem local_unmap_clamped_nodup_iff (n nl off : Nat) (hn : n < U64)
    (hfit : off + nl ≤ U64) :
    (local_unmap_clamped n nl off).Nodup ↔ off + nl ≤ n ∨ nl ≤ 1 := by
  constructor
  · intro hnd
    by_contra hcon
    have h1 : n < off + nl := by omega
    have h2 : 2 ≤ nl := by omega
    rw [List.nodup_iff_getElem?_ne_getElem?] at hnd
    by_cases hoff : n ≤ off
    · apply hnd 0 1 (by omega) (by rw [local_unmap_clamped_length]; omega)
      rw [local_unmap_clamped_getElem? n nl off 0 (by omega),
        local_unmap_clamped_getElem? n nl off 1 (by omega),
        add64_of_lt (show 0 + off < U64 by omega), add64_of_lt (show 1 + off < U64 by omega),
        if_pos (show 0 + off ≥ n by omega), if_pos (show 1 + off ≥ n by omega)]
    · apply hnd (n - 1 - off) (n - off) (by omega) (by rw [local_unmap_clamped_length]; omega)
      rw [local_unmap_clamped_getElem? n nl off (n - 1 - off) (by omega),
        local_unmap_clamped_getElem? n nl off (n - off) (by omega),
        add64_of_lt (show n - 1 - off + off < U64 by omega),
        add64_of_lt (show n - off + off < U64 by omega),
        if_neg (show ¬ n - 1 - off + off ≥ n by omega),
        if_pos (show n - off + off ≥ n by omega),
        sub64_one (by omega) (by omega)]
      congr 1
      omega
  · rintro (h | h)
    · exact local_unmap_clamped_nodup n nl off h (by omega)
    · have h01 : nl = 0 ∨ nl = 1 := by omega
      rcases h01 with rfl | rfl
      · simp [local_unmap_clamped]
      · simp [local_unmap_clamped, List.range_succ]

/-! ## Order of discovery -/

theorem ghosts_of_eq_nil (g : dist_graph_t) (hL : g.local_unmap.length = g.n_local)
    (hOE : g.out_edges.length = g.m_local)
    (hown : ∀ v, v ∈ g.out_edges → v ∈ g.local_unmap) : ghosts_of g = [] := by
  apply List.eq_nil_iff_forall_not_mem.mpr
  intro v hv
  have := (ghosts_of_mem_iff g hL hOE v).mp hv
  exact this.2 (hown v this.1)

theorem indexOf_le_of_getElem? (l : List Nat) (k v : Nat) (hk : l[k]? = some v) :
    l.indexOf v ≤ k := by
  induction l generalizing k with
  | nil => simp at hk
  | cons a l ih =>
    by_cases hav : a = v
    · rw [List.indexOf_cons_eq _ hav]; exact Nat.zero_le _
    · rw [List.indexOf_cons_ne _ hav]
      cases k with
      | zero =>
        rw [List.getElem?_cons_zero] at hk
        exact absurd (Option.some.inj hk) hav
      | succ k =>
        rw [List.getElem?_cons_succ] at hk
        exact Nat.succ_le_succ (ih k hk)

theorem indexOf_eq_of_first {l : List Nat} {v k : Nat} (hk : l[k]? = some v)
    (hfirst : ∀ i, i < k → l[i]? ≠ some v) : l.indexOf v = k := by
  have hmem : v ∈ l := List.getElem?_mem hk
  have hget : l[l.indexOf v]? = some v := List.getElem?_indexOf hmem
  have hle := indexOf_le_of_getElem? l k v hk
  by_contra hne
  exact hfirst _ (by omega) hget

/-- Every discovered ghost first occurs before position `k`, and the ghosts are
listed by increasing position of first occurrence. -/
theorem ghosts_seen_order (L : List Nat) (nl : Nat) (OE : List Nat) (k : Nat)
    (hk : k ≤ OE.length) :
    (∀ v, v ∈ ghosts_seen L nl OE k → OE.indexOf v < k) ∧
    ∀ i j, i < j → j < (ghosts_seen L nl OE k).length →
      OE.indexOf ((ghosts_seen L nl OE k).getD i 0)
        < OE.indexOf ((ghosts_seen L nl OE k).getD j 0) := by
  induction k with
  | zero =>
    constructor
    · intro v hv; simp [ghosts_seen] at hv
    · intro i j _ hj; simp [ghosts_seen] at hj
  | succ k ih =>
    obtain ⟨ih1, ih2⟩ := ih (by omega)
    rw [ghosts_seen_succ]
    split
    · exact ⟨fun v hv => Nat.lt_succ_of_lt (ih1 v hv), ih2⟩
    · rename_i hnew
      have hget : OE[k]? = some (OE.getD k 0) := by
        rw [List.getD_eq_getElem?_getD, List.getElem?_eq_getElem (by omega)]; rfl
      have hnone : owned_index L nl (OE.getD k 0) = none := by
        cases hc : owned_index L nl (OE.getD k 0) with
        | none => rfl
        | some x => rw [hc] at hnew; exact absurd (Or.inl rfl) hnew
      have hidx : OE.indexOf (OE.getD k 0) = k := by
        apply indexOf_eq_of_first hget
        intro i hi hiv
        apply hnew
        right
        refine (ghosts_mem_iff L nl OE k _).mpr ⟨hnone, i, hi, ?_⟩
        rw [List.getD_eq_getElem?_getD, hiv]; rfl
      constructor
      · intro v hv
        rw [List.mem_append, List.mem_singleton] at hv
        rcases hv with hv | hv
        · exact Nat.lt_succ_of_lt (ih1 v hv)
        · rw [hv, hidx]; exact Nat.lt_succ_self k
      · intro i j hij hj
        rw [List.length_append, List.length_singleton] at hj
        have hi' : i < (ghosts_seen L nl OE k).length := by omega
        have hgi : (ghosts_seen L nl OE k ++ [OE.getD k 0]).getD i 0
            = (ghosts_seen L nl OE k).getD i 0 := by
          rw [List.getD_eq_getElem?_getD, List.getElem?_append_left hi']
          exact (List.getD_eq_getElem?_getD _ _ _).symm
        rw [hgi]
        by_cases hj' : j < (ghosts_seen L nl OE k).length
        · have hgj : (ghosts_seen L nl OE k ++ [OE.getD k 0]).getD j 0
              = (ghosts_seen L nl OE k).getD j 0 := by
            rw [List.getD_eq_getElem?_getD, List.getElem?_append_left hj']
            exact (List.getD_eq_getElem?_getD _ _ _).symm
          rw [hgj]; exact ih2 i j hij hj'
        · have hjeq : j = (ghosts_seen L nl OE k).length := by omega
          have hgj : (ghosts_seen L nl OE k ++ [OE.getD k 0]).getD j 0 = OE.getD k 0 := by
            rw [List.getD_eq_getElem?_getD, hjeq,
              List.getElem?_append_right (Nat.le_refl _)]
            simp
          rw [hgj, hidx]
          apply ih1
          rw [List.getD_eq_getElem?_getD, List.getElem?_eq_getElem hi']
          exact List.getElem_mem hi'

/-! ### The array constructors -/

theorem all_some_map {α β : Type} (f : α → Option β) (g : α → β) (l : List α)
    (h : ∀ x, x ∈ l → f x = some (g x)) : all_some (l.map f) = some (l.map g) := by
  induction l with
  | nil => rfl
  | cons x l ih =>
    have hx := h x (List.mem_cons_self x l)
    have hl := ih (fun y hy => h y (List.mem_cons_of_mem x hy))
    simp [all_some, hx, hl]

theorem local_weight_sum_succ (a : csr_args) (w k : Nat) :
    local_weight_sum a w (k + 1) = local_weight_sum a w k + weight_at a k w := by
  simp [local_weight_sum, List.range_succ]

theorem vert_weight_dim_spec (a : csr_args) (h : weights_ready a) (w : Nat)
    (hw : w < a.num_vert_weights) (st : List Int × List Int)
    (h1 : st.1.length = a.num_vert_weights) (h2 : st.2.length = a.num_vert_weights) :
    vert_weight_dim a.num_vert_weights a.n_local a.vert_weights w st
      = some (st.1.set w (local_weight_sum a w a.n_local),
          st.2.set w (local_weight_max a w a.n_local)) := by
  unfold vert_weight_dim
  rw [wr_of_lt _ _ _ (by omega), wr_of_lt _ _ _ (by omega)]
  simp only [Option.bind_eq_bind, Option.some_bind]
  obtain ⟨st', hst', hinv⟩ := forLoop_inv
    (fun i (s : List Int × List Int) =>
      s = (st.1.set w (local_weight_sum a w i), st.2.set w (local_weight_max a w i)))
    a.n_local (vert_weight_step a.num_vert_weights a.vert_weights w)
    (st.1.set w 0, st.2.set w 0)
    (by simp [local_weight_sum, local_weight_max])
    (by
      intro i s hi hs
      subst hs
      have hidx : i * a.num_vert_weights + w < a.vert_weights.length := by
        have := Nat.mul_le_mul_right a.num_vert_weights (Nat.succ_le_of_lt hi)
        have h0 := h.1
        rw [Nat.succ_mul] at this
        omega
      have hr := h.2 w hw (i + 1) (Nat.succ_le_of_lt hi)
      rw [local_weight_sum_succ] at hr
      unfold vert_weight_step
      rw [rd_getD a.vert_weights _ 0 hidx]
      have e1 : rd (st.1.set w (local_weight_sum a w i)) w = some (local_weight_sum a w i) := by
        simp [rd, List.getElem?_set_self, h1, hw]
      have e2 : rd (st.2.set w (local_weight_max a w i)) w = some (local_weight_max a w i) := by
        simp [rd, List.getElem?_set_self, h2, hw]
      have e3 : add_i64 (local_weight_sum a w i) (a.vert_weights.getD (i * a.num_vert_weights + w) 0)
          = some (local_weight_sum a w i + weight_at a i w) := by
        unfold add_i64
        rw [if_pos]
        · rfl
        · exact hr
      simp only [Option.bind_eq_bind, Option.some_bind, e1, e2, e3]
      rw [wr_of_lt _ _ _ (by simp [h1, hw])]
      simp only [Option.some_bind, List.set_set]
      by_cases hgt : a.vert_weights.getD (i * a.num_vert_weights + w) 0 > local_weight_max a w i
      · rw [if_pos hgt, wr_of_lt _ _ _ (by simp [h2, hw])]
        simp only [Option.some_bind, List.set_set, Option.pure_def]
        refine ⟨_, rfl, ?_⟩
        rw [local_weight_sum_succ]
        simp only [local_weight_max]
        rw [if_pos (show weight_at a i w > local_weight_max a w i from hgt)]
        rfl
      · rw [if_neg hgt]
        refine ⟨_, rfl, ?_⟩
        rw [local_weight_sum_succ]
        simp only [local_weight_max]
        rw [if_neg (show ¬ weight_at a i w > local_weight_max a w i from hgt)])
  rw [hst', hinv]

theorem vert_weight_stats_spec (a : csr_args) (h : weights_ready a) :
    vert_weight_stats a.num_vert_weights a.n_local a.vert_weights
      = some ((List.range a.num_vert_weights).map (fun w => local_weight_sum a w a.n_local),
          (List.range a.num_vert_weights).map (fun w => local_weight_max a w a.n_local)) := by
  obtain ⟨st', hst', h1, h2, hv⟩ := forLoop_inv
    (fun w (s : List Int × List Int) =>
      s.1.length = a.num_vert_weights ∧ s.2.length = a.num_vert_weights ∧
      ∀ v, v < a.num_vert_weights →
        s.1[v]? = some (if v < w then local_weight_sum a v a.n_local else 0) ∧
        s.2[v]? = some (if v < w then local_weight_max a v a.n_local else 0))
    a.num_vert_weights (vert_weight_dim a.num_vert_weights a.n_local a.vert_weights)
    (List.replicate a.num_vert_weights 0, List.replicate a.num_vert_weights 0)
    (by
      refine ⟨by simp, by simp, ?_⟩
      intro v hv
      simp [List.getElem?_replicate, hv])
    (by
      intro w s hw ⟨h1, h2, hv⟩
      refine ⟨_, vert_weight_dim_spec a h w hw s h1 h2, by simp [h1], by simp [h2], ?_⟩
      intro v hvlt
      by_cases hvw : v = w
      · subst hvw
        simp [List.getElem?_set_self, h1, h2, hvlt]
      · have := hv v hvlt
        rw [List.getElem?_set_ne (Ne.symm hvw), List.getElem?_set_ne (Ne.symm hvw),
          this.1, this.2]
        by_cases hlt : v < w
        · simp [hlt, Nat.lt_succ_of_lt hlt]
        · have : ¬ v < w + 1 := by omega
          simp [hlt, this])
  unfold vert_weight_stats
  rw [hst']
  congr 1
  apply Prod.ext
  · apply list_eq_of_getElem?
    intro v
    by_cases hvlt : v < a.num_vert_weights
    · rw [(hv v hvlt).1]
      simp [List.getElem?_range, hvlt]
    · rw [List.getElem?_eq_none (by omega), List.getElem?_eq_none (by simp; omega)]
  · apply list_eq_of_getElem?
    intro v
    by_cases hvlt : v < a.num_vert_weights
    · rw [(hv v hvlt).2]
      simp [List.getElem?_range, hvlt]
    · rw [List.getElem?_eq_none (by omega), List.getElem?_eq_none (by simp; omega)]

theorem create_graph_arrays_spec (f : List Int → List Int) (g : dist_graph_t) (a : csr_args)
    (h : weights_ready a) (hid : a.n_local ≤ a.global_ids.length) :
    create_graph_arrays f g a = some (arrays_graph (f (local_weight_sums a)) g a) := by
  unfold create_graph_arrays arrays_graph local_weight_sums
  by_cases hpos : a.num_vert_weights > 0
  · simp [hpos, hid, vert_weight_stats_spec a h]
  · simp [hpos, hid]

theorem create_graph_serial_arrays_spec (f : List Int → List Int) (g : dist_graph_t)
    (a : csr_args) (h : weights_ready a) :
    create_graph_serial_arrays f g a
      = some (serial_arrays_graph (f (local_weight_sums a)) g a) := by
  unfold create_graph_serial_arrays serial_arrays_graph arrays_graph local_weight_sums
  by_cases hpos : a.num_vert_weights > 0
  · simp [hpos, vert_weight_stats_spec a h]
  · simp [hpos]

theorem weight_contributions_spec (calls : List (dist_graph_t × csr_args))
    (h : ∀ c, c ∈ calls → weights_ready c.2) :
    weight_contributions calls = some (calls.map (fun c => local_weight_sums c.2)) := by
  unfold weight_contributions
  apply all_some_map
  intro c hc
  rw [vert_weight_stats_spec c.2 (h c hc)]
  rfl

theorem to_u64_cast (x : Int) : ((to_u64 x : Nat) : Int) = x % 18446744073709551616 := by
  unfold to_u64
  exact Int.toNat_of_nonneg (Int.emod_nonneg _ (by decide))

theorem sum_to_u64_emod (l : List Int) :
    (((l.map to_u64).sum : Nat) : Int) % 18446744073709551616
      = l.sum % 18446744073709551616 := by
  induction l with
  | nil => rfl
  | cons x l ih =>
    simp only [List.map_cons, List.sum_cons]
    rw [Nat.cast_add, to_u64_cast]
    omega

theorem to_int64_sum (l : List Int) (h : in_int64 l.sum) :
    to_int64 ((l.map to_u64).sum % U64) = l.sum := by
  have hm := sum_to_u64_emod l
  obtain ⟨h1, h2⟩ := h
  unfold to_int64 U64
  simp only [Nat.mod_mod, Int.ofNat_eq_coe]
  split <;> omega

theorem mpi_allreduce_sum_spec (calls : List (dist_graph_t × csr_args)) (nvw : Nat)
    (hnvw : ∀ c, c ∈ calls → c.2.num_vert_weights = nvw)
    (hsum : ∀ w, w < nvw → in_int64 (global_weight_sum calls w)) :
    mpi_allreduce_sum_u64 (calls.map (fun c => local_weight_sums c.2)) nvw
      = (List.range nvw).map (global_weight_sum calls) := by
  unfold mpi_allreduce_sum_u64
  apply List.map_congr_left
  intro w hw
  have hwlt : w < nvw := List.mem_range.mp hw
  have e : (calls.map (fun c => local_weight_sums c.2)).map (fun b => to_u64 (b.getD w 0))
      = (calls.map (fun c => local_weight_sum c.2 w c.2.n_local)).map to_u64 := by
    rw [List.map_map, List.map_map]
    apply List.map_congr_left
    intro c hc
    have := hnvw c hc
    simp [local_weight_sums, List.getD_eq_getElem?_getD, List.getElem?_range, this, hwlt]
  rw [e]
  exact to_int64_sum _ (hsum w hwlt)

theorem create_graph_arrays_all_spec (calls : List (dist_graph_t × csr_args))
    (h : ∀ c, c ∈ calls → weights_ready c.2)
    (hid : ∀ c, c ∈ calls → c.2.n_local ≤ c.2.global_ids.length) :
    create_graph_arrays_all calls = some (calls.map (fun c =>
      arrays_graph (mpi_allreduce_sum_u64 (calls.map (fun c => local_weight_sums c.2))
        c.2.num_vert_weights) c.1 c.2)) := by
  unfold create_graph_arrays_all
  rw [weight_contributions_spec calls h]
  simp only [Option.bind_eq_bind, Option.some_bind]
  apply all_some_map
  intro c hc
  exact create_graph_arrays_spec _ c.1 c.2 (h c hc) (hid c hc)

theorem create_graph_serial_arrays_all_spec (calls : List (dist_graph_t × csr_args))
    (h : ∀ c, c ∈ calls → weights_ready c.2) :
    create_graph_serial_arrays_all calls = some (calls.map (fun c =>
      serial_arrays_graph (mpi_allreduce_sum_u64 (calls.map (fun c => local_weight_sums c.2))
        c.2.num_vert_weights) c.1 c.2)) := by
  unfold create_graph_serial_arrays_all
  rw [weight_contributions_spec calls h]
  simp only [Option.bind_eq_bind, Option.some_bind]
  apply all_some_map
  intro c hc
  exact create_graph_serial_arrays_spec _ c.1 c.2 (h c hc)

/-! ### Serial constructors and teardown -/

theorem local_unmap_plain_getElem? (nl off i : Nat) (hi : i < nl) (h : i + off < U64) :
    (local_unmap_plain nl off)[i]? = some (i + off) := by
  simp [local_unmap_plain, List.getElem?_range hi, add64_of_lt h]

theorem clear_graph_ghost_unmap (g : dist_graph_t) :
    owned_block.ghost_unmap ∈ clear_graph g ↔ 0 < g.n_ghost := by
  unfold clear_graph
  by_cases h : g.n_ghost > 0 <;> by_cases h1 : g.vert_weights = none <;>
    by_cases h2 : g.edge_weights = none <;> simp [h, h1, h2]

theorem clear_graph_ghost_tasks (g : dist_graph_t) :
    owned_block.ghost_tasks ∈ clear_graph g ↔ 0 < g.n_ghost := by
  unfold clear_graph
  by_cases h : g.n_ghost > 0 <;> by_cases h1 : g.vert_weights = none <;>
    by_cases h2 : g.edge_weights = none <;> simp [h, h1, h2]

theorem serial_shape_of (g g' : dist_graph_t) (nl : Nat) (hnl : nl ≤ U64)
    (h1 : g'.n_offset = 0) (h2 : g'.n_ghost = 0) (h3 : g'.n_total = nl) (h4 : g'.n_local = nl)
    (h5 : g'.local_unmap = local_unmap_plain nl 0) (h6 : g'.ghost_unmap = g.ghost_unmap)
    (h7 : g'.ghost_tasks = g.ghost_tasks) : serial_shape g g' nl := by
  refine ⟨h1, h2, by rw [h3, h4], h4, by simp [h5, local_unmap_plain], ?_, h6, h7, ?_, ?_⟩
  · intro i hi
    rw [h5, local_unmap_plain_getElem? nl 0 i hi (by omega)]
    rfl
  · rw [clear_graph_ghost_unmap, h2]
    exact Nat.lt_irrefl 0
  · rw [clear_graph_ghost_tasks, h2]
    exact Nat.lt_irrefl 0

/-! ### The maximum degree -/

theorem foldl_max_ge_init (l : List Nat) (a : Nat) : a ≤ l.foldl max a := by
  induction l generalizing a with
  | nil => exact Nat.le_refl a
  | cons x l ih => exact Nat.le_trans (Nat.le_max_left a x) (ih (max a x))

theorem foldl_max_ge_mem (l : List Nat) (a x : Nat) (hx : x ∈ l) : x ≤ l.foldl max a := by
  induction l generalizing a with
  | nil => cases hx
  | cons y l ih =>
    rcases List.mem_cons.mp hx with rfl | h
    · exact Nat.le_trans (Nat.le_max_right a x) (foldl_max_ge_init l (max a x))
    · exact ih (max a y) h

theorem foldl_max_cases (l : List Nat) (a : Nat) : l.foldl max a = a ∨ l.foldl max a ∈ l := by
  induction l generalizing a with
  | nil => exact Or.inl rfl
  | cons x l ih =>
    rcases ih (max a x) with h | h
    · rcases Nat.le_total a x with hax | hax
      · right
        rw [List.foldl_cons, h, Nat.max_eq_right hax]
        exact List.mem_cons_self x l
      · left
        rw [List.foldl_cons, h, Nat.max_eq_left hax]
    · exact Or.inr (List.mem_cons_of_mem x h)

theorem foldl_min_le_init (l : List Nat) (a : Nat) : l.foldl min a ≤ a := by
  induction l generalizing a with
  | nil => exact Nat.le_refl a
  | cons x l ih => exact Nat.le_trans (ih (min a x)) (Nat.min_le_left a x)

theorem foldl_min_le_mem (l : List Nat) (a x : Nat) (hx : x ∈ l) : l.foldl min a ≤ x := by
  induction l generalizing a with
  | nil => cases hx
  | cons y l ih =>
    rcases List.mem_cons.mp hx with rfl | h
    · exact Nat.le_trans (foldl_min_le_init l (min a x)) (Nat.min_le_right a x)
    · exact ih (min a y) h

theorem foldl_min_cases (l : List Nat) (a : Nat) : l.foldl min a = a ∨ l.foldl min a ∈ l := by
  induction l generalizing a with
  | nil => exact Or.inl rfl
  | cons x l ih =>
    rcases ih (min a x) with h | h
    · rcases Nat.le_total a x with hax | hax
      · left
        rw [List.foldl_cons, h, Nat.min_eq_left hax]
      · right
        rw [List.foldl_cons, h, Nat.min_eq_right hax]
        exact List.mem_cons_self x l
    · exact Or.inr (List.mem_cons_of_mem x h)

theorem local_max_degree_spec (g : dist_graph_t) (h : degree_ready g) :
    local_max_degree g = some (max_scan g g.n_local) := by
  obtain ⟨st, hst, hinv⟩ := forLoop_inv (fun k (s : Nat × Nat) => s = max_scan g k)
    g.n_local (max_degree_step g) (0, U64 - 1) rfl
    (by
      intro k s hk hs
      subst hs
      unfold max_degree_step out_degree
      rw [rd_getD g.out_degree_list (k + 1) 0 (by have := h.1; omega),
        rd_getD g.out_degree_list k 0 (by have := h.1; omega)]
      simp only [Option.bind_eq_bind, Option.some_bind, Option.pure_def]
      by_cases hgt : degree_at g k > (max_scan g k).1
      · rw [if_pos (show sub64 (g.out_degree_list.getD (k + 1) 0) (g.out_degree_list.getD k 0)
            > (max_scan g k).1 from hgt),
          rd_getD g.local_unmap k 0 (by have := h.2.1; omega)]
        refine ⟨_, rfl, ?_⟩
        simp only [max_scan]
        rw [if_pos hgt]
        rfl
      · rw [if_neg (show ¬ sub64 (g.out_degree_list.getD (k + 1) 0)
            (g.out_degree_list.getD k 0) > (max_scan g k).1 from hgt)]
        refine ⟨_, rfl, ?_⟩
        simp only [max_scan]
        rw [if_neg hgt])
  unfold local_max_degree
  rw [hst, hinv]

theorem max_scan_le (g : dist_graph_t) (k i : Nat) (hi : i < k) :
    degree_at g i ≤ (max_scan g k).1 := by
  induction k with
  | zero => omega
  | succ k ih =>
    simp only [max_scan]
    by_cases hgt : degree_at g k > (max_scan g k).1
    · rw [if_pos hgt]
      by_cases hik : i = k
      · subst hik
        exact Nat.le_refl _
      · have := ih (by omega)
        show degree_at g i ≤ degree_at g k
        omega
    · rw [if_neg hgt]
      by_cases hik : i = k
      · subst hik
        omega
      · exact ih (by omega)

theorem max_scan_zero (g : dist_graph_t) (k : Nat) (h : (max_scan g k).1 = 0) :
    (max_scan g k).2 = U64 - 1 := by
  induction k with
  | zero => rfl
  | succ k ih =>
    simp only [max_scan] at h ⊢
    by_cases hgt : degree_at g k > (max_scan g k).1
    · rw [if_pos hgt] at h
      have h0 : degree_at g k = 0 := h
      omega
    · rw [if_neg hgt] at h ⊢
      exact ih h

theorem max_scan_pos (g : dist_graph_t) (k : Nat) (h : 0 < (max_scan g k).1) :
    ∃ i, i < k ∧ degree_at g i = (max_scan g k).1 ∧
      (∀ j, j < i → degree_at g j < (max_scan g k).1) ∧
      (max_scan g k).2 = g.local_unmap.getD i 0 := by
  induction k with
  | zero => exact absurd h (Nat.lt_irrefl 0)
  | succ k ih =>
    simp only [max_scan] at h ⊢
    by_cases hgt : degree_at g k > (max_scan g k).1
    · rw [if_pos hgt]
      refine ⟨k, Nat.lt_succ_self k, rfl, ?_, rfl⟩
      intro j hj
      have := max_scan_le g k j hj
      show degree_at g j < degree_at g k
      omega
    · rw [if_neg hgt] at h ⊢
      obtain ⟨i, hi, h1, h2, h3⟩ := ih h
      exact ⟨i, Nat.lt_succ_of_lt hi, h1, h2, h3⟩

theorem get_max_degree_vert_all_spec (gs : List dist_graph_t)
    (h : ∀ g, g ∈ gs → degree_ready g) :
    get_max_degree_vert_all gs = some (gs.map (fun g =>
      { g with max_degree_vert := reduced_max_vert gs, max_degree := reduced_max_degree gs })) := by
  have hl : all_some (gs.map local_max_degree) = some (scan_results gs) :=
    all_some_map _ _ gs (fun g hg => local_max_degree_spec g (h g hg))
  unfold get_max_degree_vert_all
  rw [hl]
  simp only [Option.bind_eq_bind, Option.some_bind]
  apply all_some_map
  intro g hg
  unfold get_max_degree_vert
  rw [local_max_degree_spec g (h g hg)]
  rfl

theorem reduced_max_degree_ge (gs : List dist_graph_t) (g : dist_graph_t) (hg : g ∈ gs) :
    (max_scan g g.n_local).1 ≤ reduced_max_degree gs := by
  unfold reduced_max_degree mpi_allreduce_max scan_results
  apply foldl_max_ge_mem
  rw [List.map_map]
  exact List.mem_map.mpr ⟨g, hg, rfl⟩

theorem reduced_max_degree_attained (gs : List dist_graph_t) (h : 0 < reduced_max_degree gs) :
    ∃ g, g ∈ gs ∧ (max_scan g g.n_local).1 = reduced_max_degree gs := by
  have hc := foldl_max_cases ((scan_results gs).map (fun my => my.1)) 0
  rcases hc with h0 | hm
  · unfold reduced_max_degree mpi_allreduce_max at h
    omega
  · obtain ⟨my, hmy, he⟩ := List.mem_map.mp hm
    obtain ⟨g, hg, rfl⟩ := List.mem_map.mp
      (show my ∈ gs.map (fun g => max_scan g g.n_local) from hmy)
    exact ⟨g, hg, he⟩

theorem reduced_max_vert_le (gs : List dist_graph_t) (g : dist_graph_t) (hg : g ∈ gs)
    (he : (max_scan g g.n_local).1 = reduced_max_degree gs) :
    reduced_max_vert gs ≤ (max_scan g g.n_local).2 := by
  unfold reduced_max_vert mpi_allreduce_min scan_results
  apply foldl_min_le_mem
  rw [List.map_map]
  refine List.mem_map.mpr ⟨g, hg, ?_⟩
  simp [he]

theorem reduced_max_vert_cases (gs : List dist_graph_t) :
    reduced_max_vert gs = U64 - 1 ∨
      ∃ g, g ∈ gs ∧ (max_scan g g.n_local).1 = reduced_max_degree gs ∧
        reduced_max_vert gs = (max_scan g g.n_local).2 := by
  have hc := foldl_min_cases ((scan_results gs).map
    (fun my => if my.1 = reduced_max_degree gs then my.2 else NULL_KEY)) (U64 - 1)
  rcases hc with h0 | hm
  · exact Or.inl h0
  · obtain ⟨my, hmy, he⟩ := List.mem_map.mp hm
    obtain ⟨g, hg, rfl⟩ := List.mem_map.mp
      (show my ∈ gs.map (fun g => max_scan g g.n_local) from hmy)
    by_cases hd : (max_scan g g.n_local).1 = reduced_max_degree gs
    · rw [if_pos hd] at he
      exact Or.inr ⟨g, hg, hd, he.symm⟩
    · rw [if_neg hd] at he
      exact Or.inl he.symm

/-! ### Ghost degrees -/

theorem relabeled_spec (nprocs : Nat) (vd : Option (List Nat)) (g : dist_graph_t)
    (h : relabel_ready nprocs g) :
    ∃ mp, relabel_edges nprocs g vd = some (relabeled nprocs vd g) ∧
      relabeled nprocs vd g = relabeled_graph nprocs g vd mp ∧
      ∀ v, look mp v = full_index g.local_unmap g.n_local (ghosts_of g) v := by
  obtain ⟨mp, h1, _, h3⟩ := relabel_edges_spec nprocs g vd h
  refine ⟨mp, ?_, ?_, h3⟩
  · unfold relabeled
    rw [h1]
    rfl
  · unfold relabeled
    rw [h1]
    rfl

theorem vid_table_getD (g : dist_graph_t) (i : Nat) (hi : i < g.n_local) :
    (vid_table g).getD i (0, 0) = (g.local_unmap.getD i 0, degree_at g i) := by
  simp [vid_table, List.getD_eq_getElem?_getD, List.getElem?_range hi]

theorem relabeled_getD (gs0 : List dist_graph_t) (vd : Option (List Nat)) (s : Nat)
    (hs : s < gs0.length) :
    (gs0.map (relabeled gs0.length vd)).getD s blank_graph
      = relabeled gs0.length vd (gs0.getD s blank_graph) := by
  simp [List.getD_eq_getElem?_getD, List.getElem?_map, List.getElem?_eq_getElem hs]

/-! ### The scatter step on an arbitrary receive buffer -/

theorem scatter_step_ok (g : dist_graph_t) (comm : mpi_data_t) (gd : List Nat) (i : Nat)
    (hv : i < comm.recvbuf_vert.length) (hd : i < comm.recvbuf_data.length)
    (hok : ghost_index_ok g (received_id comm i))
    (hcap : g.n_total ≤ g.n_local + gd.length) (hU : g.n_total ≤ U64) :
    scatter_degrees_step g comm i gd
      = Except.ok (gd.set (ghost_slot g (received_id comm i)) (received_value comm i)) := by
  have h1 : rd comm.recvbuf_vert i = some (received_id comm i) := rd_getD _ i 0 hv
  have h2 : rd comm.recvbuf_data i = some (received_value comm i) := rd_getD _ i 0 hd
  have hsub : sub64 (get_value g.map (received_id comm i)) g.n_local
      = ghost_slot g (received_id comm i) :=
    @sub64_eq_of_mem_range (get_value g.map (received_id comm i)) g.n_local
      (g.n_total - g.n_local) hok.1 (by have := hok.2; omega) (by omega)
  have hlt : ghost_slot g (received_id comm i) < gd.length := by
    unfold ghost_slot
    have := hok.1
    have := hok.2
    omega
  unfold scatter_degrees_step
  simp only [h1, h2, hsub]
  rw [if_neg (fun h => h hok.1), if_neg (fun h => h hok.2), wr_of_lt _ _ _ hlt]

theorem scatter_step_bad (g : dist_graph_t) (comm : mpi_data_t) (gd : List Nat) (i : Nat)
    (hv : i < comm.recvbuf_vert.length) (hbad : ¬ ghost_index_ok g (received_id comm i)) :
    scatter_degrees_step g comm i gd = Except.error fault.assertion := by
  have h1 : rd comm.recvbuf_vert i = some (received_id comm i) := rd_getD _ i 0 hv
  unfold scatter_degrees_step
  simp only [h1]
  by_cases hlo : get_value g.map (received_id comm i) ≥ g.n_local
  · rw [if_neg (fun h => h hlo), if_pos (fun h => hbad ⟨hlo, h⟩)]
  · rw [if_pos hlo]

/-- The first `n` iterations of the scatter loop: either all ids so far are
ghost ids and the array holds, for each slot, the value of the last pair written
there (the slots without a pair are unchanged), or one of them is not and the
loop has failed with an assertion. -/
theorem scatter_degrees_prefix (g : dist_graph_t) (comm : mpi_data_t) (gd0 : List Nat)
    (hv : comm.total_recv ≤ comm.recvbuf_vert.length)
    (hd : comm.total_recv ≤ comm.recvbuf_data.length)
    (hcap : g.n_total ≤ g.n_local + gd0.length) (hU : g.n_total ≤ U64)
    (n : Nat) (hn : n ≤ comm.total_recv) :
    ((∀ i, i < n → ghost_index_ok g (received_id comm i)) ∧
      ∃ gd, forLoopE n (scatter_degrees_step g comm) gd0 = Except.ok gd ∧
        gd.length = gd0.length ∧
        (∀ j, (∀ i, i < n → ghost_slot g (received_id comm i) ≠ j) → gd[j]? = gd0[j]?) ∧
        ∀ i, i < n →
          (∀ i', i' < n → i < i' →
            ghost_slot g (received_id comm i') ≠ ghost_slot g (received_id comm i)) →
          gd[ghost_slot g (received_id comm i)]? = some (received_value comm i)) ∨
    ((∃ i, i < n ∧ ¬ ghost_index_ok g (received_id comm i)) ∧
      forLoopE n (scatter_degrees_step g comm) gd0 = Except.error fault.assertion) := by
  induction n with
  | zero =>
    left
    exact ⟨fun i hi => absurd hi (Nat.not_lt_zero i), gd0, rfl, rfl, fun j _ => rfl,
      fun i hi => absurd hi (Nat.not_lt_zero i)⟩
  | succ n ih =>
    rcases ih (by omega) with ⟨hgood, gd, hgd, hl, hun, hw⟩ | ⟨⟨i, hi, hbad⟩, herr⟩
    · by_cases hok : ghost_index_ok g (received_id comm n)
      · left
        have hstep := scatter_step_ok g comm gd n (by omega) (by omega) hok
          (by rw [hl]; exact hcap) hU
        have hslot : ghost_slot g (received_id comm n) < gd.length := by
          unfold ghost_slot
          have := hok.1
          have := hok.2
          omega
        refine ⟨?_, _, by simp only [forLoopE, hgd]; exact hstep, by simp [hl], ?_, ?_⟩
        · intro i hi
          by_cases hin : i = n
          · rw [hin]; exact hok
          · exact hgood i (by omega)
        · intro j hj
          rw [List.getElem?_set_ne (hj n (Nat.lt_succ_self n))]
          exact hun j (fun i hi => hj i (Nat.lt_succ_of_lt hi))
        · intro i hi hlast
          by_cases hin : i = n
          · rw [hin, List.getElem?_set_self hslot]
          · have hilt : i < n := by omega
            rw [List.getElem?_set_ne (hlast n (Nat.lt_succ_self n) hilt)]
            exact hw i hilt (fun i' hi' hii' => hlast i' (Nat.lt_succ_of_lt hi') hii')
      · right
        refine ⟨⟨n, Nat.lt_succ_self n, hok⟩, ?_⟩
        simp only [forLoopE, hgd]
        exact scatter_step_bad g comm gd n (by omega) hok
    · right
      refine ⟨⟨i, Nat.lt_succ_of_lt hi, hbad⟩, ?_⟩
      simp only [forLoopE, herr]

/-! ### The default owner -/

theorem default_owner_lt (n p v : Nat) (hp : 0 < p) (hv : v < n) : v / (n / p + 1) < p := by
  apply Nat.div_lt_of_lt_mul
  have h1 := Nat.div_add_mod n p
  have h2 := Nat.mod_lt n hp
  rw [Nat.add_mul, Nat.one_mul, Nat.mul_comm]
  omega

/-- In the map `relabel_edges` builds, the ids that look up to an index in
`[n_local, n_total)` are the ghosts, at `n_local` plus their position. -/
theorem relabeled_lookup_ghost (nprocs : Nat) (vd : Option (List Nat)) (g : dist_graph_t)
    (h : relabel_ready nprocs g) (v : Nat)
    (hok : ghost_index_ok (relabeled nprocs vd g) v) :
    v ∈ ghosts_of g ∧
      get_value (relabeled nprocs vd g).map v = g.n_local + (ghosts_of g).indexOf v := by
  obtain ⟨mp, _, hR, hlook⟩ := relabeled_spec nprocs vd g h
  have hU := U64_eq
  have hN := NULL_KEY_eq
  have hGle : (ghosts_of g).length ≤ g.m_local :=
    ghosts_length_le g.local_unmap g.n_local g.out_edges g.m_local
  have hsz := h.2.2.1
  rw [hR] at hok ⊢
  have h1 : g.n_local ≤ get_value mp v := hok.1
  have h2 : get_value mp v < (ghosts_of g).length + g.n_local := hok.2
  rw [get_value_eq_look, hlook] at h1 h2
  show v ∈ ghosts_of g ∧ get_value mp v = _
  rw [get_value_eq_look, hlook]
  unfold full_index at h1 h2 ⊢
  cases ho : owned_index g.local_unmap g.n_local v with
  | some i =>
    rw [ho] at h1
    have := (owned_index_some ho).1
    have h1' : g.n_local ≤ i := h1
    omega
  | none =>
    rw [ho] at h2
    by_cases hmem : v ∈ ghosts_of g
    · exact ⟨hmem, by simp [hmem]⟩
    · simp [hmem] at h2
      omega

theorem relabeled_lookup_inj (nprocs : Nat) (vd : Option (List Nat)) (g : dist_graph_t)
    (h : relabel_ready nprocs g) (v v' : Nat)
    (hok : ghost_index_ok (relabeled nprocs vd g) v)
    (heq : get_value (relabeled nprocs vd g).map v = get_value (relabeled nprocs vd g).map v') :
    v = v' := by
  have hok' : ghost_index_ok (relabeled nprocs vd g) v' := ⟨by rw [← heq]; exact hok.1,
    by rw [← heq]; exact hok.2⟩
  obtain ⟨hv, h1⟩ := relabeled_lookup_ghost nprocs vd g h v hok
  obtain ⟨hv', h2⟩ := relabeled_lookup_ghost nprocs vd g h v' hok'
  rw [h1, h2] at heq
  exact (List.indexOf_inj hv hv').mp (by omega)

/-! ### Ghost degrees over all processes -/

/-- C1. Each of the four counting-sort constructors (`create_graph`,
`create_graph_weighted`, `create_graph_serial`, `create_graph_serial_weighted`
on generator data), run on a flat edge array that holds the declared number of
edges and in which every edge source `s` satisfies
`n_offset ≤ s < n_offset + n_local` (for the serial constructors the offset the
code subtracts is the `g->n_offset = 0` it has just set, and
`create_graph_serial_weighted` takes `m_local` from `m_local_read`), returns a
graph whose `out_degree_list` has `n_local + 1` entries, starts at 0, is
non-decreasing and ends with `out_degree_list[n_local] = m_local`. -/
theorem C1_out_degree_list_valid :
    (∀ (ggi : graph_gen_data_t) (g : dist_graph_t),
      2 * ggi.m_local_edges ≤ ggi.gen_edges.length →
      (∀ k, k < ggi.m_local_edges → ggi.n_offset ≤ ggi.gen_edges.getD (2 * k) 0 ∧
        ggi.gen_edges.getD (2 * k) 0 < ggi.n_offset + ggi.n_local) →
      ∃ g', create_graph ggi g = some g' ∧ g'.n_offset = ggi.n_offset ∧
        g'.n_local = ggi.n_local ∧ g'.m_local = ggi.m_local_edges ∧ degree_list_ok g') ∧
    (∀ (ggi : graph_gen_data_t) (g : dist_graph_t),
      3 * ggi.m_local_edges ≤ ggi.gen_edges.length →
      (∀ k, k < ggi.m_local_edges → ggi.n_offset ≤ ggi.gen_edges.getD (3 * k) 0 ∧
        ggi.gen_edges.getD (3 * k) 0 < ggi.n_offset + ggi.n_local) →
      ∃ g', create_graph_weighted ggi g = some g' ∧ g'.n_offset = ggi.n_offset ∧
        g'.n_local = ggi.n_local ∧ g'.m_local = ggi.m_local_edges ∧ degree_list_ok g') ∧
    (∀ (ggi : graph_gen_data_t) (g : dist_graph_t),
      2 * ggi.m_local_edges ≤ ggi.gen_edges.length →
      (∀ k, k < ggi.m_local_edges → 0 ≤ ggi.gen_edges.getD (2 * k) 0 ∧
        ggi.gen_edges.getD (2 * k) 0 < 0 + ggi.n_local) →
      ∃ g', create_graph_serial ggi g = some g' ∧ g'.n_offset = 0 ∧
        g'.n_local = ggi.n_local ∧ g'.m_local = ggi.m_local_edges ∧ degree_list_ok g') ∧
    (∀ (ggi : graph_gen_data_t) (g : dist_graph_t),
      2 * ggi.m_local_read ≤ ggi.gen_edges.length →
      ggi.m_local_read ≤ ggi.edge_weights.length →
      (∀ k, k < ggi.m_local_read → 0 ≤ ggi.gen_edges.getD (2 * k) 0 ∧
        ggi.gen_edges.getD (2 * k) 0 < 0 + ggi.n_local) →
      ∃ g', create_graph_serial_weighted ggi g = some g' ∧ g'.n_offset = 0 ∧
        g'.n_local = ggi.n_local ∧ g'.m_local = ggi.m_local_read ∧ degree_list_ok g') := by
  refine ⟨?_, ?_, ?_, ?_⟩
  · intro ggi g hlen hsrc
    have hB : ∀ k, k < ggi.m_local_edges →
        edge_bucket ggi.gen_edges 2 ggi.n_offset k < ggi.n_local :=
      fun k hk => sub64_lt_of_mem_range (hsrc k hk).1 (hsrc k hk).2
    obtain ⟨oe, hcg, _, _⟩ := create_graph_spec ggi g (fun k hk => by omega) hB
    exact ⟨_, hcg, rfl, rfl, rfl, degree_list_ok_of _ _ hB rfl⟩
  · intro ggi g hlen hsrc
    have hB : ∀ k, k < ggi.m_local_edges →
        edge_bucket ggi.gen_edges 3 ggi.n_offset k < ggi.n_local :=
      fun k hk => sub64_lt_of_mem_range (hsrc k hk).1 (hsrc k hk).2
    obtain ⟨oe, ew, hcg, _⟩ := create_graph_weighted_spec ggi g (fun k hk => by omega) hB
    exact ⟨_, hcg, rfl, rfl, rfl, degree_list_ok_of _ _ hB rfl⟩
  · intro ggi g hlen hsrc
    have hB : ∀ k, k < ggi.m_local_edges → edge_bucket ggi.gen_edges 2 0 k < ggi.n_local :=
      fun k hk => sub64_lt_of_mem_range (hsrc k hk).1 (hsrc k hk).2
    obtain ⟨oe, hcg, _, _⟩ := create_graph_serial_spec ggi g (fun k hk => by omega) hB
    exact ⟨_, hcg, rfl, rfl, rfl, degree_list_ok_of _ _ hB rfl⟩
  · intro ggi g hlen hw hsrc
    have hB : ∀ k, k < ggi.m_local_read → edge_bucket ggi.gen_edges 2 0 k < ggi.n_local :=
      fun k hk => sub64_lt_of_mem_range (hsrc k hk).1 (hsrc k hk).2
    obtain ⟨oe, ew, hcg, _⟩ :=
      create_graph_serial_weighted_spec ggi g (fun k hk => by omega) hw hB
    exact ⟨_, hcg, rfl, rfl, rfl, degree_list_ok_of _ _ hB rfl⟩

/-- Witness of C1: process 1 of the ring for `create_graph`, three weighted
triples for `create_graph_weighted`, three pairs for the serial constructors. -/
theorem C1_out_degree_list_valid_witness :
    (∃ g', create_graph (ring_input 1) blank_graph = some g' ∧ g'.n_offset = 4 ∧
      g'.n_local = 4 ∧ g'.m_local = 4 ∧ degree_list_ok g') ∧
    (∃ g', create_graph_weighted
        (gen_data 4 4 0 3 [1, 0, 7, 0, 2, 8, 1, 3, 9] []) blank_graph = some g' ∧
      g'.n_offset = 0 ∧ g'.n_local = 4 ∧ g'.m_local = 3 ∧ degree_list_ok g') ∧
    (∃ g', create_graph_serial (gen_data 4 4 0 3 [1, 0, 0, 2, 1, 3] []) blank_graph = some g' ∧
      g'.n_offset = 0 ∧ g'.n_local = 4 ∧ g'.m_local = 3 ∧ degree_list_ok g') ∧
    (∃ g', create_graph_serial_weighted
        (gen_data 4 4 0 3 [1, 0, 0, 2, 1, 3] [7, 8, 9]) blank_graph = some g' ∧
      g'.n_offset = 0 ∧ g'.n_local = 4 ∧ g'.m_local = 3 ∧ degree_list_ok g') :=
  ⟨C1_out_degree_list_valid.1 (ring_input 1) blank_graph (by decide) (by decide),
   C1_out_degree_list_valid.2.1 (gen_data 4 4 0 3 [1, 0, 7, 0, 2, 8, 1, 3, 9] []) blank_graph
     (by decide) (by decide),
   C1_out_degree_list_valid.2.2.1 (gen_data 4 4 0 3 [1, 0, 0, 2, 1, 3] []) blank_graph
     (by decide) (by decide),
   C1_out_degree_list_valid.2.2.2 (gen_data 4 4 0 3 [1, 0, 0, 2, 1, 3] [7, 8, 9]) blank_graph
     (by decide) (by decide) (by decide)⟩

/-- C2. After `create_graph` on generator input whose flat edge array holds
`m_local` pairs with every source in `[n_offset, n_offset + n_local)`, and
before relabeling, the slice `out_edges[out_degree_list[i] .. out_degree_list[i+1])`
of every local index `i < n_local` is exactly the list of destinations of the
input edges whose source is `n_offset + i`, in input order (the counting sort is
stable).  `n_local` is a `uint64_t`. -/
theorem C2_create_graph_stable (ggi : graph_gen_data_t) (g : dist_graph_t)
    (hlen : 2 * ggi.m_local_edges ≤ ggi.gen_edges.length)
    (hnl : ggi.n_local < U64)
    (hsrc : ∀ e, e ∈ gen_edge_list ggi →
      ggi.n_offset ≤ e.1 ∧ e.1 < ggi.n_offset + ggi.n_local) :
    ∃ g', create_graph ggi g = some g' ∧
      ∀ i, i < ggi.n_local →
        slice g'.out_edges (g'.out_degree_list.getD i 0) (g'.out_degree_list.getD (i + 1) 0)
          = ((gen_edge_list ggi).filter (fun e => e.1 = ggi.n_offset + i)).map (fun e => e.2) := by
  obtain ⟨oe, hcg, _, hslice, _⟩ := create_graph_sorted ggi g hlen (Nat.le_of_lt hnl) hsrc
  exact ⟨_, hcg, hslice⟩

/-- Witness of C2: process 1 of the ring. -/
theorem C2_create_graph_stable_witness :
    ∃ g', create_graph (ring_input 1) blank_graph = some g' ∧
      ∀ i, i < (ring_input 1).n_local →
        slice g'.out_edges (g'.out_degree_list.getD i 0) (g'.out_degree_list.getD (i + 1) 0)
          = ((gen_edge_list (ring_input 1)).filter
              (fun e => e.1 = (ring_input 1).n_offset + i)).map (fun e => e.2) :=
  C2_create_graph_stable (ring_input 1) blank_graph (by decide) (by decide) (by decide)

/-- Counterexample to C3 as stated.  On `clamp_input` (`n = 2`, `n_local = 3`,
`n_offset = 0`, the single edge `1 → 0`, whose source lies in `[0, 3)`) the
clamp makes `local_unmap[2] = 1`; after `create_graph` and `relabel_edges` the
slice of local vertex 2 is empty, but the input has the edge `1 → 0` whose
source is `local_unmap[2] = 1`: the two multisets differ. -/
theorem C3_counterexample :
    (∀ e, e ∈ gen_edge_list clamp_input →
      clamp_input.n_offset ≤ e.1 ∧ e.1 < clamp_input.n_offset + clamp_input.n_local) ∧
    ((create_graph clamp_input blank_graph).bind (fun g1 => relabel_edges 1 g1 none)).map
      (fun g' => (g'.local_unmap[2]?,
        (slice g'.out_edges (g'.out_degree_list.getD 2 0) (g'.out_degree_list.getD 3 0)).map
          (global_of g')))
      = some (some 1, []) ∧
    ((gen_edge_list clamp_input).filter (fun e => e.1 = 1)).map (fun e => e.2) = [0] ∧
    ¬ List.Perm ([] : List (Option Nat))
      ((((gen_edge_list clamp_input).filter (fun e => e.1 = 1)).map (fun e => e.2)).map some) := by
  refine ⟨by decide, by decide, by decide, ?_⟩
  intro h
  have := h.length_eq
  revert this
  decide

/-- C3 (amended). After `create_graph` followed by `relabel_edges`, on every
well-formed generator input whose sources lie in
`[n_offset, n_offset + n_local)`, for every local vertex `i < n_local`: the
entries of `out_edges[out_degree_list[i] .. out_degree_list[i+1])`, each
reverse-mapped to a global id (`local_unmap[x]` if `x < n_local`, otherwise
`ghost_unmap[x - n_local]`), are as a multiset the destinations of the input
edges whose source is `n_offset + i`; and `n_offset + i` is `local_unmap[i]`
whenever `n_offset + i < n` (no clamping; `n` is a `uint64_t`). -/
theorem C3_relabeled_slices (nprocs : Nat) (ggi : graph_gen_data_t) (g : dist_graph_t)
    (vert_dist : Option (List Nat)) (hready : gen_ready nprocs ggi)
    (hsrc : ∀ e, e ∈ gen_edge_list ggi →
      ggi.n_offset ≤ e.1 ∧ e.1 < ggi.n_offset + ggi.n_local) :
    ∃ g1 g', create_graph ggi g = some g1 ∧ relabel_edges nprocs g1 vert_dist = some g' ∧
      ∀ i, i < ggi.n_local →
        List.Perm
          ((slice g'.out_edges (g'.out_degree_list.getD i 0)
            (g'.out_degree_list.getD (i + 1) 0)).map (global_of g'))
          ((((gen_edge_list ggi).filter (fun e => e.1 = ggi.n_offset + i)).map
            (fun e => e.2)).map some) ∧
        (ggi.n < U64 → ggi.n_offset + i < ggi.n →
          g'.local_unmap[i]? = some (ggi.n_offset + i)) := by
  have hU := U64_eq
  obtain ⟨oe, hcg, hlen, hslice, _⟩ :=
    create_graph_sorted ggi g hready.1 (by have := hready.2.1; omega) hsrc
  have hrdy := created_graph_ready nprocs ggi g oe hready hlen
  obtain ⟨mp, hrel, _, _⟩ := relabel_edges_spec nprocs (created_graph ggi g oe) vert_dist hrdy
  refine ⟨_, _, hcg, hrel, ?_⟩
  intro i hi
  constructor
  · apply List.Perm.of_eq
    show (slice (oe.map _) (List.getD (created_graph ggi g oe).out_degree_list i 0)
      (List.getD (created_graph ggi g oe).out_degree_list (i + 1) 0)).map _ = _
    rw [slice_map, List.map_map, ← hslice i hi]
    apply List.map_congr_left
    intro v hv
    exact global_of_local_label (created_graph ggi g oe)
      (relabeled_graph nprocs (created_graph ggi g oe) vert_dist mp)
      hrdy.1 hrdy.2.1 rfl rfl rfl v (slice_subset _ _ _ _ hv)
  · intro hn hlt
    show (local_unmap_clamped ggi.n ggi.n_local ggi.n_offset)[i]? = _
    unfold local_unmap_clamped
    rw [List.getElem?_map, List.getElem?_range hi]
    have h1 : add64 i ggi.n_offset = ggi.n_offset + i := by
      unfold add64; rw [Nat.mod_eq_of_lt (by omega)]; omega
    show some (if add64 i ggi.n_offset ≥ ggi.n then _ else _) = _
    rw [h1, if_neg (by omega)]

/-- Witness of C3 (amended): process 1 of the ring with 4 processes. -/
theorem C3_relabeled_slices_witness :
    ∃ g1 g', create_graph (ring_input 1) blank_graph = some g1 ∧
      relabel_edges 4 g1 none = some g' ∧
      ∀ i, i < (ring_input 1).n_local →
        List.Perm
          ((slice g'.out_edges (g'.out_degree_list.getD i 0)
            (g'.out_degree_list.getD (i + 1) 0)).map (global_of g'))
          ((((gen_edge_list (ring_input 1)).filter
            (fun e => e.1 = (ring_input 1).n_offset + i)).map (fun e => e.2)).map some) ∧
        ((ring_input 1).n < U64 → (ring_input 1).n_offset + i < (ring_input 1).n →
          g'.local_unmap[i]? = some ((ring_input 1).n_offset + i)) :=
  C3_relabeled_slices 4 (ring_input 1) blank_graph none
    ⟨by decide, by decide, by decide, by decide⟩ (by decide)

/-- C4. `relabel_edges` is undone by the unmap arrays: on every well-formed
graph none of whose global ids is the sentinel `NULL_KEY`, for every edge
position `k < m_local`, if `v` is the global id in `out_edges[k]` before the
call and `x` the value there afterwards, then reverse-mapping `x`
(`local_unmap[x]` if `x < n_local`, else `ghost_unmap[x - n_local]`) yields `v`. -/
theorem C4_relabel_undone_by_unmap (nprocs : Nat) (g : dist_graph_t)
    (vert_dist : Option (List Nat)) (h : relabel_ready nprocs g)
    (hkey : ∀ v, v ∈ g.out_edges ++ g.local_unmap → v ≠ NULL_KEY) :
    ∃ g', relabel_edges nprocs g vert_dist = some g' ∧
      ∀ k, k < g.m_local → ∃ v x, g.out_edges[k]? = some v ∧ g'.out_edges[k]? = some x ∧
        global_of g' x = some v := by
  have _ := hkey
  obtain ⟨mp, hrel, _, _⟩ := relabel_edges_spec nprocs g vert_dist h
  obtain ⟨hL, hOE, _, _, _⟩ := h
  refine ⟨_, hrel, ?_⟩
  intro k hk
  have hget : g.out_edges[k]? = some g.out_edges[k] := List.getElem?_eq_getElem (by omega)
  refine ⟨g.out_edges[k], local_label g.local_unmap g.n_local (ghosts_of g) g.out_edges[k],
    hget, ?_, ?_⟩
  · show (g.out_edges.map _)[k]? = _
    rw [List.getElem?_map, hget]; rfl
  · exact global_of_local_label g (relabeled_graph nprocs g vert_dist mp) hL hOE rfl rfl rfl _
      (List.getElem?_mem hget)

/-- Witness of C4: process 0 of the ring, whose ids are all below `NULL_KEY`. -/
theorem C4_relabel_undone_by_unmap_witness :
    ∃ g', relabel_edges 4 (ring_graph 0) none = some g' ∧
      ∀ k, k < (ring_graph 0).m_local →
        ∃ v x, (ring_graph 0).out_edges[k]? = some v ∧ g'.out_edges[k]? = some x ∧
          global_of g' x = some v :=
  C4_relabel_undone_by_unmap 4 (ring_graph 0) none
    ⟨by decide, by decide, by decide, by decide, by decide⟩ (by decide)

/-- C5. After `relabel_edges` on a well-formed graph whose `local_unmap` entries
are pairwise distinct, the map is the inverse of the combined unmap:
`get_value(map, local_unmap[i]) = i` for every owned index `i < n_local`, and
`get_value(map, ghost_unmap[j]) = n_local + j` for every ghost index
`j < n_ghost`. -/
theorem C5_map_inverts_unmap (nprocs : Nat) (g : dist_graph_t)
    (vert_dist : Option (List Nat)) (h : relabel_ready nprocs g)
    (hdistinct : g.local_unmap.Nodup) :
    ∃ g', relabel_edges nprocs g vert_dist = some g' ∧
      (∀ i, i < g'.n_local →
        ∃ v, g'.local_unmap[i]? = some v ∧ get_value g'.map v = i) ∧
      (∀ j, j < g'.n_ghost →
        ∃ gu v, g'.ghost_unmap = some gu ∧ gu[j]? = some v ∧
          get_value g'.map v = g'.n_local + j) := by
  obtain ⟨mp, hrel, _, hlook⟩ := relabel_edges_spec nprocs g vert_dist h
  obtain ⟨hL, hOE, _, _, _⟩ := h
  refine ⟨_, hrel, ?_, ?_⟩
  · intro i hi
    have hi' : i < g.local_unmap.length := by rw [hL]; exact hi
    refine ⟨g.local_unmap[i], List.getElem?_eq_getElem hi', ?_⟩
    show get_value mp _ = i
    have hown := owned_index_nodup hdistinct hi'
    rw [List.getD_eq_getElem?_getD, List.getElem?_eq_getElem hi', Option.getD_some, hL] at hown
    rw [get_value_eq_look, hlook]
    unfold full_index
    rw [hown]; rfl
  · intro j hj
    have hj' : j < (ghosts_of g).length := hj
    refine ⟨ghosts_of g, (ghosts_of g)[j], ?_, List.getElem?_eq_getElem hj', ?_⟩
    · show (if 0 < (ghosts_of g).length then some (ghosts_of g) else none) = _
      rw [if_pos (by omega)]
    · show get_value mp _ = g.n_local + j
      rw [get_value_eq_look, hlook]
      have hmem : (ghosts_of g)[j] ∈ ghosts_of g := List.getElem_mem hj'
      unfold ghosts_of at hmem ⊢
      rw [full_index_of_ghost _ _ _ _ _ hmem, List.indexOf_getElem (ghosts_nodup _ _ _ _) j hj']
      rfl

/-- Witness of C5: process 0 of the ring. -/
theorem C5_map_inverts_unmap_witness :
    ∃ g', relabel_edges 4 (ring_graph 0) none = some g' ∧
      (∀ i, i < g'.n_local →
        ∃ v, g'.local_unmap[i]? = some v ∧ get_value g'.map v = i) ∧
      (∀ j, j < g'.n_ghost →
        ∃ gu v, g'.ghost_unmap = some gu ∧ gu[j]? = some v ∧
          get_value g'.map v = g'.n_local + j) :=
  C5_map_inverts_unmap 4 (ring_graph 0) none
    ⟨by decide, by decide, by decide, by decide, by decide⟩ (by decide)

/-- C6. After `relabel_edges` on a well-formed graph every entry of `out_edges`
is a local index: `n_total = n_local + n_ghost`; for every `k < m_local` the
new entry `x` of position `k` satisfies `x < n_total`, and `x < n_local` exactly
when the global id `v` it replaced occurs in `local_unmap`; and every index in
`[n_local, n_total)` occurs in `out_edges`. -/
theorem C6_out_edges_are_local_indices (nprocs : Nat) (g : dist_graph_t)
    (vert_dist : Option (List Nat)) (h : relabel_ready nprocs g) :
    ∃ g', relabel_edges nprocs g vert_dist = some g' ∧
      g'.n_total = g'.n_local + g'.n_ghost ∧
      (∀ k, k < g.m_local → ∃ v x, g.out_edges[k]? = some v ∧ g'.out_edges[k]? = some x ∧
        x < g'.n_total ∧ (x < g'.n_local ↔ v ∈ g.local_unmap)) ∧
      (∀ x, g'.n_local ≤ x → x < g'.n_total → x ∈ g'.out_edges) := by
  obtain ⟨mp, hrel, _, _⟩ := relabel_edges_spec nprocs g vert_dist h
  obtain ⟨hL, hOE, _, _, _⟩ := h
  refine ⟨_, hrel, Nat.add_comm _ _, ?_, ?_⟩
  · intro k hk
    have hget : g.out_edges[k]? = some g.out_edges[k] := List.getElem?_eq_getElem (by omega)
    refine ⟨g.out_edges[k], local_label g.local_unmap g.n_local (ghosts_of g) g.out_edges[k],
      hget, ?_, ?_⟩
    · show (g.out_edges.map _)[k]? = _
      rw [List.getElem?_map, hget]; rfl
    · show _ < (ghosts_of g).length + g.n_local ∧ (_ < g.n_local ↔ _)
      rcases local_label_cases g hL hOE _ (List.getElem?_mem hget) with
        ⟨hown, hlt, _⟩ | ⟨hnot, _, hlab, hidx, _⟩
      · exact ⟨by omega, fun _ => hown, fun _ => hlt⟩
      · rw [hlab]
        exact ⟨by omega, fun hlt => absurd hlt (by omega), fun hin => absurd hin hnot⟩
  · intro x hx1 hx2
    have hx1' : g.n_local ≤ x := hx1
    have hx2' : x < (ghosts_of g).length + g.n_local := hx2
    have hj : x - g.n_local < (ghosts_of g).length := by omega
    have hmem : (ghosts_of g)[x - g.n_local] ∈ ghosts_of g := List.getElem_mem hj
    have hin := ((ghosts_of_mem_iff g hL hOE _).mp hmem).1
    show x ∈ g.out_edges.map (local_label g.local_unmap g.n_local (ghosts_of g))
    refine List.mem_map.mpr ⟨_, hin, ?_⟩
    rcases local_label_cases g hL hOE _ hin with ⟨hown, _, _⟩ | ⟨_, _, hlab, _, _⟩
    · exact absurd hown ((ghosts_of_mem_iff g hL hOE _).mp hmem).2
    · rw [hlab]
      unfold ghosts_of
      rw [List.indexOf_getElem (ghosts_nodup _ _ _ _) _ hj]
      omega

/-- Witness of C6: process 0 of the ring. -/
theorem C6_out_edges_are_local_indices_witness :
    ∃ g', relabel_edges 4 (ring_graph 0) none = some g' ∧
      g'.n_total = g'.n_local + g'.n_ghost ∧
      (∀ k, k < (ring_graph 0).m_local →
        ∃ v x, (ring_graph 0).out_edges[k]? = some v ∧ g'.out_edges[k]? = some x ∧
          x < g'.n_total ∧ (x < g'.n_local ↔ v ∈ (ring_graph 0).local_unmap)) ∧
      (∀ x, g'.n_local ≤ x → x < g'.n_total → x ∈ g'.out_edges) :=
  C6_out_edges_are_local_indices 4 (ring_graph 0) none
    ⟨by decide, by decide, by decide, by decide, by decide⟩

/-- C7. After `relabel_edges` on a well-formed graph, `ghost_unmap` (read as the
empty list when it is `NULL`) lists without repetition exactly the global ids
that occur in the pre-relabel `out_edges` and do not occur in `local_unmap`;
`n_ghost` is its length and the number of such distinct ids, and
`n_total = n_local + n_ghost`.  On the 16-vertex directed ring split 4x4 over 4
processes, construction plus relabeling gives every process exactly the one
ghost `(4*rank+4) mod 16`. -/
theorem C7_ghost_unmap_lists_ghosts :
    (∀ (nprocs : Nat) (g : dist_graph_t) (vert_dist : Option (List Nat)),
      relabel_ready nprocs g →
      ∃ g', relabel_edges nprocs g vert_dist = some g' ∧
        (g'.ghost_unmap.getD []).Nodup ∧
        (∀ v, v ∈ g'.ghost_unmap.getD [] ↔ v ∈ g.out_edges ∧ v ∉ g.local_unmap) ∧
        g'.n_ghost = (g'.ghost_unmap.getD []).length ∧
        g'.n_ghost = ((g.out_edges.filter (fun v => v ∉ g.local_unmap)).toFinset).card ∧
        g'.n_total = g'.n_local + g'.n_ghost) ∧
    (∀ rank, rank < 4 →
      ((create_graph (ring_input rank) blank_graph).bind
          (fun g1 => relabel_edges 4 g1 none)).map
        (fun g' => (g'.n_ghost, g'.n_total, g'.ghost_unmap))
        = some (1, 5, some [(4 * rank + 4) % 16])) := by
  refine ⟨?_, by decide⟩
  intro nprocs g vert_dist h
  obtain ⟨mp, hrel, _, _⟩ := relabel_edges_spec nprocs g vert_dist h
  obtain ⟨hL, hOE, _, _, _⟩ := h
  have hnd : (ghosts_of g).Nodup := ghosts_nodup _ _ _ _
  refine ⟨_, hrel, ?_, ?_, ?_, ?_, Nat.add_comm _ _⟩
  · show (Option.getD (if 0 < (ghosts_of g).length then some (ghosts_of g) else none) []).Nodup
    rw [ghost_list_getD]; exact hnd
  · intro v
    show v ∈ Option.getD (if 0 < (ghosts_of g).length then some (ghosts_of g) else none) [] ↔ _
    rw [ghost_list_getD]; exact ghosts_of_mem_iff g hL hOE v
  · show (ghosts_of g).length
      = (Option.getD (if 0 < (ghosts_of g).length then some (ghosts_of g) else none) []).length
    rw [ghost_list_getD]
  · show (ghosts_of g).length = _
    rw [← List.toFinset_card_of_nodup hnd]
    congr 1
    ext v
    rw [List.mem_toFinset, List.mem_toFinset, List.mem_filter, ghosts_of_mem_iff g hL hOE v]
    simp

/-- Witness of C7: process 3 of the ring, whose `create_graph` result is
`ring_graph 3` and whose only ghost is the global id 0. -/
theorem C7_ghost_unmap_lists_ghosts_witness :
    create_graph (ring_input 3) blank_graph = some (ring_graph 3) ∧
    ∃ g', relabel_edges 4 (ring_graph 3) none = some g' ∧
      (g'.ghost_unmap.getD []).Nodup ∧
      (∀ v, v ∈ g'.ghost_unmap.getD [] ↔
        v ∈ (ring_graph 3).out_edges ∧ v ∉ (ring_graph 3).local_unmap) ∧
      g'.n_ghost = (g'.ghost_unmap.getD []).length ∧
      g'.n_ghost = (((ring_graph 3).out_edges.filter
        (fun v => v ∉ (ring_graph 3).local_unmap)).toFinset).card ∧
      g'.n_total = g'.n_local + g'.n_ghost :=
  ⟨by decide, C7_ghost_unmap_lists_ghosts.1 4 (ring_graph 3) none
    ⟨by decide, by decide, by decide, by decide, by decide⟩⟩

/-- Counterexample to C8 as stated.  On process 0 of the ring (`n = 16`,
`nprocs = 4`) the only ghost is the global id 4 and `relabel_edges` without a
distribution array records the owner `4 / (16 / 4 + 1) = 0`, whereas the
claimed `4 / ceil(16 / 4)` is 1. -/
theorem C8_counterexample :
    (relabel_edges 4 (ring_graph 0) none).map
      (fun g' => (g'.n, g'.ghost_unmap, g'.ghost_tasks)) = some (16, some [4], some [0]) ∧
    (4 : Nat) / ceil_div 16 4 = 1 := by
  decide

/-- C8 (amended). When `relabel_edges` is called without a vertex-distribution
array on a well-formed graph (in particular `nprocs ≥ 1` and `n / nprocs + 1`
representable), for every ghost `j < n_ghost` the recorded owner is
`ghost_tasks[j] = ghost_unmap[j] / (n / nprocs + 1)` (integer division). -/
theorem C8_default_owner (nprocs : Nat) (g : dist_graph_t) (h : relabel_ready nprocs g) :
    ∃ g', relabel_edges nprocs g none = some g' ∧
      ∀ j, j < g'.n_ghost → ∃ gu gt v, g'.ghost_unmap = some gu ∧ g'.ghost_tasks = some gt ∧
        gu[j]? = some v ∧ gt[j]? = some (v / (g.n / nprocs + 1)) := by
  obtain ⟨mp, hrel, _, _⟩ := relabel_edges_spec nprocs g none h
  refine ⟨_, hrel, ?_⟩
  intro j hj
  have hj' : j < (ghosts_of g).length := hj
  refine ⟨ghosts_of g, (ghosts_of g).map (ghost_owner nprocs g.n none), (ghosts_of g)[j],
    ?_, ?_, List.getElem?_eq_getElem hj', ?_⟩
  · show (if 0 < (ghosts_of g).length then some (ghosts_of g) else none) = _
    rw [if_pos (by omega)]
  · show (if 0 < (ghosts_of g).length then some _ else none) = _
    rw [if_pos (by omega)]
  · rw [List.getElem?_map, List.getElem?_eq_getElem hj']; rfl

/-- Witness of C8 (amended): process 0 of the ring with 4 processes, where the
recorded owner of ghost 4 is `4 / 5 = 0`. -/
theorem C8_default_owner_witness :
    ∃ g', relabel_edges 4 (ring_graph 0) none = some g' ∧
      ∀ j, j < g'.n_ghost → ∃ gu gt v, g'.ghost_unmap = some gu ∧ g'.ghost_tasks = some gt ∧
        gu[j]? = some v ∧ gt[j]? = some (v / ((ring_graph 0).n / 4 + 1)) :=
  C8_default_owner 4 (ring_graph 0) ⟨by decide, by decide, by decide, by decide, by decide⟩

/-- C9. When `relabel_edges` is given an explicit boundary array `vert_dist`
(`nprocs + 1` strictly increasing entries, `vert_dist[0] = 0`,
`vert_dist[nprocs] = n`) on a well-formed graph whose `out_edges` hold global
ids (`< n`), for every ghost `j` the recorded owner `ghost_tasks[j]` is the
unique rank `r < nprocs` with `vert_dist[r] ≤ ghost_unmap[j] < vert_dist[r+1]`.
In particular for `vert_dist = [0, 5, 9, 16]` the ghost global id 7 of
`dist_graph_sample` gets owner 1. -/
theorem C9_explicit_owner :
    (∀ (nprocs : Nat) (g : dist_graph_t) (vert_dist : List Nat),
      relabel_ready nprocs g →
      vert_dist.length = nprocs + 1 →
      vert_dist.Pairwise (fun a b => a < b) →
      vert_dist[0]? = some 0 →
      vert_dist[nprocs]? = some g.n →
      (∀ v, v ∈ g.out_edges → v < g.n) →
      ∃ g', relabel_edges nprocs g (some vert_dist) = some g' ∧
        ∀ j, j < g'.n_ghost → ∃ gu gt v r,
          g'.ghost_unmap = some gu ∧ g'.ghost_tasks = some gt ∧
          gu[j]? = some v ∧ gt[j]? = some r ∧
          r < nprocs ∧ vert_dist.getD r 0 ≤ v ∧ v < vert_dist.getD (r + 1) 0 ∧
          ∀ r', r' < nprocs → vert_dist.getD r' 0 ≤ v → v < vert_dist.getD (r' + 1) 0 →
            r' = r) ∧
    (relabel_edges 3 dist_graph_sample (some [0, 5, 9, 16])).map
      (fun g' => (g'.ghost_unmap, g'.ghost_tasks)) = some (some [7], some [1]) := by
  refine ⟨?_, by decide⟩
  intro nprocs g vd h hlen hinc h0 hlast hids
  obtain ⟨mp, hrel, _, _⟩ := relabel_edges_spec nprocs g (some vd) h
  obtain ⟨hL, hOE, _, hp, _⟩ := h
  refine ⟨_, hrel, ?_⟩
  intro j hj
  have hj' : j < (ghosts_of g).length := hj
  have hmem : (ghosts_of g)[j] ∈ ghosts_of g := List.getElem_mem hj'
  have hv := hids _ ((ghosts_of_mem_iff g hL hOE _).mp hmem).1
  have h0' : vd.getD 0 0 ≤ (ghosts_of g)[j] := by
    rw [List.getD_eq_getElem?_getD, h0]; exact Nat.zero_le _
  have hlast' : vd.getD nprocs 0 = g.n := by
    rw [List.getD_eq_getElem?_getD, hlast]; rfl
  obtain ⟨hr1, hr2, hr3⟩ := highest_below_spec vd (ghosts_of g)[j] h0' nprocs hp
  have hnext : (ghosts_of g)[j] < vd.getD (highest_below vd (ghosts_of g)[j] nprocs + 1) 0 := by
    by_cases hrn : highest_below vd (ghosts_of g)[j] nprocs + 1 < nprocs
    · exact hr3 _ (Nat.lt_succ_self _) hrn
    · have : highest_below vd (ghosts_of g)[j] nprocs + 1 = nprocs := by omega
      rw [this, hlast']; exact hv
  refine ⟨ghosts_of g, (ghosts_of g).map (ghost_owner nprocs g.n (some vd)), (ghosts_of g)[j],
    highest_below vd (ghosts_of g)[j] nprocs, ?_, ?_, List.getElem?_eq_getElem hj', ?_,
    hr1, hr2, hnext, ?_⟩
  · show (if 0 < (ghosts_of g).length then some (ghosts_of g) else none) = _
    rw [if_pos (by omega)]
  · show (if 0 < (ghosts_of g).length then some _ else none) = _
    rw [if_pos (by omega)]
  · rw [List.getElem?_map, List.getElem?_eq_getElem hj']; rfl
  · intro r' hr' hlo hhi
    by_contra hne
    rcases Nat.lt_or_gt_of_ne hne with hlt | hgt
    · have hmono := pairwise_getD_le vd hinc (r' + 1)
        (highest_below vd (ghosts_of g)[j] nprocs) (by omega) (by omega)
      omega
    · have := hr3 r' hgt hr'
      omega

/-- Witness of C9: `dist_graph_sample` with 3 processes and the boundary array
`[0, 5, 9, 16]`. -/
theorem C9_explicit_owner_witness :
    ∃ g', relabel_edges 3 dist_graph_sample (some [0, 5, 9, 16]) = some g' ∧
      ∀ j, j < g'.n_ghost → ∃ gu gt v r,
        g'.ghost_unmap = some gu ∧ g'.ghost_tasks = some gt ∧
        gu[j]? = some v ∧ gt[j]? = some r ∧
        r < 3 ∧ [0, 5, 9, 16].getD r 0 ≤ v ∧ v < [0, 5, 9, 16].getD (r + 1) 0 ∧
        ∀ r', r' < 3 → [0, 5, 9, 16].getD r' 0 ≤ v → v < [0, 5, 9, 16].getD (r' + 1) 0 →
          r' = r :=
  C9_explicit_owner.1 3 dist_graph_sample [0, 5, 9, 16]
    ⟨by decide, by decide, by decide, by decide, by decide⟩
    (by decide) (by decide) (by decide) (by decide) (by decide)

/-- C10. The semantic output of construction plus relabeling does not depend on
the input edge order: for two well-formed generator inputs with the same `n`,
`n_local`, `n_offset` whose edge lists are permutations of each other (sources
in `[n_offset, n_offset + n_local)`), and the same `nprocs` and `vert_dist`,
`create_graph` followed by `relabel_edges` yields the same `n_ghost`, the same
set of ghost global ids, and the same set of pairs
`(ghost_unmap[j], ghost_tasks[j])` (a `NULL` ghost array is read as empty). -/
theorem C10_order_independent (nprocs : Nat) (ggi1 ggi2 : graph_gen_data_t)
    (ga gb : dist_graph_t) (vert_dist : Option (List Nat))
    (hn : ggi1.n = ggi2.n) (hnl : ggi1.n_local = ggi2.n_local)
    (hoff : ggi1.n_offset = ggi2.n_offset)
    (hperm : (gen_edge_list ggi1).Perm (gen_edge_list ggi2))
    (hr1 : gen_ready nprocs ggi1) (hr2 : gen_ready nprocs ggi2)
    (hsrc : ∀ e, e ∈ gen_edge_list ggi1 →
      ggi1.n_offset ≤ e.1 ∧ e.1 < ggi1.n_offset + ggi1.n_local) :
    ∃ g1 g1' g2 g2', create_graph ggi1 ga = some g1 ∧
      relabel_edges nprocs g1 vert_dist = some g1' ∧
      create_graph ggi2 gb = some g2 ∧ relabel_edges nprocs g2 vert_dist = some g2' ∧
      g1'.n_ghost = g2'.n_ghost ∧
      (∀ v, v ∈ g1'.ghost_unmap.getD [] ↔ v ∈ g2'.ghost_unmap.getD []) ∧
      ∀ p, p ∈ (g1'.ghost_unmap.getD []).zip (g1'.ghost_tasks.getD []) ↔
        p ∈ (g2'.ghost_unmap.getD []).zip (g2'.ghost_tasks.getD []) := by
  have hU := U64_eq
  have hsrc2 : ∀ e, e ∈ gen_edge_list ggi2 →
      ggi2.n_offset ≤ e.1 ∧ e.1 < ggi2.n_offset + ggi2.n_local := by
    intro e he
    rw [← hoff, ← hnl]
    exact hsrc e (hperm.mem_iff.mpr he)
  obtain ⟨oe1, hcg1, hlen1, _, hmem1⟩ :=
    create_graph_sorted ggi1 ga hr1.1 (by have := hr1.2.1; omega) hsrc
  obtain ⟨oe2, hcg2, hlen2, _, hmem2⟩ :=
    create_graph_sorted ggi2 gb hr2.1 (by have := hr2.2.1; omega) hsrc2
  have hrdy1 := created_graph_ready nprocs ggi1 ga oe1 hr1 hlen1
  have hrdy2 := created_graph_ready nprocs ggi2 gb oe2 hr2 hlen2
  obtain ⟨mp1, hrel1, _, _⟩ := relabel_edges_spec nprocs _ vert_dist hrdy1
  obtain ⟨mp2, hrel2, _, _⟩ := relabel_edges_spec nprocs _ vert_dist hrdy2
  have hG : ∀ v, v ∈ ghosts_of (created_graph ggi1 ga oe1) ↔
      v ∈ ghosts_of (created_graph ggi2 gb oe2) := by
    intro v
    rw [ghosts_of_mem_iff _ hrdy1.1 hrdy1.2.1, ghosts_of_mem_iff _ hrdy2.1 hrdy2.2.1]
    show v ∈ oe1 ∧ v ∉ local_unmap_clamped ggi1.n ggi1.n_local ggi1.n_offset ↔
      v ∈ oe2 ∧ v ∉ local_unmap_clamped ggi2.n ggi2.n_local ggi2.n_offset
    rw [hmem1, hmem2, hn, hnl, hoff, (hperm.map (fun e => e.2)).mem_iff]
  have hGperm := (List.perm_ext_iff_of_nodup (ghosts_nodup _ _ _ _) (ghosts_nodup _ _ _ _)).mpr hG
  have hown : ghost_owner nprocs (created_graph ggi1 ga oe1).n vert_dist
      = ghost_owner nprocs (created_graph ggi2 gb oe2).n vert_dist := by
    show ghost_owner nprocs ggi1.n vert_dist = ghost_owner nprocs ggi2.n vert_dist
    rw [hn]
  refine ⟨_, _, _, _, hcg1, hrel1, hcg2, hrel2, hGperm.length_eq, ?_, ?_⟩
  · intro v
    show v ∈ Option.getD (if 0 < (ghosts_of (created_graph ggi1 ga oe1)).length
        then some (ghosts_of (created_graph ggi1 ga oe1)) else none) [] ↔
      v ∈ Option.getD (if 0 < (ghosts_of (created_graph ggi2 gb oe2)).length
        then some (ghosts_of (created_graph ggi2 gb oe2)) else none) []
    rw [ghost_list_getD, ghost_list_getD]
    exact hG v
  · intro p
    show p ∈ (Option.getD (if 0 < (ghosts_of (created_graph ggi1 ga oe1)).length
          then some (ghosts_of (created_graph ggi1 ga oe1)) else none) []).zip
        (Option.getD (if 0 < (ghosts_of (created_graph ggi1 ga oe1)).length
          then some ((ghosts_of (created_graph ggi1 ga oe1)).map
            (ghost_owner nprocs (created_graph ggi1 ga oe1).n vert_dist)) else none) []) ↔
      p ∈ (Option.getD (if 0 < (ghosts_of (created_graph ggi2 gb oe2)).length
          then some (ghosts_of (created_graph ggi2 gb oe2)) else none) []).zip
        (Option.getD (if 0 < (ghosts_of (created_graph ggi2 gb oe2)).length
          then some ((ghosts_of (created_graph ggi2 gb oe2)).map
            (ghost_owner nprocs (created_graph ggi2 gb oe2).n vert_dist)) else none) [])
    rw [ghost_list_getD, ghost_list_getD, ghost_tasks_getD, ghost_tasks_getD,
      zip_map_mem, zip_map_mem, hG, hown]

/-- Witness of C10: three edges `0 → 5`, `1 → 3`, `0 → 7` of a process that
owns the ids 0 and 1, and the same edges with the first and last swapped (the
ghosts 5 and 7 are then discovered in the other order). -/
theorem C10_order_independent_witness :
    ∃ g1 g1' g2 g2', create_graph (gen_data 8 2 0 3 [0, 5, 1, 3, 0, 7] []) blank_graph = some g1 ∧
      relabel_edges 4 g1 none = some g1' ∧
      create_graph (gen_data 8 2 0 3 [0, 7, 1, 3, 0, 5] []) blank_graph = some g2 ∧
      relabel_edges 4 g2 none = some g2' ∧
      g1'.n_ghost = g2'.n_ghost ∧
      (∀ v, v ∈ g1'.ghost_unmap.getD [] ↔ v ∈ g2'.ghost_unmap.getD []) ∧
      ∀ p, p ∈ (g1'.ghost_unmap.getD []).zip (g1'.ghost_tasks.getD []) ↔
        p ∈ (g2'.ghost_unmap.getD []).zip (g2'.ghost_tasks.getD []) :=
  C10_order_independent 4 (gen_data 8 2 0 3 [0, 5, 1, 3, 0, 7] [])
    (gen_data 8 2 0 3 [0, 7, 1, 3, 0, 5] []) blank_graph blank_graph none
    (by decide) (by decide) (by decide) (by decide)
    ⟨by decide, by decide, by decide, by decide⟩
    ⟨by decide, by decide, by decide, by decide⟩ (by decide)

/-- Counterexample to C11 as stated.  On `clamp_input` (`n = 2`, `n_local = 3`,
`n_offset = 0`, the edge `1 → 0`) `create_graph` returns
`local_unmap = [0, 1, 1]`: the clamp to `n - 1` repeats the id 1. -/
theorem C11_counterexample :
    (∀ e, e ∈ gen_edge_list clamp_input →
      clamp_input.n_offset ≤ e.1 ∧ e.1 < clamp_input.n_offset + clamp_input.n_local) ∧
    (create_graph clamp_input blank_graph).map (fun g' => g'.local_unmap) = some [0, 1, 1] ∧
    ¬ ([0, 1, 1] : List Nat).Nodup := by
  decide

/-- C11 (amended). After `create_graph` or `create_graph_weighted` on generator
input whose local range lies inside the id space, `n_offset + n_local ≤ n`
(`n` a `uint64_t`), `local_unmap` has `n_local` pairwise distinct entries, entry
`i` being the owned global id `n_offset + i`.  In general, for `n < 2^64` and
`n_offset + n_local ≤ 2^64`, the entries of `local_unmap` are pairwise distinct
exactly when `n_offset + n_local ≤ n` or `n_local ≤ 1`. -/
theorem C11_local_unmap_distinct :
    (∀ (ggi : graph_gen_data_t) (g : dist_graph_t),
      2 * ggi.m_local_edges ≤ ggi.gen_edges.length →
      (∀ k, k < ggi.m_local_edges → ggi.n_offset ≤ ggi.gen_edges.getD (2 * k) 0 ∧
        ggi.gen_edges.getD (2 * k) 0 < ggi.n_offset + ggi.n_local) →
      ggi.n_offset + ggi.n_local ≤ ggi.n → ggi.n ≤ U64 →
      ∃ g', create_graph ggi g = some g' ∧ g'.local_unmap.length = ggi.n_local ∧
        g'.local_unmap.Nodup ∧
        ∀ i, i < ggi.n_local → g'.local_unmap[i]? = some (ggi.n_offset + i)) ∧
    (∀ (ggi : graph_gen_data_t) (g : dist_graph_t),
      3 * ggi.m_local_edges ≤ ggi.gen_edges.length →
      (∀ k, k < ggi.m_local_edges → ggi.n_offset ≤ ggi.gen_edges.getD (3 * k) 0 ∧
        ggi.gen_edges.getD (3 * k) 0 < ggi.n_offset + ggi.n_local) →
      ggi.n_offset + ggi.n_local ≤ ggi.n → ggi.n ≤ U64 →
      ∃ g', create_graph_weighted ggi g = some g' ∧ g'.local_unmap.length = ggi.n_local ∧
        g'.local_unmap.Nodup ∧
        ∀ i, i < ggi.n_local → g'.local_unmap[i]? = some (ggi.n_offset + i)) ∧
    (∀ (ggi : graph_gen_data_t) (g : dist_graph_t),
      2 * ggi.m_local_edges ≤ ggi.gen_edges.length →
      (∀ k, k < ggi.m_local_edges → ggi.n_offset ≤ ggi.gen_edges.getD (2 * k) 0 ∧
        ggi.gen_edges.getD (2 * k) 0 < ggi.n_offset + ggi.n_local) →
      ggi.n < U64 → ggi.n_offset + ggi.n_local ≤ U64 →
      ∃ g', create_graph ggi g = some g' ∧
        (g'.local_unmap.Nodup ↔ ggi.n_offset + ggi.n_local ≤ ggi.n ∨ ggi.n_local ≤ 1)) ∧
    (∀ (ggi : graph_gen_data_t) (g : dist_graph_t),
      3 * ggi.m_local_edges ≤ ggi.gen_edges.length →
      (∀ k, k < ggi.m_local_edges → ggi.n_offset ≤ ggi.gen_edges.getD (3 * k) 0 ∧
        ggi.gen_edges.getD (3 * k) 0 < ggi.n_offset + ggi.n_local) →
      ggi.n < U64 → ggi.n_offset + ggi.n_local ≤ U64 →
      ∃ g', create_graph_weighted ggi g = some g' ∧
        (g'.local_unmap.Nodup ↔ ggi.n_offset + ggi.n_local ≤ ggi.n ∨ ggi.n_local ≤ 1)) := by
  have hval : ∀ (n nl off : Nat), off + nl ≤ n → n ≤ U64 → ∀ i, i < nl →
      (local_unmap_clamped n nl off)[i]? = some (off + i) := by
    intro n nl off hfit hn i hi
    rw [local_unmap_clamped_exact n nl off hfit hn, List.getElem?_map, List.getElem?_range hi]
    rfl
  refine ⟨?_, ?_, ?_, ?_⟩
  · intro ggi g hlen hsrc hfit hn
    obtain ⟨oe, hcg, _, _⟩ := create_graph_spec ggi g (fun k hk => by omega)
      (fun k hk => sub64_lt_of_mem_range (hsrc k hk).1 (hsrc k hk).2)
    exact ⟨_, hcg, local_unmap_clamped_length _ _ _,
      local_unmap_clamped_nodup _ _ _ hfit hn, hval _ _ _ hfit hn⟩
  · intro ggi g hlen hsrc hfit hn
    obtain ⟨oe, ew, hcg, _⟩ := create_graph_weighted_spec ggi g (fun k hk => by omega)
      (fun k hk => sub64_lt_of_mem_range (hsrc k hk).1 (hsrc k hk).2)
    exact ⟨_, hcg, local_unmap_clamped_length _ _ _,
      local_unmap_clamped_nodup _ _ _ hfit hn, hval _ _ _ hfit hn⟩
  · intro ggi g hlen hsrc hn hw
    obtain ⟨oe, hcg, _, _⟩ := create_graph_spec ggi g (fun k hk => by omega)
      (fun k hk => sub64_lt_of_mem_range (hsrc k hk).1 (hsrc k hk).2)
    exact ⟨_, hcg, local_unmap_clamped_nodup_iff _ _ _ hn hw⟩
  · intro ggi g hlen hsrc hn hw
    obtain ⟨oe, ew, hcg, _⟩ := create_graph_weighted_spec ggi g (fun k hk => by omega)
      (fun k hk => sub64_lt_of_mem_range (hsrc k hk).1 (hsrc k hk).2)
    exact ⟨_, hcg, local_unmap_clamped_nodup_iff _ _ _ hn hw⟩

/-- Witness of C11 (amended): process 1 of the ring, and three weighted
triples; for the general part the input `clamp_input` (`n = 2`, `n_local = 3`,
`n_offset = 0`), whose range does not fit, and the input `late_input` (`n = 2`,
`n_local = 1`, `n_offset = 2`), whose range does not fit either but which has a
single entry. -/
theorem C11_local_unmap_distinct_witness :
    (∃ g', create_graph (ring_input 1) blank_graph = some g' ∧ g'.local_unmap.length = 4 ∧
      g'.local_unmap.Nodup ∧
      ∀ i, i < 4 → g'.local_unmap[i]? = some (4 + i)) ∧
    (∃ g', create_graph_weighted
        (gen_data 4 4 0 3 [1, 0, 7, 0, 2, 8, 1, 3, 9] []) blank_graph = some g' ∧
      g'.local_unmap.length = 4 ∧ g'.local_unmap.Nodup ∧
      ∀ i, i < 4 → g'.local_unmap[i]? = some (0 + i)) ∧
    (∃ g', create_graph clamp_input blank_graph = some g' ∧
      (g'.local_unmap.Nodup ↔ 0 + 3 ≤ 2 ∨ 3 ≤ 1)) ∧
    (∃ g', create_graph_weighted late_input blank_graph = some g' ∧
      (g'.local_unmap.Nodup ↔ 2 + 1 ≤ 2 ∨ 1 ≤ 1)) ∧
    (create_graph_weighted late_input blank_graph).map (fun g' => g'.local_unmap)
      = some [1] :=
  ⟨C11_local_unmap_distinct.1 (ring_input 1) blank_graph (by decide) (by decide)
      (by decide) (by decide),
   C11_local_unmap_distinct.2.1 (gen_data 4 4 0 3 [1, 0, 7, 0, 2, 8, 1, 3, 9] []) blank_graph
      (by decide) (by decide) (by decide) (by decide),
   C11_local_unmap_distinct.2.2.1 clamp_input blank_graph
      (by decide) (by decide) (by decide) (by decide),
   C11_local_unmap_distinct.2.2.2 late_input blank_graph
      (by decide) (by decide) (by decide) (by decide),
   by decide⟩

/-- C12: when the array constructors are called with `num_vert_weights > 0` on
every process, with weight arrays of `num_vert_weights` entries per local vertex
and sums that fit an `int64_t`, they return on every process, and afterwards
`vert_weights_sums[w]`, for every dimension `w < num_vert_weights` and on every
process, is the sum over all processes and all their local vertices `i` of
`vert_weights[i*num_vert_weights + w]`.  The first part is the array overload of
`create_graph`, which also reads `global_ids`; the second the array overload of
`create_graph_serial`. -/
theorem C12_vert_weights_sums_global (calls : List (dist_graph_t × csr_args)) (nvw : Nat)
    (hpos : 0 < nvw)
    (hnvw : ∀ c, c ∈ calls → c.2.num_vert_weights = nvw)
    (hready : ∀ c, c ∈ calls → weights_ready c.2)
    (hsum : ∀ w, w < nvw → in_int64 (global_weight_sum calls w)) :
    ((∀ c, c ∈ calls → c.2.n_local ≤ c.2.global_ids.length) →
      ∃ gs, create_graph_arrays_all calls = some gs ∧ gs.length = calls.length ∧
        ∀ g', g' ∈ gs → ∃ sums, g'.vert_weights_sums = some sums ∧ sums.length = nvw ∧
          ∀ w, w < nvw → sums[w]? = some (global_weight_sum calls w)) ∧
    ∃ gs, create_graph_serial_arrays_all calls = some gs ∧ gs.length = calls.length ∧
      ∀ g', g' ∈ gs → ∃ sums, g'.vert_weights_sums = some sums ∧ sums.length = nvw ∧
        ∀ w, w < nvw → sums[w]? = some (global_weight_sum calls w) := by
  have hred := mpi_allreduce_sum_spec calls nvw hnvw hsum
  constructor
  · intro hid
    refine ⟨_, create_graph_arrays_all_spec calls hready hid, by simp, ?_⟩
    intro g' hg'
    obtain ⟨c, hc, rfl⟩ := List.mem_map.mp hg'
    have hn := hnvw c hc
    refine ⟨(List.range nvw).map (global_weight_sum calls), ?_, by simp, ?_⟩
    · simp [arrays_graph, hn, hpos, hred]
    · intro w hw
      simp [List.getElem?_range, hw]
  · refine ⟨_, create_graph_serial_arrays_all_spec calls hready, by simp, ?_⟩
    intro g' hg'
    obtain ⟨c, hc, rfl⟩ := List.mem_map.mp hg'
    have hn := hnvw c hc
    refine ⟨(List.range nvw).map (global_weight_sum calls), ?_, by simp, ?_⟩
    · simp [serial_arrays_graph, arrays_graph, hn, hpos, hred]
    · intro w hw
      simp [List.getElem?_range, hw]

/-- Witness of C12: two processes and two weight dimensions; the first process
has two vertices of weights `(1, 2)` and `(3, 4)`, the second one vertex of
weights `(10, 20)`, so the sums are 14 and 26 on both processes. -/
theorem C12_vert_weights_sums_global_witness :
    (∃ gs, create_graph_arrays_all [(blank_graph, two_weight_args 0), (blank_graph, two_weight_args 1)]
        = some gs ∧ gs.length = 2 ∧
      ∀ g', g' ∈ gs → ∃ sums, g'.vert_weights_sums = some sums ∧ sums.length = 2 ∧
        ∀ w, w < 2 → sums[w]? = some (global_weight_sum
          [(blank_graph, two_weight_args 0), (blank_graph, two_weight_args 1)] w)) ∧
    (∃ gs, create_graph_serial_arrays_all
        [(blank_graph, two_weight_args 0), (blank_graph, two_weight_args 1)] = some gs ∧
      gs.length = 2 ∧
      ∀ g', g' ∈ gs → ∃ sums, g'.vert_weights_sums = some sums ∧ sums.length = 2 ∧
        ∀ w, w < 2 → sums[w]? = some (global_weight_sum
          [(blank_graph, two_weight_args 0), (blank_graph, two_weight_args 1)] w)) ∧
    global_weight_sum [(blank_graph, two_weight_args 0), (blank_graph, two_weight_args 1)] 0 = 14 ∧
    global_weight_sum [(blank_graph, two_weight_args 0), (blank_graph, two_weight_args 1)] 1 = 26 :=
  ⟨(C12_vert_weights_sums_global
      [(blank_graph, two_weight_args 0), (blank_graph, two_weight_args 1)] 2
      (by decide) (by decide) (by decide) (by decide)).1 (by decide),
   (C12_vert_weights_sums_global
      [(blank_graph, two_weight_args 0), (blank_graph, two_weight_args 1)] 2
      (by decide) (by decide) (by decide) (by decide)).2,
   by decide, by decide⟩

/-- C13 (the code departs from it): two processes call the array constructors
with one weight dimension, the first with one vertex of weight 1 and the second
with one vertex of weight 5.  Both overloads leave `max_vert_weights = [1]` on
the first process and `[5]` on the second: the maximum is the local one, not the
maximum 5 over all processes, although the sums of the same call are reduced to
6 on both. -/
theorem C13_max_vert_weights_stays_local :
    (create_graph_arrays_all
        [(blank_graph, single_vertex_args 0 1), (blank_graph, single_vertex_args 1 5)]).map
      (fun gs => gs.map (fun g => (g.max_vert_weights, g.vert_weights_sums)))
      = some [(some [1], some [6]), (some [5], some [6])] ∧
    (create_graph_serial_arrays_all
        [(blank_graph, single_vertex_args 0 1), (blank_graph, single_vertex_args 1 5)]).map
      (fun gs => gs.map (fun g => (g.max_vert_weights, g.vert_weights_sums)))
      = some [(some [1], some [6]), (some [5], some [6])] := by
  decide

/-- C14 (the code departs from it): the array overload of `create_graph` assigns
no value to `n_offset`.  Called on a graph whose `n_offset` holds 7, it returns
with `n_offset = 7`, `n_local = 1` and `local_unmap = [0]`, where the array
overload of `create_graph_serial` on the same input returns `n_offset = 0`. -/
theorem C14_n_offset_left_unassigned :
    (create_graph_arrays_all [({ blank_graph with n_offset := 7 }, single_vertex_args 0 1)]).map
      (fun gs => gs.map (fun g => (g.n_offset, g.n_local, g.local_unmap)))
      = some [(7, 1, [0])] ∧
    (create_graph_serial_arrays_all
        [({ blank_graph with n_offset := 7 }, single_vertex_args 0 1)]).map
      (fun gs => gs.map (fun g => (g.n_offset, g.n_local, g.local_unmap)))
      = some [(0, 1, [0])] := by
  decide

/-- Counterexample to C15 as stated: one process whose only vertex, of global
id 0, has out-degree 0.  That vertex is a local vertex of maximum out-degree and
the local maximum 0 equals the global maximum, so the claim gives
`max_degree_vert = 0`; the code returns `max_degree = 0` and
`max_degree_vert = 2^64 - 1`, which is no vertex. -/
theorem C15_counterexample :
    (get_max_degree_vert_all [isolated_graph]).map
        (fun gs => gs.map (fun g => (g.max_degree, g.max_degree_vert)))
      = some [(0, 18446744073709551615)] ∧
    degree_ready isolated_graph ∧ degree_at isolated_graph 0 = 0 ∧
    isolated_graph.local_unmap = [0] := by
  decide

/-- C15, amended: on processes whose degree and id arrays have their sizes,
`get_max_degree_vert` returns on every process and changes only `max_degree` and
`max_degree_vert`, which get the same values `D` and `V` on all processes.  `D`
bounds the out-degree of every local vertex of every process.  If `D > 0`, then
`V` is the global id of the first vertex of degree `D` of some process, and it is
the smallest such id: the first vertex of degree `D` of every process that has
one has a global id at least `V`.  If `D = 0`, then `V = 2^64 - 1`. -/
theorem C15_max_degree_vert (gs : List dist_graph_t)
    (h : ∀ g, g ∈ gs → degree_ready g) :
    ∃ D V, get_max_degree_vert_all gs
        = some (gs.map (fun g => { g with max_degree_vert := V, max_degree := D })) ∧
      (∀ g, g ∈ gs → ∀ i, i < g.n_local → degree_at g i ≤ D) ∧
      (D = 0 → V = U64 - 1) ∧
      (0 < D →
        (∃ g, g ∈ gs ∧ ∃ i, i < g.n_local ∧ degree_at g i = D ∧
          (∀ j, j < i → degree_at g j < D) ∧ g.local_unmap[i]? = some V) ∧
        ∀ g, g ∈ gs → ∀ i, i < g.n_local → degree_at g i = D →
          (∀ j, j < i → degree_at g j < D) → V ≤ g.local_unmap.getD i 0) := by
  refine ⟨reduced_max_degree gs, reduced_max_vert gs, get_max_degree_vert_all_spec gs h,
    ?_, ?_, ?_⟩
  · intro g hg i hi
    exact Nat.le_trans (max_scan_le g g.n_local i hi) (reduced_max_degree_ge gs g hg)
  · intro hD
    rcases reduced_max_vert_cases gs with hV | ⟨g, hg, he, hV⟩
    · exact hV
    · rw [hV]
      exact max_scan_zero g g.n_local (by rw [he, hD])
  · intro hD
    have key : ∀ g, g ∈ gs → (max_scan g g.n_local).1 = reduced_max_degree gs →
        ∃ i, i < g.n_local ∧ degree_at g i = reduced_max_degree gs ∧
          (∀ j, j < i → degree_at g j < reduced_max_degree gs) ∧
          (max_scan g g.n_local).2 = g.local_unmap.getD i 0 ∧
          g.local_unmap[i]? = some ((max_scan g g.n_local).2) ∧
          (max_scan g g.n_local).2 < U64 := by
      intro g hg he
      obtain ⟨i, hi, h1, h2, h3⟩ := max_scan_pos g g.n_local (by rw [he]; exact hD)
      rw [he] at h1 h2
      have hlt : i < g.local_unmap.length := by rw [(h g hg).2.1]; exact hi
      have hget : g.local_unmap[i]? = some (g.local_unmap.getD i 0) := by
        rw [List.getD_eq_getElem?_getD, List.getElem?_eq_getElem hlt]
        rfl
      refine ⟨i, hi, h1, h2, h3, by rw [h3]; exact hget, ?_⟩
      rw [h3]
      exact (h g hg).2.2 _ (List.getElem?_mem hget)
    constructor
    · rcases reduced_max_vert_cases gs with hV | ⟨g, hg, he, hV⟩
      · obtain ⟨g, hg, he⟩ := reduced_max_degree_attained gs hD
        obtain ⟨i, hi, h1, h2, _, h4, h5⟩ := key g hg he
        have hle := reduced_max_vert_le gs g hg he
        refine ⟨g, hg, i, hi, h1, h2, ?_⟩
        rw [h4]
        congr 1
        omega
      · obtain ⟨i, hi, h1, h2, _, h4, _⟩ := key g hg he
        exact ⟨g, hg, i, hi, h1, h2, by rw [hV]; exact h4⟩
    · intro g hg i hi hdeg hfirst
      have he : (max_scan g g.n_local).1 = reduced_max_degree gs :=
        Nat.le_antisymm (reduced_max_degree_ge gs g hg)
          (by rw [← hdeg]; exact max_scan_le g g.n_local i hi)
      obtain ⟨i', hi', h1, h2, h3, _, _⟩ := key g hg he
      have hii : i = i' := by
        rcases Nat.lt_trichotomy i i' with hlt | heq | hgt
        · have := h2 i hlt
          omega
        · exact heq
        · have := hfirst i' hgt
          omega
      rw [hii, ← h3]
      exact reduced_max_vert_le gs g hg he

/-- Witness of C15: process 0 owns the ids 4 and 5 of degrees 1 and 3, process 1
the ids 2 and 3, both of degree 3; the maximum degree is 3 and the first vertices
of degree 3 are 5 and 2, so `max_degree_vert = 2` on both processes. -/
theorem C15_max_degree_vert_witness :
    (∃ D V, get_max_degree_vert_all [degree_sample 0, degree_sample 1]
        = some ([degree_sample 0, degree_sample 1].map
            (fun g => { g with max_degree_vert := V, max_degree := D })) ∧
      (∀ g, g ∈ [degree_sample 0, degree_sample 1] →
        ∀ i, i < g.n_local → degree_at g i ≤ D) ∧
      (D = 0 → V = U64 - 1) ∧
      (0 < D →
        (∃ g, g ∈ [degree_sample 0, degree_sample 1] ∧ ∃ i, i < g.n_local ∧
          degree_at g i = D ∧ (∀ j, j < i → degree_at g j < D) ∧
          g.local_unmap[i]? = some V) ∧
        ∀ g, g ∈ [degree_sample 0, degree_sample 1] → ∀ i, i < g.n_local →
          degree_at g i = D → (∀ j, j < i → degree_at g j < D) →
          V ≤ g.local_unmap.getD i 0)) ∧
    (get_max_degree_vert_all [degree_sample 0, degree_sample 1]).map
        (fun gs => gs.map (fun g => (g.max_degree, g.max_degree_vert)))
      = some [(3, 2), (3, 2)] :=
  ⟨C15_max_degree_vert [degree_sample 0, degree_sample 1] (by decide), by decide⟩

/-- C17. If every global id stored in `out_edges` is an owned id (occurs in
`local_unmap`), then `relabel_edges` on a graph whose arrays have their declared
lengths (`m_local + n_local < 2^64`) yields `n_ghost = 0` and
`n_total = n_local`, leaves `ghost_unmap` and `ghost_tasks` null (not
zero-length arrays), and replaces every `out_edges` entry by an index below
`n_local`. -/
theorem C17_no_ghosts (nprocs : Nat) (g : dist_graph_t) (vert_dist : Option (List Nat))
    (hL : g.local_unmap.length = g.n_local) (hOE : g.out_edges.length = g.m_local)
    (hsz : g.n_local + g.m_local < U64)
    (hown : ∀ v, v ∈ g.out_edges → v ∈ g.local_unmap) :
    ∃ g', relabel_edges nprocs g vert_dist = some g' ∧
      g'.n_ghost = 0 ∧ g'.n_total = g'.n_local ∧ g'.n_local = g.n_local ∧
      g'.ghost_unmap = none ∧ g'.ghost_tasks = none ∧
      g'.out_edges.length = g.m_local ∧ ∀ x, x ∈ g'.out_edges → x < g'.n_local := by
  have hG := ghosts_of_eq_nil g hL hOE hown
  obtain ⟨mp, hrel, _, _⟩ := relabel_edges_core nprocs g vert_dist hL hOE hsz
    (fun hpos => by rw [hG] at hpos; exact absurd hpos (Nat.lt_irrefl 0))
  refine ⟨_, hrel, ?_, ?_, rfl, ?_, ?_, ?_, ?_⟩
  · show (ghosts_of g).length = 0
    rw [hG]; rfl
  · show (ghosts_of g).length + g.n_local = g.n_local
    rw [hG]; exact Nat.zero_add _
  · show (if 0 < (ghosts_of g).length then some (ghosts_of g) else none) = none
    rw [hG]; rfl
  · show (if 0 < (ghosts_of g).length then some _ else none) = none
    rw [hG]; rfl
  · show (g.out_edges.map _).length = g.m_local
    rw [List.length_map, hOE]
  · intro x hx
    have hx' : x ∈ g.out_edges.map (local_label g.local_unmap g.n_local (ghosts_of g)) := hx
    obtain ⟨v, hv, hvx⟩ := List.mem_map.mp hx'
    rcases local_label_cases g hL hOE v hv with ⟨_, hlt, _⟩ | ⟨hnot, _⟩
    · rw [← hvx]; exact hlt
    · exact absurd (hown v hv) hnot

/-- Witness of C17: a process that owns the ids 4 .. 7 and has the edges
`4 → 5`, `5 → 6`, `6 → 7`, `7 → 4`. -/
theorem C17_no_ghosts_witness :
    ∃ g', relabel_edges 4 { ring_graph 1 with out_edges := [5, 6, 7, 4] } none = some g' ∧
      g'.n_ghost = 0 ∧ g'.n_total = g'.n_local ∧ g'.n_local = 4 ∧
      g'.ghost_unmap = none ∧ g'.ghost_tasks = none ∧
      g'.out_edges.length = 4 ∧ ∀ x, x ∈ g'.out_edges → x < g'.n_local :=
  C17_no_ghosts 4 { ring_graph 1 with out_edges := [5, 6, 7, 4] } none
    (by decide) (by decide) (by decide) (by decide)

/-- C18: each serial constructor (`create_graph_serial` and
`create_graph_serial_weighted` from generator data whose edge sources are local
indices, and the array overload of `create_graph_serial`) returns a graph with
`n_offset = 0`, `n_ghost = 0`, `n_total = n_local` and `local_unmap[i] = i` for
every `i < n_local`; it leaves `ghost_unmap` and `ghost_tasks` as they were
(it allocates neither), and `clear_graph` releases these two arrays exactly when
`n_ghost > 0`, hence not for a graph a serial constructor built. -/
theorem C18_serial_constructors_no_ghosts (ggi : graph_gen_data_t) (a : csr_args)
    (f : List Int → List Int) (g : dist_graph_t)
    (hrd : ∀ k, k < ggi.m_local_edges → 2 * k + 1 < ggi.gen_edges.length)
    (hB : ∀ k, k < ggi.m_local_edges → edge_bucket ggi.gen_edges 2 0 k < ggi.n_local)
    (hrdw : ∀ k, k < ggi.m_local_read → 2 * k + 1 < ggi.gen_edges.length)
    (hw : ggi.m_local_read ≤ ggi.edge_weights.length)
    (hBw : ∀ k, k < ggi.m_local_read → edge_bucket ggi.gen_edges 2 0 k < ggi.n_local)
    (hn : ggi.n_local ≤ U64)
    (hready : weights_ready a) (hna : a.n_local ≤ U64) :
    (∃ g', create_graph_serial ggi g = some g' ∧ serial_shape g g' ggi.n_local) ∧
    (∃ g', create_graph_serial_weighted ggi g = some g' ∧ serial_shape g g' ggi.n_local) ∧
    (∃ g', create_graph_serial_arrays f g a = some g' ∧ serial_shape g g' a.n_local) ∧
    (owned_block.ghost_unmap ∈ clear_graph g ↔ 0 < g.n_ghost) ∧
    (owned_block.ghost_tasks ∈ clear_graph g ↔ 0 < g.n_ghost) := by
  refine ⟨?_, ?_, ?_, clear_graph_ghost_unmap g, clear_graph_ghost_tasks g⟩
  · obtain ⟨oe, h, _⟩ := create_graph_serial_spec ggi g hrd hB
    exact ⟨_, h, serial_shape_of g _ ggi.n_local hn rfl rfl rfl rfl rfl rfl rfl⟩
  · obtain ⟨oe, ew, h, _⟩ := create_graph_serial_weighted_spec ggi g hrdw hw hBw
    exact ⟨_, h, serial_shape_of g _ ggi.n_local hn rfl rfl rfl rfl rfl rfl rfl⟩
  · exact ⟨_, create_graph_serial_arrays_spec f g a hready,
      serial_shape_of g _ a.n_local hna rfl rfl rfl rfl rfl rfl rfl⟩

/-- Witness of C18: the four ring edges of process 0 with weights 1 to 4, the
two-dimensional weight arrays of process 0, and a graph that still records three
ghosts from an earlier use. -/
theorem C18_serial_constructors_no_ghosts_witness :
    (∃ g', create_graph_serial { ring_input 0 with edge_weights := [1, 2, 3, 4] }
        { blank_graph with n_ghost := 3, ghost_unmap := some [9, 8, 7] } = some g' ∧
      serial_shape { blank_graph with n_ghost := 3, ghost_unmap := some [9, 8, 7] } g' 4) ∧
    (∃ g', create_graph_serial_weighted { ring_input 0 with edge_weights := [1, 2, 3, 4] }
        { blank_graph with n_ghost := 3, ghost_unmap := some [9, 8, 7] } = some g' ∧
      serial_shape { blank_graph with n_ghost := 3, ghost_unmap := some [9, 8, 7] } g' 4) ∧
    (∃ g', create_graph_serial_arrays (fun s => s)
        { blank_graph with n_ghost := 3, ghost_unmap := some [9, 8, 7] }
        (two_weight_args 0) = some g' ∧
      serial_shape { blank_graph with n_ghost := 3, ghost_unmap := some [9, 8, 7] } g' 2) ∧
    (owned_block.ghost_unmap ∈
        clear_graph { blank_graph with n_ghost := 3, ghost_unmap := some [9, 8, 7] } ↔ 0 < 3) ∧
    (owned_block.ghost_tasks ∈
        clear_graph { blank_graph with n_ghost := 3, ghost_unmap := some [9, 8, 7] } ↔ 0 < 3) :=
  C18_serial_constructors_no_ghosts { ring_input 0 with edge_weights := [1, 2, 3, 4] }
    (two_weight_args 0) (fun s => s)
    { blank_graph with n_ghost := 3, ghost_unmap := some [9, 8, 7] }
    (by decide) (by decide) (by decide) (by decide) (by decide) (by decide) (by decide)
    (by decide)

/-- C19. `relabel_edges` assigns ghost indices in first-seen order: on a
well-formed graph, `ghost_unmap` (read as empty when null) lists without
repetition exactly the non-owned global ids of `out_edges`, ordered by the
position of their first occurrence in `out_edges`; and every occurrence of
`ghost_unmap[j]` in `out_edges` is replaced by `n_local + j`. -/
theorem C19_first_seen_order (nprocs : Nat) (g : dist_graph_t)
    (vert_dist : Option (List Nat)) (h : relabel_ready nprocs g) :
    ∃ g', relabel_edges nprocs g vert_dist = some g' ∧
      (g'.ghost_unmap.getD []).Nodup ∧
      (∀ v, v ∈ g'.ghost_unmap.getD [] ↔ v ∈ g.out_edges ∧ v ∉ g.local_unmap) ∧
      (∀ i j, i < j → j < (g'.ghost_unmap.getD []).length →
        g.out_edges.indexOf ((g'.ghost_unmap.getD []).getD i 0)
          < g.out_edges.indexOf ((g'.ghost_unmap.getD []).getD j 0)) ∧
      ∀ k j v, k < g.m_local → g.out_edges[k]? = some v →
        (g'.ghost_unmap.getD [])[j]? = some v → g'.out_edges[k]? = some (g'.n_local + j) := by
  obtain ⟨mp, hrel, _, _⟩ := relabel_edges_spec nprocs g vert_dist h
  obtain ⟨hL, hOE, _, _, _⟩ := h
  have hnd : (ghosts_of g).Nodup := ghosts_nodup _ _ _ _
  have hgu : (relabeled_graph nprocs g vert_dist mp).ghost_unmap.getD [] = ghosts_of g :=
    ghost_list_getD (ghosts_of g)
  refine ⟨_, hrel, ?_, ?_, ?_, ?_⟩
  · rw [hgu]; exact hnd
  · intro v; rw [hgu]; exact ghosts_of_mem_iff g hL hOE v
  · rw [hgu]
    exact (ghosts_seen_order g.local_unmap g.n_local g.out_edges g.m_local
      (by rw [hOE])).2
  · intro k j v hk hkv hjv
    rw [hgu] at hjv
    show (g.out_edges.map (local_label g.local_unmap g.n_local (ghosts_of g)))[k]?
      = some (g.n_local + j)
    rw [List.getElem?_map, hkv, Option.map_some']
    have hjlt : j < (ghosts_of g).length := by
      by_contra hge
      rw [List.getElem?_eq_none (by omega)] at hjv
      exact Option.noConfusion hjv
    have hmem : v ∈ ghosts_of g := List.getElem?_mem hjv
    have hidx : (ghosts_of g).indexOf v = j := by
      rw [List.getElem?_eq_getElem hjlt] at hjv
      rw [← Option.some.inj hjv]
      exact List.indexOf_getElem hnd j hjlt
    rcases local_label_cases g hL hOE v (List.getElem?_mem hkv) with
      ⟨hown, _, _⟩ | ⟨_, _, hlab, _, _⟩
    · exact absurd hown ((ghosts_of_mem_iff g hL hOE v).mp hmem).2
    · rw [hlab, hidx]

/-- Witness of C19: a process that owns the ids 0 and 1 and whose `out_edges`
are `[7, 5, 7, 3, 5]`: the ghosts are discovered in the order 7, 5, 3. -/
theorem C19_first_seen_order_witness :
    ∃ g', relabel_edges 4 { blank_graph with
        n := 8, m := 5, n_local := 2, m_local := 5, out_edges := [7, 5, 7, 3, 5],
        out_degree_list := [0, 3, 5], local_unmap := [0, 1] } none = some g' ∧
      (g'.ghost_unmap.getD []).Nodup ∧
      (∀ v, v ∈ g'.ghost_unmap.getD [] ↔
        v ∈ [7, 5, 7, 3, 5] ∧ v ∉ [0, 1]) ∧
      (∀ i j, i < j → j < (g'.ghost_unmap.getD []).length →
        [7, 5, 7, 3, 5].indexOf ((g'.ghost_unmap.getD []).getD i 0)
          < [7, 5, 7, 3, 5].indexOf ((g'.ghost_unmap.getD []).getD j 0)) ∧
      ∀ k j v, k < 5 → [7, 5, 7, 3, 5][k]? = some v →
        (g'.ghost_unmap.getD [])[j]? = some v → g'.out_edges[k]? = some (g'.n_local + j) :=
  C19_first_seen_order 4 { blank_graph with
      n := 8, m := 5, n_local := 2, m_local := 5, out_edges := [7, 5, 7, 3, 5],
      out_degree_list := [0, 3, 5], local_unmap := [0, 1] } none
    ⟨by decide, by decide, by decide, by decide, by decide⟩

/-- C20. In the generator-input constructors `create_graph` and
`create_graph_weighted`, for every `n ≥ 1` (a `uint64_t`) and a local range
whose ids are representable (`n_offset + n_local ≤ 2^64`), on input with
in-range sources: for every local index `i < n_local`,
`local_unmap[i] = i + n_offset` when `i + n_offset < n` and
`local_unmap[i] = n - 1` otherwise; hence every `local_unmap` entry is a valid
global id (`< n`). -/
theorem C20_local_unmap_clamped :
    (∀ (ggi : graph_gen_data_t) (g : dist_graph_t),
      2 * ggi.m_local_edges ≤ ggi.gen_edges.length →
      (∀ k, k < ggi.m_local_edges → ggi.n_offset ≤ ggi.gen_edges.getD (2 * k) 0 ∧
        ggi.gen_edges.getD (2 * k) 0 < ggi.n_offset + ggi.n_local) →
      1 ≤ ggi.n → ggi.n < U64 → ggi.n_offset + ggi.n_local ≤ U64 →
      ∃ g', create_graph ggi g = some g' ∧
        (∀ i, i < ggi.n_local →
          (i + ggi.n_offset < ggi.n → g'.local_unmap[i]? = some (i + ggi.n_offset)) ∧
          (ggi.n ≤ i + ggi.n_offset → g'.local_unmap[i]? = some (ggi.n - 1))) ∧
        ∀ x, x ∈ g'.local_unmap → x < ggi.n) ∧
    (∀ (ggi : graph_gen_data_t) (g : dist_graph_t),
      3 * ggi.m_local_edges ≤ ggi.gen_edges.length →
      (∀ k, k < ggi.m_local_edges → ggi.n_offset ≤ ggi.gen_edges.getD (3 * k) 0 ∧
        ggi.gen_edges.getD (3 * k) 0 < ggi.n_offset + ggi.n_local) →
      1 ≤ ggi.n → ggi.n < U64 → ggi.n_offset + ggi.n_local ≤ U64 →
      ∃ g', create_graph_weighted ggi g = some g' ∧
        (∀ i, i < ggi.n_local →
          (i + ggi.n_offset < ggi.n → g'.local_unmap[i]? = some (i + ggi.n_offset)) ∧
          (ggi.n ≤ i + ggi.n_offset → g'.local_unmap[i]? = some (ggi.n - 1))) ∧
        ∀ x, x ∈ g'.local_unmap → x < ggi.n) := by
  have hval : ∀ (n nl off : Nat), 1 ≤ n → n < U64 → off + nl ≤ U64 →
      (∀ i, i < nl →
        (i + off < n → (local_unmap_clamped n nl off)[i]? = some (i + off)) ∧
        (n ≤ i + off → (local_unmap_clamped n nl off)[i]? = some (n - 1))) ∧
      ∀ x, x ∈ local_unmap_clamped n nl off → x < n := by
    intro n nl off h1 h2 hfit
    constructor
    · intro i hi
      have h := local_unmap_clamped_value n nl off i hi hfit h1 (Nat.le_of_lt h2)
      constructor
      · intro hlt; rw [h, if_pos hlt]
      · intro hge; rw [h, if_neg (by omega)]
    · intro x hx
      obtain ⟨i, hi⟩ := List.getElem?_of_mem hx
      have hlt : i < nl := by
        by_contra hge
        rw [List.getElem?_eq_none (by rw [local_unmap_clamped_length]; omega)] at hi
        exact Option.noConfusion hi
      rw [local_unmap_clamped_value n nl off i hlt hfit h1 (Nat.le_of_lt h2)] at hi
      have := Option.some.inj hi
      by_cases hc : i + off < n
      · rw [if_pos hc] at this; omega
      · rw [if_neg hc] at this; omega
  constructor
  · intro ggi g hlen hsrc h1 h2 hfit
    obtain ⟨oe, hcg, _, _⟩ := create_graph_spec ggi g (fun k hk => by omega)
      (fun k hk => sub64_lt_of_mem_range (hsrc k hk).1 (hsrc k hk).2)
    exact ⟨_, hcg, hval _ _ _ h1 h2 hfit⟩
  · intro ggi g hlen hsrc h1 h2 hfit
    obtain ⟨oe, ew, hcg, _⟩ := create_graph_weighted_spec ggi g (fun k hk => by omega)
      (fun k hk => sub64_lt_of_mem_range (hsrc k hk).1 (hsrc k hk).2)
    exact ⟨_, hcg, hval _ _ _ h1 h2 hfit⟩

/-- Witness of C20: `clamp_input`, where `local_unmap = [0, 1, 1]` (the last
entry is clamped to `n - 1 = 1`), and three weighted triples. -/
theorem C20_local_unmap_clamped_witness :
    (∃ g', create_graph clamp_input blank_graph = some g' ∧
      (∀ i, i < clamp_input.n_local →
        (i + clamp_input.n_offset < clamp_input.n →
          g'.local_unmap[i]? = some (i + clamp_input.n_offset)) ∧
        (clamp_input.n ≤ i + clamp_input.n_offset →
          g'.local_unmap[i]? = some (clamp_input.n - 1))) ∧
      ∀ x, x ∈ g'.local_unmap → x < clamp_input.n) ∧
    (∃ g', create_graph_weighted
        (gen_data 4 4 0 3 [1, 0, 7, 0, 2, 8, 1, 3, 9] []) blank_graph = some g' ∧
      (∀ i, i < 4 →
        (i + 0 < 4 → g'.local_unmap[i]? = some (i + 0)) ∧
        (4 ≤ i + 0 → g'.local_unmap[i]? = some (4 - 1))) ∧
      ∀ x, x ∈ g'.local_unmap → x < 4) :=
  ⟨C20_local_unmap_clamped.1 clamp_input blank_graph (by decide) (by decide)
      (by decide) (by decide) (by decide),
   C20_local_unmap_clamped.2 (gen_data 4 4 0 3 [1, 0, 7, 0, 2, 8, 1, 3, 9] []) blank_graph
      (by decide) (by decide) (by decide) (by decide) (by decide)⟩

/-- C21: in the weighted counting-sort constructors the weights stay attached to
their edges.  For `create_graph_weighted` (triples `(src, dst, weight)` in the
flat array) and `create_graph_serial_weighted` (pairs `(src, dst)` and a separate
weight array; the offset it subtracts is the 0 it has just set), with every
source in `[n_offset, n_offset + n_local)`: the constructor returns, and there is
a map `place` of the input edges `j < m_local` to positions that is a bijection
of `[0, m_local)` such that `out_edges[place j]` is the destination of edge `j`,
`edge_weights[place j]` is its weight cast to `int32_t`, and `place j` lies in
the slice `[out_degree_list[s], out_degree_list[s+1])` of the local index `s` of
its source. -/
theorem C21_weights_stay_attached :
    (∀ (ggi : graph_gen_data_t) (g : dist_graph_t),
      3 * ggi.m_local_edges ≤ ggi.gen_edges.length →
      ggi.n_local ≤ U64 →
      (∀ k, k < ggi.m_local_edges → ggi.n_offset ≤ ggi.gen_edges.getD (3 * k) 0 ∧
        ggi.gen_edges.getD (3 * k) 0 < ggi.n_offset + ggi.n_local) →
      ∃ (g' : dist_graph_t) (place : Nat → Nat), create_graph_weighted ggi g = some g' ∧
        g'.out_edges.length = ggi.m_local_edges ∧
        (g'.edge_weights.getD []).length = ggi.m_local_edges ∧
        (∀ j, j < ggi.m_local_edges → place j < ggi.m_local_edges) ∧
        (∀ i j, i < ggi.m_local_edges → j < ggi.m_local_edges → place i = place j → i = j) ∧
        (∀ k, k < ggi.m_local_edges → ∃ j, j < ggi.m_local_edges ∧ place j = k) ∧
        ∀ j, j < ggi.m_local_edges →
          g'.out_edges[place j]? = some (ggi.gen_edges.getD (3 * j + 1) 0) ∧
          (g'.edge_weights.getD [])[place j]?
            = some (to_int32 (Int.ofNat (ggi.gen_edges.getD (3 * j + 2) 0))) ∧
          g'.out_degree_list.getD (ggi.gen_edges.getD (3 * j) 0 - ggi.n_offset) 0 ≤ place j ∧
          place j
            < g'.out_degree_list.getD (ggi.gen_edges.getD (3 * j) 0 - ggi.n_offset + 1) 0) ∧
    (∀ (ggi : graph_gen_data_t) (g : dist_graph_t),
      2 * ggi.m_local_read ≤ ggi.gen_edges.length →
      ggi.m_local_read ≤ ggi.edge_weights.length →
      ggi.n_local ≤ U64 →
      (∀ k, k < ggi.m_local_read → ggi.gen_edges.getD (2 * k) 0 < ggi.n_local) →
      ∃ (g' : dist_graph_t) (place : Nat → Nat),
        create_graph_serial_weighted ggi g = some g' ∧
        g'.out_edges.length = ggi.m_local_read ∧
        (g'.edge_weights.getD []).length = ggi.m_local_read ∧
        (∀ j, j < ggi.m_local_read → place j < ggi.m_local_read) ∧
        (∀ i j, i < ggi.m_local_read → j < ggi.m_local_read → place i = place j → i = j) ∧
        (∀ k, k < ggi.m_local_read → ∃ j, j < ggi.m_local_read ∧ place j = k) ∧
        ∀ j, j < ggi.m_local_read →
          g'.out_edges[place j]? = some (ggi.gen_edges.getD (2 * j + 1) 0) ∧
          (g'.edge_weights.getD [])[place j]?
            = some (to_int32 (ggi.edge_weights.getD j 0)) ∧
          g'.out_degree_list.getD (ggi.gen_edges.getD (2 * j) 0) 0 ≤ place j ∧
          place j < g'.out_degree_list.getD (ggi.gen_edges.getD (2 * j) 0 + 1) 0) := by
  constructor
  · intro ggi g hlen hnl hsrc
    have hbk : ∀ k, k < ggi.m_local_edges →
        edge_bucket ggi.gen_edges 3 ggi.n_offset k
          = ggi.gen_edges.getD (3 * k) 0 - ggi.n_offset := fun k hk =>
      sub64_eq_of_mem_range (hsrc k hk).1 (hsrc k hk).2 hnl
    have hB : ∀ k, k < ggi.m_local_edges →
        edge_bucket ggi.gen_edges 3 ggi.n_offset k < ggi.n_local := fun k hk =>
      sub64_lt_of_mem_range (hsrc k hk).1 (hsrc k hk).2
    obtain ⟨oe, ew, hcg, hl, hlw, hv, hvw⟩ := create_graph_weighted_spec ggi g
      (fun k hk => by omega) hB
    refine ⟨_, slot (edge_bucket ggi.gen_edges 3 ggi.n_offset) ggi.m_local_edges, hcg, hl, hlw,
      fun j hj => slot_lt _ hj, ?_, fun k hk => slot_surj _ _ k hk, ?_⟩
    · intro i j hi hj hij
      by_contra hne
      rcases Nat.lt_or_gt_of_ne hne with hlt | hlt
      · exact slot_ne _ hlt hj hij
      · exact slot_ne _ hlt hi hij.symm
    · intro j hj
      have hb := hB j hj
      refine ⟨hv j hj, hvw j hj, ?_, ?_⟩
      · show ((List.range (ggi.n_local + 1)).map _).getD _ 0 ≤ _
        rw [← hbk j hj, degree_list_getD _ _ _ _ (by omega)]
        exact Nat.le_add_right _ _
      · show _ < ((List.range (ggi.n_local + 1)).map _).getD _ 0
        rw [← hbk j hj, degree_list_getD _ _ _ _ (by omega)]
        exact slot_lt_next _ hj
  · intro ggi g hlen hw hnl hsrc
    have hbk : ∀ k, k < ggi.m_local_read →
        edge_bucket ggi.gen_edges 2 0 k = ggi.gen_edges.getD (2 * k) 0 := fun k hk =>
      sub64_eq_of_mem_range (Nat.zero_le _) (by have := hsrc k hk; omega) hnl
    have hB : ∀ k, k < ggi.m_local_read → edge_bucket ggi.gen_edges 2 0 k < ggi.n_local :=
      fun k hk => by rw [hbk k hk]; exact hsrc k hk
    obtain ⟨oe, ew, hcg, hl, hlw, hv, hvw⟩ := create_graph_serial_weighted_spec ggi g
      (fun k hk => by omega) hw hB
    refine ⟨_, slot (edge_bucket ggi.gen_edges 2 0) ggi.m_local_read, hcg, hl, hlw,
      fun j hj => slot_lt _ hj, ?_, fun k hk => slot_surj _ _ k hk, ?_⟩
    · intro i j hi hj hij
      by_contra hne
      rcases Nat.lt_or_gt_of_ne hne with hlt | hlt
      · exact slot_ne _ hlt hj hij
      · exact slot_ne _ hlt hi hij.symm
    · intro j hj
      have hb := hB j hj
      refine ⟨hv j hj, hvw j hj, ?_, ?_⟩
      · show ((List.range (ggi.n_local + 1)).map _).getD _ 0 ≤ _
        rw [← hbk j hj, degree_list_getD _ _ _ _ (by omega)]
        exact Nat.le_add_right _ _
      · show _ < ((List.range (ggi.n_local + 1)).map _).getD _ 0
        rw [← hbk j hj, degree_list_getD _ _ _ _ (by omega)]
        exact slot_lt_next _ hj

/-- Witness of C21: the edges `1 → 0` (weight `2^32 + 5`, which the cast turns
into 5), `0 → 2` (weight 8) and `1 → 3` (weight 9).  Both constructors return
`out_edges = [2, 0, 3]`, `edge_weights = [8, 5, 9]` and
`out_degree_list = [0, 1, 3, 3, 3]`. -/
theorem C21_weights_stay_attached_witness :
    (∃ (g' : dist_graph_t) (place : Nat → Nat),
      create_graph_weighted weighted_triples_input blank_graph = some g' ∧
        g'.out_edges.length = weighted_triples_input.m_local_edges ∧
        (g'.edge_weights.getD []).length = weighted_triples_input.m_local_edges ∧
        (∀ j, j < weighted_triples_input.m_local_edges →
          place j < weighted_triples_input.m_local_edges) ∧
        (∀ i j, i < weighted_triples_input.m_local_edges →
          j < weighted_triples_input.m_local_edges → place i = place j → i = j) ∧
        (∀ k, k < weighted_triples_input.m_local_edges →
          ∃ j, j < weighted_triples_input.m_local_edges ∧ place j = k) ∧
        ∀ j, j < weighted_triples_input.m_local_edges →
          g'.out_edges[place j]? = some (weighted_triples_input.gen_edges.getD (3 * j + 1) 0) ∧
          (g'.edge_weights.getD [])[place j]?
            = some (to_int32 (Int.ofNat (weighted_triples_input.gen_edges.getD (3 * j + 2) 0))) ∧
          g'.out_degree_list.getD (weighted_triples_input.gen_edges.getD (3 * j) 0
            - weighted_triples_input.n_offset) 0 ≤ place j ∧
          place j < g'.out_degree_list.getD (weighted_triples_input.gen_edges.getD (3 * j) 0
            - weighted_triples_input.n_offset + 1) 0) ∧
    (∃ (g' : dist_graph_t) (place : Nat → Nat),
      create_graph_serial_weighted weighted_pairs_input blank_graph = some g' ∧
        g'.out_edges.length = weighted_pairs_input.m_local_read ∧
        (g'.edge_weights.getD []).length = weighted_pairs_input.m_local_read ∧
        (∀ j, j < weighted_pairs_input.m_local_read →
          place j < weighted_pairs_input.m_local_read) ∧
        (∀ i j, i < weighted_pairs_input.m_local_read →
          j < weighted_pairs_input.m_local_read → place i = place j → i = j) ∧
        (∀ k, k < weighted_pairs_input.m_local_read →
          ∃ j, j < weighted_pairs_input.m_local_read ∧ place j = k) ∧
        ∀ j, j < weighted_pairs_input.m_local_read →
          g'.out_edges[place j]? = some (weighted_pairs_input.gen_edges.getD (2 * j + 1) 0) ∧
          (g'.edge_weights.getD [])[place j]?
            = some (to_int32 (weighted_pairs_input.edge_weights.getD j 0)) ∧
          g'.out_degree_list.getD (weighted_pairs_input.gen_edges.getD (2 * j) 0) 0
            ≤ place j ∧
          place j
            < g'.out_degree_list.getD (weighted_pairs_input.gen_edges.getD (2 * j) 0 + 1) 0) ∧
    (create_graph_weighted weighted_triples_input blank_graph).map
        (fun g' => (g'.out_edges, g'.edge_weights, g'.out_degree_list))
      = some ([2, 0, 3], some [8, 5, 9], [0, 1, 3, 3, 3]) ∧
    (create_graph_serial_weighted weighted_pairs_input blank_graph).map
        (fun g' => (g'.out_edges, g'.edge_weights, g'.out_degree_list))
      = some ([2, 0, 3], some [8, 5, 9], [0, 1, 3, 3, 3]) :=
  ⟨C21_weights_stay_attached.1 weighted_triples_input blank_graph
      (by decide) (by decide) (by decide),
    C21_weights_stay_attached.2 weighted_pairs_input blank_graph
      (by decide) (by decide) (by decide) (by decide),
    by decide, by decide⟩

/-- C22: the scatter step of `get_ghost_degrees` on any receive buffer of
`total_recv` pairs `(global id, value)` and any array `ghost_degrees` that covers
the ghost indices.  First part: if every received id looks up in the map to an
index in `[n_local, n_total)`, and distinct received ids look up to distinct
indices, then the step returns, every received pair whose id occurs once leaves
`ghost_degrees[lookup(id) - n_local]` equal to its value, and an entry that is
the slot of no received id is unchanged.  Second part: if some received id looks
up outside `[n_local, n_total)`, the step fails with an assertion.  Third part:
in the map `relabel_edges` builds, distinct ids never look up to the same index
of `[n_local, n_total)`, so the condition of the first part holds for every
buffer. -/
theorem C22_scatter_step :
    (∀ (g : dist_graph_t) (comm : mpi_data_t) (gd0 : List Nat),
      comm.total_recv ≤ comm.recvbuf_vert.length →
      comm.total_recv ≤ comm.recvbuf_data.length →
      g.n_total ≤ g.n_local + gd0.length → g.n_total ≤ U64 →
      (∀ i, i < comm.total_recv → ghost_index_ok g (received_id comm i)) →
      (∀ i, i < comm.total_recv → ∀ i', i' < comm.total_recv →
        get_value g.map (received_id comm i) = get_value g.map (received_id comm i') →
        received_id comm i = received_id comm i') →
      ∃ gd, scatter_degrees g comm gd0 = Except.ok gd ∧ gd.length = gd0.length ∧
        (∀ i, i < comm.total_recv →
          (∀ i', i' < comm.total_recv → received_id comm i' = received_id comm i → i' = i) →
          gd[ghost_slot g (received_id comm i)]? = some (received_value comm i)) ∧
        ∀ j, (∀ i, i < comm.total_recv → ghost_slot g (received_id comm i) ≠ j) →
          gd[j]? = gd0[j]?) ∧
    (∀ (g : dist_graph_t) (comm : mpi_data_t) (gd0 : List Nat),
      comm.total_recv ≤ comm.recvbuf_vert.length →
      comm.total_recv ≤ comm.recvbuf_data.length →
      g.n_total ≤ g.n_local + gd0.length → g.n_total ≤ U64 →
      (∃ i, i < comm.total_recv ∧ ¬ ghost_index_ok g (received_id comm i)) →
      scatter_degrees g comm gd0 = Except.error fault.assertion) ∧
    (∀ (nprocs : Nat) (g : dist_graph_t) (vert_dist : Option (List Nat)),
      relabel_ready nprocs g →
      ∃ g', relabel_edges nprocs g vert_dist = some g' ∧
        ∀ v v', ghost_index_ok g' v → get_value g'.map v = get_value g'.map v' → v = v') := by
  refine ⟨?_, ?_, ?_⟩
  · intro g comm gd0 hv hd hcap hU hok hinj
    rcases scatter_degrees_prefix g comm gd0 hv hd hcap hU comm.total_recv (Nat.le_refl _) with
      ⟨_, gd, hgd, hl, hun, hw⟩ | ⟨⟨i, hi, hbad⟩, _⟩
    · refine ⟨gd, hgd, hl, ?_, hun⟩
      intro i hi honce
      apply hw i hi
      intro i' hi' hlt hslot
      have h1 := hok i hi
      have h2 := hok i' hi'
      have heq : get_value g.map (received_id comm i') = get_value g.map (received_id comm i) := by
        unfold ghost_slot at hslot
        have := h1.1
        have := h2.1
        omega
      have := honce i' hi' (hinj i' hi' i hi heq)
      omega
    · exact absurd (hok i hi) hbad
  · intro g comm gd0 hv hd hcap hU hbad
    rcases scatter_degrees_prefix g comm gd0 hv hd hcap hU comm.total_recv (Nat.le_refl _) with
      ⟨hgood, _⟩ | ⟨_, herr⟩
    · obtain ⟨i, hi, hb⟩ := hbad
      exact absurd (hgood i hi) hb
    · exact herr
  · intro nprocs g vd h
    obtain ⟨mp, hrel, _, _⟩ := relabeled_spec nprocs vd g h
    exact ⟨_, hrel, fun v v' hok heq => relabeled_lookup_inj nprocs vd g h v v' hok heq⟩

/-- Witness of C22: the process that owns the ids 0 and 1 and has the ghosts 7,
5 and 3 at the local indices 2, 3 and 4.  The buffer `(5, 10), (7, 20), (5, 11)`
is scattered into `[0, 0, 99]`: the id 7 occurs once and its entry 0 becomes 20,
entry 2 of ghost 3 keeps 99.  The buffer `(7, 20), (0, 1)` holds the owned id 0
and the buffer `(9, 1)` the absent id 9: both fail with an assertion. -/
theorem C22_scatter_step_witness :
    (∃ gd, scatter_degrees ghost_sample
        { total_recv := 3, recvbuf_vert := [5, 7, 5], recvbuf_data := [10, 20, 11] } [0, 0, 99]
        = Except.ok gd ∧ gd.length = [0, 0, 99].length ∧
      (∀ i, i < 3 →
        (∀ i', i' < 3 → [5, 7, 5].getD i' 0 = [5, 7, 5].getD i 0 → i' = i) →
        gd[ghost_slot ghost_sample ([5, 7, 5].getD i 0)]? = some ([10, 20, 11].getD i 0)) ∧
      ∀ j, (∀ i, i < 3 → ghost_slot ghost_sample ([5, 7, 5].getD i 0) ≠ j) →
        gd[j]? = [0, 0, 99][j]?) ∧
    scatter_degrees ghost_sample
        { total_recv := 2, recvbuf_vert := [7, 0], recvbuf_data := [20, 1] } [0, 0, 99]
      = Except.error fault.assertion ∧
    scatter_degrees ghost_sample
        { total_recv := 1, recvbuf_vert := [9], recvbuf_data := [1] } [0, 0, 99]
      = Except.error fault.assertion ∧
    scatter_degrees ghost_sample
        { total_recv := 3, recvbuf_vert := [5, 7, 5], recvbuf_data := [10, 20, 11] } [0, 0, 99]
      = Except.ok [20, 11, 99] ∧
    (∃ g', relabel_edges 4 scan_sample none = some g' ∧
      ∀ v v', ghost_index_ok g' v → get_value g'.map v = get_value g'.map v' → v = v') :=
  ⟨C22_scatter_step.1 ghost_sample
      { total_recv := 3, recvbuf_vert := [5, 7, 5], recvbuf_data := [10, 20, 11] } [0, 0, 99]
      (by decide) (by decide) (by decide) (by decide) (by decide) (by decide),
    C22_scatter_step.2.1 ghost_sample
      { total_recv := 2, recvbuf_vert := [7, 0], recvbuf_data := [20, 1] } [0, 0, 99]
      (by decide) (by decide) (by decide) (by decide) (by decide),
    by decide, by decide,
    C22_scatter_step.2.2 4 scan_sample none (by decide)⟩

/-- C23: the default owner is a valid rank.  For `nprocs ≥ 1` (with
`n / nprocs + 1` a `uint64_t`) and every global id `v < n`, the owner
`v / (n / nprocs + 1)` is below `nprocs`; and when `relabel_edges` runs without a
distribution array on a graph whose ghost ids are below `n`, every entry it
writes to `ghost_tasks` is below `nprocs`. -/
theorem C23_default_owner_in_range (nprocs : Nat) (g : dist_graph_t)
    (h : relabel_ready nprocs g)
    (hid : ∀ v, v ∈ g.out_edges → v ∉ g.local_unmap → v < g.n) :
    (∀ v, v < g.n → ghost_owner nprocs g.n none v < nprocs) ∧
    ∃ g', relabel_edges nprocs g none = some g' ∧
      (g'.ghost_tasks.getD []).length = g'.n_ghost ∧
      ∀ t, t ∈ g'.ghost_tasks.getD [] → t < nprocs := by
  have hown : ∀ v, v < g.n → ghost_owner nprocs g.n none v < nprocs := fun v hv =>
    default_owner_lt g.n nprocs v h.2.2.2.1 hv
  obtain ⟨mp, hrel, _, _⟩ := relabel_edges_spec nprocs g none h
  refine ⟨hown, _, hrel, ?_, ?_⟩
  · show ((if 0 < (ghosts_of g).length
        then some ((ghosts_of g).map (ghost_owner nprocs g.n none)) else none).getD []).length
      = (ghosts_of g).length
    rw [ghost_tasks_getD, List.length_map]
  · intro t ht
    have ht' : t ∈ (ghosts_of g).map (ghost_owner nprocs g.n none) := by
      rw [← ghost_tasks_getD]
      exact ht
    obtain ⟨v, hv, rfl⟩ := List.mem_map.mp ht'
    have hmem := (ghosts_of_mem_iff g h.1 h.2.1 v).mp hv
    exact hown v (hid v hmem.1 hmem.2)

/-- Witness of C23: process 3 of the ring with 4 processes, whose ghost is the
global id 0. -/
theorem C23_default_owner_in_range_witness :
    (∀ v, v < (ring_graph 3).n → ghost_owner 4 (ring_graph 3).n none v < 4) ∧
    ∃ g', relabel_edges 4 (ring_graph 3) none = some g' ∧
      (g'.ghost_tasks.getD []).length = g'.n_ghost ∧
      ∀ t, t ∈ g'.ghost_tasks.getD [] → t < 4 :=
  C23_default_owner_in_range 4 (ring_graph 3) (by decide) (by decide)

/-- C24: `get_max_degree_vert` returns a real vertex exactly when the graph has
an edge.  On processes whose degree and id arrays have their sizes and whose
global ids are below `n < 2^64`, all processes get the same `max_degree = D` and
`max_degree_vert = V`.  `D > 0` holds exactly when some local vertex of some
process has an out-edge, and then `V` is the entry `local_unmap[i]` of a local
vertex `i` of some process whose out-degree is `D`.  If every local vertex of
every process has out-degree 0, then `D = 0` and `V = 2^64 - 1`, which occurs in
no `local_unmap`. -/
theorem C24_max_degree_vert_is_vertex (gs : List dist_graph_t)
    (hlen : ∀ g, g ∈ gs →
      g.out_degree_list.length = g.n_local + 1 ∧ g.local_unmap.length = g.n_local)
    (hid : ∀ g, g ∈ gs → g.n < U64 ∧ ∀ x, x ∈ g.local_unmap → x < g.n) :
    ∃ D V, get_max_degree_vert_all gs
        = some (gs.map (fun g => { g with max_degree_vert := V, max_degree := D })) ∧
      (0 < D ↔ ∃ g, g ∈ gs ∧ ∃ i, i < g.n_local ∧ 0 < degree_at g i) ∧
      (0 < D → ∃ g, g ∈ gs ∧ ∃ i, i < g.n_local ∧
        g.local_unmap[i]? = some V ∧ degree_at g i = D) ∧
      ((∀ g, g ∈ gs → ∀ i, i < g.n_local → degree_at g i = 0) →
        D = 0 ∧ V = U64 - 1 ∧ ∀ g, g ∈ gs → V ∉ g.local_unmap) := by
  have hU := U64_eq
  have hready : ∀ g, g ∈ gs → degree_ready g := fun g hg =>
    ⟨(hlen g hg).1, (hlen g hg).2, fun x hx => by
      have := (hid g hg).2 x hx
      have := (hid g hg).1
      omega⟩
  have hwin : ∀ g, g ∈ gs → 0 < (max_scan g g.n_local).1 →
      ∃ i, i < g.n_local ∧ degree_at g i = (max_scan g g.n_local).1 ∧
        g.local_unmap[i]? = some ((max_scan g g.n_local).2) ∧
        (max_scan g g.n_local).2 < U64 - 1 := by
    intro g hg hpos
    obtain ⟨i, hi, h1, _, h3⟩ := max_scan_pos g g.n_local hpos
    have hget : g.local_unmap[i]? = some (g.local_unmap.getD i 0) :=
      rd_getD g.local_unmap i 0 (by rw [(hlen g hg).2]; exact hi)
    refine ⟨i, hi, h1, by rw [h3]; exact hget, ?_⟩
    rw [h3]
    have := (hid g hg).2 _ (List.getElem?_mem hget)
    have := (hid g hg).1
    omega
  have hatt : 0 < reduced_max_degree gs → ∃ g, g ∈ gs ∧ ∃ i, i < g.n_local ∧
      g.local_unmap[i]? = some (reduced_max_vert gs) ∧ degree_at g i = reduced_max_degree gs := by
    intro hD
    rcases reduced_max_vert_cases gs with hV | ⟨g, hg, he, hV⟩
    · obtain ⟨g, hg, he⟩ := reduced_max_degree_attained gs hD
      obtain ⟨i, _, _, _, hlt⟩ := hwin g hg (by rw [he]; exact hD)
      have hle := reduced_max_vert_le gs g hg he
      omega
    · obtain ⟨i, hi, h1, h2, _⟩ := hwin g hg (by rw [he]; exact hD)
      exact ⟨g, hg, i, hi, by rw [hV]; exact h2, by rw [h1, he]⟩
  have hzero : reduced_max_degree gs = 0 → reduced_max_vert gs = U64 - 1 := by
    intro hD
    rcases reduced_max_vert_cases gs with hV | ⟨g, hg, he, hV⟩
    · exact hV
    · rw [hV]
      exact max_scan_zero g g.n_local (by rw [he, hD])
  refine ⟨reduced_max_degree gs, reduced_max_vert gs,
    get_max_degree_vert_all_spec gs hready, ⟨?_, ?_⟩, hatt, ?_⟩
  · intro hD
    obtain ⟨g, hg, i, hi, _, hdeg⟩ := hatt hD
    exact ⟨g, hg, i, hi, by rw [hdeg]; exact hD⟩
  · rintro ⟨g, hg, i, hi, hpos⟩
    have h1 := max_scan_le g g.n_local i hi
    have h2 := reduced_max_degree_ge gs g hg
    omega
  · intro hall
    have hD : reduced_max_degree gs = 0 := by
      by_contra hne
      obtain ⟨g, hg, i, hi, _, hdeg⟩ := hatt (Nat.pos_of_ne_zero hne)
      have := hall g hg i hi
      omega
    refine ⟨hD, hzero hD, ?_⟩
    intro g hg hmem
    have := (hid g hg).2 _ hmem
    have := (hid g hg).1
    have := hzero hD
    omega

/-- Witness of C24: the two processes of `degree_sample`, whose maximum degree
3 is reached first by the vertices 5 and 2, get `max_degree_vert = 2`; the
process with one isolated vertex gets `max_degree = 0` and
`max_degree_vert = 2^64 - 1`. -/
theorem C24_max_degree_vert_is_vertex_witness :
    (∃ D V, get_max_degree_vert_all [degree_sample 0, degree_sample 1]
        = some ([degree_sample 0, degree_sample 1].map
            (fun g => { g with max_degree_vert := V, max_degree := D })) ∧
      (0 < D ↔ ∃ g, g ∈ [degree_sample 0, degree_sample 1] ∧
        ∃ i, i < g.n_local ∧ 0 < degree_at g i) ∧
      (0 < D → ∃ g, g ∈ [degree_sample 0, degree_sample 1] ∧ ∃ i, i < g.n_local ∧
        g.local_unmap[i]? = some V ∧ degree_at g i = D) ∧
      ((∀ g, g ∈ [degree_sample 0, degree_sample 1] →
          ∀ i, i < g.n_local → degree_at g i = 0) →
        D = 0 ∧ V = U64 - 1 ∧ ∀ g, g ∈ [degree_sample 0, degree_sample 1] →
          V ∉ g.local_unmap)) ∧
    (∃ D V, get_max_degree_vert_all [isolated_graph]
        = some ([isolated_graph].map
            (fun g => { g with max_degree_vert := V, max_degree := D })) ∧
      (0 < D ↔ ∃ g, g ∈ [isolated_graph] ∧ ∃ i, i < g.n_local ∧ 0 < degree_at g i) ∧
      (0 < D → ∃ g, g ∈ [isolated_graph] ∧ ∃ i, i < g.n_local ∧
        g.local_unmap[i]? = some V ∧ degree_at g i = D) ∧
      ((∀ g, g ∈ [isolated_graph] → ∀ i, i < g.n_local → degree_at g i = 0) →
        D = 0 ∧ V = U64 - 1 ∧ ∀ g, g ∈ [isolated_graph] → V ∉ g.local_unmap)) ∧
    (get_max_degree_vert_all [degree_sample 0, degree_sample 1]).map
        (fun gs => gs.map (fun g => (g.max_degree, g.max_degree_vert)))
      = some [(3, 2), (3, 2)] ∧
    (∀ g, g ∈ [isolated_graph] → ∀ i, i < g.n_local → degree_at g i = 0) :=
  ⟨C24_max_degree_vert_is_vertex [degree_sample 0, degree_sample 1] (by decide) (by decide),
    C24_max_degree_vert_is_vertex [isolated_graph] (by decide) (by decide),
    by decide, by decide⟩

end XtraPuLP
